import Mathlib

/-!
# fastd: the composed-gmac method provider, handshake records and the configuration

A shallow embedding of `src/methods/composed_gmac/composed_gmac.c` together with the parts of
the method layer it relies on, of the buffer allocation of `src/fastd.h`, of the handshake record
encoders of `src/handshake.h` and of the configuration functions of `src/config.c`, followed by
theorems about method names, the wire layout, the encrypt/decrypt round trip, the replay window,
the send nonce, handshake records, buffer bounds, the configuration checks and the reload of
the peer directories.

Bytes are natural numbers (a well-formed byte is below 256).  A memory region is a list of
bytes; a C string is the part of a character array before its first NUL.
-/

namespace Fastd

/-! ## Bytes, blocks and memory regions -/

/-- Exactly `n` bytes starting at the beginning of `xs`; bytes past the end of `xs` read as 0. -/
def bytes_fit (n : Nat) (xs : List Nat) : List Nat :=
  (xs ++ List.replicate n 0).take n

/-- The `len` bytes of region `mem` that start at offset `off`. -/
def mem_read (mem : List Nat) (off len : Nat) : List Nat :=
  bytes_fit len (mem.drop off)

/-- The array `a` after `src` has been stored at offset `off` (`memcpy(a+off, src, |src|)`).  A
store that reaches past the end of the array is undefined in C; here it lengthens the array. -/
def arr_write {α : Type} (a : List α) (off : Nat) (src : List α) : List α :=
  a.take off ++ src ++ a.drop (off + src.length)

/-- The size of a `fastd_block128_t`. -/
def BLOCK : Nat := 16

/-- The constant `ZERO_BLOCK`: a block of zeros. -/
def ZERO_BLOCK : List Nat := List.replicate 16 0

/-- Modelled from the spec: `xor_a` is declared outside the sources at hand; it replaces a block
by its bytewise XOR with a second block. -/
def xor_a (x a : List Nat) : List Nat :=
  List.zipWith (fun p q => p ^^^ q) x a

/-- Modelled from the spec: `block_equal` is declared outside the sources at hand; it compares
two blocks byte by byte. -/
def block_equal (a b : List Nat) : Bool :=
  decide (a = b)

/-- Modelled from the spec: `block_count` is declared outside the sources at hand; it is the
number of `a`-byte blocks needed to hold `l` bytes. -/
def block_count (l a : Nat) : Nat :=
  (l + a - 1) / a

/-- Modelled from the spec: `alignto` is declared outside the sources at hand; it rounds `l` up
to the next multiple of `a` (the padded size of `l` bytes). -/
def alignto (l a : Nat) : Nat :=
  block_count l a * a

/-! ## Buffers (`fastd.h`) -/

/-- A `fastd_buffer` as the method layer uses it: `head_space` is `data - base`, `data` holds the
`len` bytes at the data pointer and `tail` the bytes of memory behind `data + len`: the rest of
the block of the buffer, and what has been stored behind the end of the block. -/
structure fastd_buffer where
  head_space : Nat
  data : List Nat
  tail : List Nat
  deriving DecidableEq, Repr

/-- The field `len` of a buffer. -/
def fastd_buffer.len (b : fastd_buffer) : Nat :=
  b.data.length

/-- The region that starts at the data pointer and runs to the end of `tail`. -/
def fastd_buffer.mem (b : fastd_buffer) : List Nat :=
  b.data ++ b.tail

/-- The buffer whose region at the data pointer has been replaced by `mem`, keeping `len`. -/
def fastd_buffer.with_mem (b : fastd_buffer) (mem : List Nat) : fastd_buffer :=
  { b with data := mem.take b.data.length, tail := mem.drop b.data.length }

/-- The function `fastd_buffer_alloc` of `fastd.h`: a buffer of `len` data bytes behind
`head_space` bytes of head space.  The block comes from `malloc(head_space+len)`, so no byte of
the tail space belongs to it, although the recorded `base_len` counts `tail_space`.  The contents
of fresh memory are indeterminate; they are taken to be zero. -/
def fastd_buffer_alloc (len head_space _tail_space : Nat) : fastd_buffer :=
  { head_space := head_space
    data := List.replicate len 0
    tail := [] }

/-- Modelled from the spec: `fastd_buffer_push_head` is declared outside the sources at hand; it
pushes the head pointer forward by `n` bytes, shrinking the length by `n`. -/
def fastd_buffer_push_head (b : fastd_buffer) (n : Nat) : fastd_buffer :=
  { b with head_space := b.head_space + n, data := b.data.drop n }

/-! ## The common method layer (`methods/common.h`, not among the sources at hand) -/

/-- Modelled from the spec: `COMMON_NONCEBYTES` is declared outside the sources at hand; the
packet nonce has 6 bytes. -/
def COMMON_NONCEBYTES : Nat := 6

/-- Modelled from the spec: `COMMON_FLAGBYTES` is declared outside the sources at hand; the flags
field has 1 byte. -/
def COMMON_FLAGBYTES : Nat := 1

/-- Modelled from the spec: `COMMON_HEADBYTES` is declared outside the sources at hand; the common
header is the nonce followed by the flags field. -/
def COMMON_HEADBYTES : Nat := COMMON_NONCEBYTES + COMMON_FLAGBYTES

/-- The 6 bytes of a nonce, least significant byte first. -/
def nonce_bytes (n : Nat) : List Nat :=
  [n % 256, n / 2 ^ 8 % 256, n / 2 ^ 16 % 256, n / 2 ^ 24 % 256, n / 2 ^ 32 % 256,
    n / 2 ^ 40 % 256]

/-- The integer that a list of bytes denotes, least significant byte first. -/
def nonce_value : List Nat → Nat
  | [] => 0
  | b :: bs => b + 256 * nonce_value bs

/-- Modelled from the spec: `fastd_method_common_t` is declared outside the sources at hand.  The
common session state holds the 48-bit send nonce and the receive replay window: a 64-bit bitmap
whose most significant bit stands for the nonce `window_max` and whose bit `i` stands for the
nonce `window_base + i`, with `window_base = window_max - 63`. -/
structure fastd_method_common where
  send_nonce : Nat
  window_max : Nat
  window : Nat
  deriving DecidableEq, Repr

/-- The anchor of the replay window. -/
def fastd_method_common.window_base (c : fastd_method_common) : Int :=
  (c.window_max : Int) - 63

/-- Modelled from the spec: `fastd_method_increment_nonce` is declared outside the sources at
hand; each side increments its 48-bit send nonce by 2. -/
def fastd_method_increment_nonce (c : fastd_method_common) : fastd_method_common :=
  { c with send_nonce := (c.send_nonce + 2) % 2 ^ 48 }

/-- Modelled from the spec: `fastd_method_expand_nonce` is declared outside the sources at hand;
it expands the 6-byte packet nonce to the IV width `len` of a cipher, padding the most
significant end with zeros. -/
def fastd_method_expand_nonce (nonce : Nat) (len : Nat) : List Nat :=
  bytes_fit len (nonce_bytes nonce)

/-- Modelled from the spec: `fastd_method_put_common_header` is declared outside the sources at
hand; it prepends the common header, the 6-byte little-endian nonce followed by the flags byte,
to the buffer, using `COMMON_HEADBYTES` bytes of head space. -/
def fastd_method_put_common_header (b : fastd_buffer) (nonce : Nat) (flags : Nat) :
    fastd_buffer :=
  { b with
    head_space := b.head_space - COMMON_HEADBYTES
    data := nonce_bytes nonce ++ [flags] ++ b.data }

/-- What `fastd_method_handle_common_header` hands back: its return value, the buffer with the
header stripped, and the out-parameters `nonce`, `flags` and `age`. -/
structure common_header where
  ok : Bool
  buffer : fastd_buffer
  nonce : Nat
  flags : Nat
  age : Int
  deriving DecidableEq, Repr

/-- Modelled from the spec: `fastd_method_handle_common_header` is declared outside the sources at
hand; it parses the common header off the buffer, extracts nonce and flags, and consults the
replay window without changing it: `age` is the distance of the nonce below the window maximum,
and a nonce below the window base is not acceptable. -/
def fastd_method_handle_common_header (c : fastd_method_common) (b : fastd_buffer) :
    common_header :=
  let nonce := nonce_value (b.data.take COMMON_NONCEBYTES)
  let flags := (b.data.drop COMMON_NONCEBYTES).headD 0
  let age : Int := (c.window_max : Int) - (nonce : Int)
  { ok := decide (age ≤ 63)
    buffer := fastd_buffer_push_head b COMMON_HEADBYTES
    nonce := nonce
    flags := flags
    age := age }

/-- Modelled from the spec: `fastd_tristate_t` is declared outside the sources at hand; `set`
tells whether `state` carries a value. -/
structure fastd_tristate where
  set : Bool
  state : Bool
  deriving DecidableEq, Repr

/-- Modelled from the spec: `fastd_method_reorder_check` is declared outside the sources at hand.
A nonce above the window maximum shifts the bitmap by the distance, sets the most significant bit
and advances the window (accepted, not reordered); a nonce below the window base is dropped; a
nonce inside the window is dropped if its bit is set, otherwise its bit is set and it is accepted
as reordered. -/
def fastd_method_reorder_check (c : fastd_method_common) (nonce : Nat) (age : Int) :
    fastd_tristate × fastd_method_common :=
  if age < 0 then
    ({ set := true, state := false },
      { c with window := (c.window >>> (-age).toNat) ||| 2 ^ 63, window_max := nonce })
  else if 63 < age then
    ({ set := false, state := false }, c)
  else if c.window.testBit (63 - age.toNat) then
    ({ set := false, state := false }, c)
  else
    ({ set := true, state := true }, { c with window := c.window ||| 2 ^ (63 - age.toNat) })

/-! ## Cipher and MAC primitives (`crypto.h`, not among the sources at hand) -/

/-- Modelled from the spec: `fastd_cipher_info_t` is declared outside the sources at hand; a
cipher supplies its key length and its IV length (0 when it takes no IV). -/
structure fastd_cipher_info where
  key_length : Nat
  iv_length : Nat
  deriving DecidableEq, Repr

/-- Modelled from the spec: `fastd_mac_info_t` is declared outside the sources at hand; a MAC
supplies its key length. -/
structure fastd_mac_info where
  key_length : Nat
  deriving DecidableEq, Repr

/-- Modelled from the spec: `fastd_cipher_t` is declared outside the sources at hand.
`crypt state input iv` is what `crypt(state, out, in, len, iv)` writes to `out` for the `len`
input bytes, or `none` when the call returns false. -/
structure fastd_cipher where
  crypt : List Nat → List Nat → List Nat → Option (List Nat)

/-- Modelled from the spec: `fastd_mac_t` is declared outside the sources at hand.
`digest state input` is the tag block that `digest(state, out, in, len)` writes to `out`, or
`none` when the call returns false. -/
structure fastd_mac where
  digest : List Nat → List Nat → Option (List Nat)

/-- Modelled from the spec: the registry of primitives is outside the sources at hand; it
resolves names through `fastd_mac_info_get_by_name` and `fastd_cipher_info_get_by_name`. -/
structure fastd_registry where
  mac_info_get_by_name : List Char → Option fastd_mac_info
  cipher_info_get_by_name : List Char → Option fastd_cipher_info

/-! ## The method provider (`composed_gmac.c`) -/

/-- A specific method provided by this provider (`struct fastd_method`). -/
structure fastd_method where
  cipher_info : fastd_cipher_info
  gmac_cipher_info : fastd_cipher_info
  ghash_info : fastd_mac_info
  deriving DecidableEq, Repr

/-- The method-specific session state (`struct fastd_method_session_state`). -/
structure fastd_method_session_state where
  common : fastd_method_common
  method : fastd_method
  cipher : fastd_cipher
  cipher_state : List Nat
  gmac_cipher : fastd_cipher
  gmac_cipher_state : List Nat
  ghash : fastd_mac
  ghash_state : List Nat

/-- The NUL character that terminates a C string. -/
def NUL : Char := Char.ofNat 0

/-- The C string stored at the start of a character array: the characters before the first
NUL. -/
def cstr (a : List Char) : List Char :=
  a.takeWhile (fun c => c != NUL)

/-- The function `strlen`. -/
def strlen (a : List Char) : Nat :=
  (cstr a).length

/-- The test `!strcmp(a, lit)` for a literal `lit`. -/
def streq (a lit : List Char) : Bool :=
  decide (cstr a = lit)

/-- The function `strchr`: the index of the first occurrence of `c` in the C string at `a`. -/
def strchr (a : List Char) (c : Char) : Option Nat :=
  if c ∈ cstr a then some ((cstr a).indexOf c) else none

/-- The contents of the scratch array `char cipher_name[len]` once `method_create_by_name` has
filled it, or `none` when the name is rejected before that.  Array elements that were never
written are shown as `?`. -/
def cipher_name_scratch (name : List Char) : Option (List Char) :=
  let len := strlen name
  let cipher_name : List Char := List.replicate len (Char.ofNat 63)
  if 5 ≤ len ∧ streq (name.drop (len - 5)) ['-', 'g', 'm', 'a', 'c'] then
    let cipher_name := arr_write cipher_name 0 (name.take (len - 4))
    some (arr_write cipher_name (len - 4) ['c', 't', 'r', NUL])
  else if 5 ≤ len ∧ streq (name.drop (len - 5)) ['+', 'g', 'm', 'a', 'c'] then
    if 9 ≤ len ∧ streq (name.drop (len - 9)) ['-', 'c', 't', 'r', '+', 'g', 'm', 'a', 'c'] then
      none
    else
      let cipher_name := arr_write cipher_name 0 (name.take (len - 5))
      some (arr_write cipher_name (len - 5) [NUL])
  else
    none

/-- The function `method_create_by_name`: the method instantiated for `name`, or `none` when the
function returns false. -/
def method_create_by_name (reg : fastd_registry) (name : List Char) : Option fastd_method :=
  match reg.mac_info_get_by_name ['g', 'h', 'a', 's', 'h'] with
  | none => none
  | some ghash_info =>
    match cipher_name_scratch name with
    | none => none
    | some cipher_name =>
      match strchr cipher_name '+' with
      | none => none
      | some i =>
        let cipher_name := arr_write cipher_name i [NUL]
        let gmac_cipher_name := cipher_name.drop (i + 1)
        match reg.cipher_info_get_by_name (cstr cipher_name) with
        | none => none
        | some cipher_info =>
          if cipher_info.iv_length ≠ 0 ∧ cipher_info.iv_length ≤ COMMON_NONCEBYTES then none
          else
            match reg.cipher_info_get_by_name (cstr gmac_cipher_name) with
            | none => none
            | some gmac_cipher_info =>
              if gmac_cipher_info.iv_length ≤ COMMON_NONCEBYTES then none
              else
                some { cipher_info := cipher_info
                       gmac_cipher_info := gmac_cipher_info
                       ghash_info := ghash_info }

/-- The function `put_size`: the block that holds the size of the input in bits. -/
def put_size (len : Nat) : List Nat :=
  [0, 0, 0, (len >>> 29) % 256, (len >>> 21) % 256, (len >>> 13) % 256, (len >>> 5) % 256,
    (len <<< 3) % 256, 0, 0, 0, 0, 0, 0, 0, 0]

/-- What `method_encrypt` leaves behind: its return value, the session, and the buffer in `*out`
(`none` once it has been freed). -/
structure encrypt_result where
  ret : Bool
  session : fastd_method_session_state
  out : Option fastd_buffer

/-- The function `method_encrypt`: encrypts and authenticates a packet.  The peer argument is
unused. -/
def method_encrypt (session : fastd_method_session_state) (inb : fastd_buffer) :
    encrypt_result :=
  let fail : encrypt_result := { ret := false, session := session, out := none }
  let tail_len := alignto inb.len BLOCK - inb.len
  let out := fastd_buffer_alloc (BLOCK + inb.len) (alignto COMMON_HEADBYTES 16) (BLOCK + tail_len)
  let inmem := if tail_len ≠ 0 then arr_write inb.mem inb.len (List.replicate tail_len 0)
    else inb.mem
  let n_blocks := block_count inb.len BLOCK
  let outmem := out.mem
  let gmac_nonce :=
    fastd_method_expand_nonce session.common.send_nonce session.method.gmac_cipher_info.iv_length
  match session.gmac_cipher.crypt session.gmac_cipher_state ZERO_BLOCK gmac_nonce with
  | none => fail
  | some block0 =>
    let outmem := arr_write outmem 0 (bytes_fit BLOCK block0)
    let nonce :=
      fastd_method_expand_nonce session.common.send_nonce session.method.cipher_info.iv_length
    match session.cipher.crypt session.cipher_state (mem_read inmem 0 (n_blocks * BLOCK)) nonce with
    | none => fail
    | some enc =>
      let outmem := arr_write outmem BLOCK (bytes_fit (n_blocks * BLOCK) enc)
      let outmem := if tail_len ≠ 0 then
          arr_write outmem (BLOCK + inb.len) (List.replicate tail_len 0)
        else outmem
      let outmem := arr_write outmem ((n_blocks + 1) * BLOCK) (put_size inb.len)
      match session.ghash.digest session.ghash_state
          (mem_read outmem BLOCK ((n_blocks + 1) * BLOCK)) with
      | none => fail
      | some tag =>
        let outmem := arr_write outmem 0 (xor_a (mem_read outmem 0 BLOCK) (bytes_fit BLOCK tag))
        let out := out.with_mem outmem
        let out := fastd_method_put_common_header out session.common.send_nonce 0
        { ret := true
          session := { session with common := fastd_method_increment_nonce session.common }
          out := some out }

/-- The part of the daemon context that `method_decrypt` consults:
`fastd_method_session_common_is_valid`, which is declared outside the sources at hand and
depends on the current time. -/
structure fastd_context where
  session_common_is_valid : fastd_method_common → Bool

/-- The function `method_session_is_valid`; a NULL session is `none`. -/
def method_session_is_valid (ctx : fastd_context) :
    Option fastd_method_session_state → Bool
  | none => false
  | some session => ctx.session_common_is_valid session.common

/-- What `method_decrypt` leaves behind: its return value, the session, the buffer in `*out`
(`none` when none was allocated or it has been freed) and the value written to `*reordered`
(`none` when nothing was written). -/
structure decrypt_result where
  ret : Bool
  session : Option fastd_method_session_state
  out : Option fastd_buffer
  reordered : Option Bool

/-- The middle part of `method_decrypt` (from the nonce expansion to the tag comparison): for the
buffer `inb` stripped of its common header and the packet nonce `in_nonce`, the output buffer
with the recomputed tag block followed by the decrypted blocks when every primitive succeeds and
the tag matches, and `none` when the function frees the output buffer and returns false. -/
def method_decrypt_verify (s : fastd_method_session_state) (inb : fastd_buffer)
    (in_nonce : Nat) : Option fastd_buffer :=
  let nonce := fastd_method_expand_nonce in_nonce s.method.cipher_info.iv_length
  let gmac_nonce := fastd_method_expand_nonce in_nonce s.method.gmac_cipher_info.iv_length
  let tail_len := alignto inb.len BLOCK - inb.len
  let out := fastd_buffer_alloc inb.len 0 tail_len
  let n_blocks := block_count inb.len BLOCK
  let inmem := inb.mem
  let outmem := out.mem
  match s.gmac_cipher.crypt s.gmac_cipher_state (mem_read inmem 0 BLOCK) gmac_nonce with
  | none => none
  | some block0 =>
    let outmem := arr_write outmem 0 (bytes_fit BLOCK block0)
    match s.cipher.crypt s.cipher_state (mem_read inmem BLOCK ((n_blocks - 1) * BLOCK)) nonce with
    | none => none
    | some dec =>
      let outmem := arr_write outmem BLOCK (bytes_fit ((n_blocks - 1) * BLOCK) dec)
      let inmem := if tail_len ≠ 0 then arr_write inmem inb.len (List.replicate tail_len 0)
        else inmem
      let inmem := arr_write inmem (n_blocks * BLOCK) (put_size (inb.len - BLOCK))
      match s.ghash.digest s.ghash_state (mem_read inmem BLOCK (n_blocks * BLOCK)) with
      | none => none
      | some tag =>
        if !block_equal (bytes_fit BLOCK tag) (mem_read outmem 0 BLOCK) then none
        else some (out.with_mem outmem)

/-- The function `method_decrypt`: verifies and decrypts a packet.  The peer argument is only
used for log messages. -/
def method_decrypt (ctx : fastd_context) (session : Option fastd_method_session_state)
    (inb : fastd_buffer) : decrypt_result :=
  let fail : decrypt_result := { ret := false, session := session, out := none, reordered := none }
  if inb.len < COMMON_HEADBYTES + BLOCK then fail
  else if !method_session_is_valid ctx session then fail
  else
    match session with
    | none => fail
    | some s =>
      let hdr := fastd_method_handle_common_header s.common inb
      if !hdr.ok then fail
      else if hdr.flags ≠ 0 then fail
      else
        match method_decrypt_verify s hdr.buffer hdr.nonce with
        | none => fail
        | some out =>
          let out := fastd_buffer_push_head out BLOCK
          let reorder_check := fastd_method_reorder_check s.common hdr.nonce hdr.age
          let session := some { s with common := reorder_check.2 }
          if reorder_check.1.set then
            { ret := true, session := session, out := some out
              reordered := some reorder_check.1.state }
          else
            { ret := true, session := session, out := some (fastd_buffer_alloc 0 0 0)
              reordered := none }

/-- Modelled from the spec: `fastd_method_provider_t` is declared outside the sources at hand;
these are its constant fields: the maximum overhead and the minimum head and tail space for
encrypt and decrypt. -/
structure fastd_method_provider where
  max_overhead : Nat
  min_encrypt_head_space : Nat
  min_decrypt_head_space : Nat
  min_encrypt_tail_space : Nat
  min_decrypt_tail_space : Nat
  deriving DecidableEq, Repr

/-- The composed-gmac method provider `fastd_method_composed_gmac`. -/
def fastd_method_composed_gmac : fastd_method_provider :=
  { max_overhead := COMMON_HEADBYTES + BLOCK
    min_encrypt_head_space := 0
    min_decrypt_head_space := 0
    min_encrypt_tail_space := BLOCK - 1
    min_decrypt_tail_space := 2 * BLOCK - 1 }

/-! ## Sequences of calls and the predicates used in the statements -/

/-- The nonce that the common header of a packet carries. -/
def packet_nonce (b : fastd_buffer) : Nat :=
  nonce_value (b.data.take COMMON_NONCEBYTES)

/-- The results of successive `method_decrypt` calls on one session, each call with the context
(current time) and the packet it was made with. -/
def decrypt_run : Option fastd_method_session_state → List (fastd_context × fastd_buffer) →
    List decrypt_result
  | _, [] => []
  | session, call :: calls =>
    method_decrypt call.1 session call.2 ::
      decrypt_run (method_decrypt call.1 session call.2).session calls

/-- A call of `method_decrypt` accepted its packet: it returned true and handed the payload on
(the reorder check accepted the nonce and `*reordered` was written). -/
def decrypt_result.accepted (d : decrypt_result) : Bool :=
  d.ret && d.reordered.isSome

/-- A call of `method_decrypt` returned a non-empty payload. -/
def decrypt_result.nonempty (d : decrypt_result) : Bool :=
  d.ret && (d.out.map (fun o => decide (0 < o.len))).getD false

/-- The results of successive `method_encrypt` calls on one session. -/
def encrypt_run : fastd_method_session_state → List fastd_buffer → List encrypt_result
  | _, [] => []
  | session, inb :: inbs =>
    method_encrypt session inb :: encrypt_run (method_encrypt session inb).session inbs

/-- The nonces in the headers of the packets that the successful calls of a run of
`method_encrypt` produced, in call order. -/
def sent_nonces (session : fastd_method_session_state) (inbs : List fastd_buffer) : List Nat :=
  (encrypt_run session inbs).filterMap
    (fun e => if e.ret then e.out.map packet_nonce else none)

/-- The replay window has no room left for nonce `n`: it is not above the window maximum, and it
lies below the window base or its bit is set. -/
def window_seen (c : fastd_method_common) (n : Nat) : Bool :=
  decide (n ≤ c.window_max) &&
    (decide (63 < c.window_max - n) || c.window.testBit (63 - (c.window_max - n)))

/-- A cipher is a stream cipher: for every state, IV and length there is a key stream of that
length (or a failure) such that `crypt` XORs its input with the key stream. -/
def is_stream_cipher (c : fastd_cipher) : Prop :=
  ∀ (st iv : List Nat) (len : Nat), ∃ ks : Option (List Nat),
    (∀ k, ks = some k → k.length = len) ∧
    ∀ inp : List Nat, inp.length = len → c.crypt st inp iv = ks.map (fun k => xor_a inp k)

/-- The key stream of the example cipher: byte `i` is the first state byte plus the first IV byte
plus `i`, reduced to a byte. -/
def toy_keystream (st iv : List Nat) (len : Nat) : List Nat :=
  (List.range len).map (fun i => (st.headD 0 + iv.headD 0 + i) % 256)

/-- An example stream cipher. -/
def toy_cipher : fastd_cipher :=
  { crypt := fun st inp iv => some (xor_a inp (toy_keystream st iv inp.length)) }

/-- An example MAC: 16 bytes, each the sum of the state bytes and the input bytes, reduced to a
byte. -/
def toy_mac : fastd_mac :=
  { digest := fun st inp => some (List.replicate 16 ((st.sum + inp.sum) % 256)) }

/-- An example session with common state `c`: 8-byte IVs, the example cipher under two keys and
the example MAC. -/
def demo_session (c : fastd_method_common) : fastd_method_session_state :=
  { common := c
    method := { cipher_info := { key_length := 32, iv_length := 8 }
                gmac_cipher_info := { key_length := 32, iv_length := 8 }
                ghash_info := { key_length := 16 } }
    cipher := toy_cipher
    cipher_state := [5]
    gmac_cipher := toy_cipher
    gmac_cipher_state := [9]
    ghash := toy_mac
    ghash_state := [3] }

/-- An example plaintext: a 14-byte Ethernet frame in a buffer with 15 bytes of tail space. -/
def demo_frame : fastd_buffer :=
  { head_space := 0
    data := [255, 255, 255, 255, 255, 255, 2, 0, 0, 0, 0, 1, 8, 0]
    tail := List.replicate 15 170 }

/-- An example context in which every session is valid. -/
def demo_ctx : fastd_context :=
  { session_common_is_valid := fun _ => true }

/-- An example context, later in time, in which every session has expired. -/
def expired_ctx : fastd_context :=
  { session_common_is_valid := fun _ => false }

/-- The packet that the example session with send nonce `n` produces for the example frame, as it
arrives in a receive buffer with 31 bytes of tail space. -/
def demo_packet (n : Nat) : fastd_buffer :=
  { head_space := 0
    data := ((method_encrypt (demo_session ⟨n, 0, 0⟩) demo_frame).out.map
      (fun o => o.data)).getD []
    tail := List.replicate 31 85 }

/-- An example registry that knows GHASH and the ciphers `null`, `salsa20`, `aes128` and
`aes128-ctr`. -/
def demo_registry : fastd_registry :=
  { mac_info_get_by_name := fun n =>
      if n = ['g', 'h', 'a', 's', 'h'] then some { key_length := 16 } else none
    cipher_info_get_by_name := fun n =>
      if n = ['n', 'u', 'l', 'l'] then some { key_length := 0, iv_length := 0 }
      else if n = ['s', 'a', 'l', 's', 'a', '2', '0'] then some { key_length := 32, iv_length := 8 }
      else if n = ['a', 'e', 's', '1', '2', '8'] then some { key_length := 16, iv_length := 16 }
      else if n = ['a', 'e', 's', '1', '2', '8', '-', 'c', 't', 'r'] then
        some { key_length := 16, iv_length := 16 }
      else none }

/-! ## The buffer structure of `fastd.h` and the handshake record encoders (`handshake.h`) -/

/-- The structure `struct _fastd_buffer` of `fastd.h`, field by field: `base` and `data` are
addresses, and `mem` holds the bytes of the block that `malloc` returned, from address `base`
upwards.  (`fastd_buffer` above is the same buffer as the method layer uses it: the bytes at the
data pointer and the bytes of memory behind them.) -/
structure _fastd_buffer where
  base : Nat
  base_len : Nat
  data : Nat
  len : Nat
  mem : List Nat
  deriving DecidableEq, Repr

/-- The number of bytes that `fastd_buffer_alloc` of `fastd.h` requests from `malloc`. -/
def fastd_buffer_alloc_request (len head_space _tail_space : Nat) : Nat :=
  head_space + len

/-- The function `fastd_buffer_alloc` of `fastd.h`, field by field, for the address `ptr` that
`malloc` returns.  The contents of fresh memory are indeterminate; they are taken to be zero.
Sizes and addresses are natural numbers: the sums of sizes that an allocation can have do not
wrap around in `size_t`. -/
def fastd_buffer_alloc_raw (ptr len head_space tail_space : Nat) : _fastd_buffer :=
  let base_len := head_space + len + tail_space
  { base := ptr
    base_len := base_len
    data := ptr + head_space
    len := len
    mem := List.replicate (fastd_buffer_alloc_request len head_space tail_space) 0 }

/-- The bytes of a buffer: the `len` bytes at its data pointer. -/
def _fastd_buffer.bytes (b : _fastd_buffer) : List Nat :=
  mem_read b.mem (b.data - b.base) b.len

/-- The memory block after `src` has been stored at address `base + off`.  A store past the end
of the block is undefined in C; here the block grows, with zeros in between, so that the
encoders stay total. -/
def mem_store (mem : List Nat) (off : Nat) (src : List Nat) : List Nat :=
  bytes_fit off mem ++ src ++ mem.drop (off + src.length)

/-- The function `fastd_handshake_add`: appends a record of type `type` whose value is the `len`
bytes at `data`; `none` when the function ends in `exit_bug`. -/
def fastd_handshake_add (buffer : _fastd_buffer) (type len : Nat) (data : List Nat) :
    Option _fastd_buffer :=
  if buffer.data + buffer.len + 4 + len > buffer.base + buffer.base_len then none
  else
    let dst := buffer.data + buffer.len - buffer.base
    let mem := mem_store buffer.mem dst [type % 256]
    let mem := mem_store mem (dst + 1) [(type >>> 8) % 256]
    let mem := mem_store mem (dst + 2) [len % 256]
    let mem := mem_store mem (dst + 3) [(len >>> 8) % 256]
    let mem := mem_store mem (dst + 4) (bytes_fit len data)
    some { buffer with mem := mem, len := buffer.len + (4 + len) }

/-- The function `fastd_handshake_add_uint8`: appends a record with a one-byte value; `none` when
the function ends in `exit_bug`. -/
def fastd_handshake_add_uint8 (buffer : _fastd_buffer) (type value : Nat) :
    Option _fastd_buffer :=
  if buffer.data + buffer.len + 5 > buffer.base + buffer.base_len then none
  else
    let dst := buffer.data + buffer.len - buffer.base
    let mem := mem_store buffer.mem dst [type % 256]
    let mem := mem_store mem (dst + 1) [(type >>> 8) % 256]
    let mem := mem_store mem (dst + 2) [1]
    let mem := mem_store mem (dst + 3) [0]
    let mem := mem_store mem (dst + 4) [value % 256]
    some { buffer with mem := mem, len := buffer.len + 5 }

/-- The function `fastd_handshake_add_uint16`: appends a record with a two-byte value, least
significant byte first; `none` when the function ends in `exit_bug`. -/
def fastd_handshake_add_uint16 (buffer : _fastd_buffer) (type value : Nat) :
    Option _fastd_buffer :=
  if buffer.data + buffer.len + 6 > buffer.base + buffer.base_len then none
  else
    let dst := buffer.data + buffer.len - buffer.base
    let mem := mem_store buffer.mem dst [type % 256]
    let mem := mem_store mem (dst + 1) [(type >>> 8) % 256]
    let mem := mem_store mem (dst + 2) [2]
    let mem := mem_store mem (dst + 3) [0]
    let mem := mem_store mem (dst + 4) [value % 256]
    let mem := mem_store mem (dst + 5) [(value >>> 8) % 256]
    some { buffer with mem := mem, len := buffer.len + 6 }

/-- The bytes of one record on the wire: type and length as 16-bit little-endian numbers, then
the value. -/
def record_bytes (type : Nat) (value : List Nat) : List Nat :=
  [type % 256, (type >>> 8) % 256, value.length % 256, (value.length >>> 8) % 256] ++ value

/-- A sequence of `fastd_handshake_add` calls on one buffer, one call for each record (type and
value) of the list, in order; `none` as soon as one call ends in `exit_bug`. -/
def handshake_add_all : _fastd_buffer → List (Nat × List Nat) → Option _fastd_buffer
  | buffer, [] => some buffer
  | buffer, r :: rs =>
    match fastd_handshake_add buffer r.1 r.2.length r.2 with
    | none => none
    | some buffer1 => handshake_add_all buffer1 rs

/-! ## The configuration (`config.c`) -/

/-- Modelled from the spec: the mode enumeration is declared outside the sources at hand; the
tunnel runs in TAP or in TUN mode. -/
inductive fastd_mode where
  | MODE_TAP
  | MODE_TUN
  deriving DecidableEq, Repr

/-- Modelled from the spec: `fastd_peer_group_config_t` is declared outside the sources at hand;
a peer group has a name, a connection limit (-1 for none), a list of peer directories and child
groups. -/
inductive fastd_peer_group_config where
  | mk (name : String) (max_connections : Int) (peer_dirs : List String)
      (children : List fastd_peer_group_config)

/-- The field `max_connections` of a peer group. -/
def fastd_peer_group_config.max_connections : fastd_peer_group_config → Int
  | .mk _ max_connections _ _ => max_connections

/-- The field `peer_dirs` of a peer group. -/
def fastd_peer_group_config.peer_dirs : fastd_peer_group_config → List String
  | .mk _ _ peer_dirs _ => peer_dirs

/-- The field `children` of a peer group. -/
def fastd_peer_group_config.children : fastd_peer_group_config → List fastd_peer_group_config
  | .mk _ _ _ children => children

/-- Modelled from the spec: `fastd_peer_config_t` is declared outside the sources at hand; a peer
configuration has an optional name, its key material, a floating flag and the peer directory it
was read from (`none` for a statically configured peer; directories are told apart by the
address of their entry). -/
structure fastd_peer_config where
  name : Option String
  key : String
  floating : Bool
  config_source_dir : Option Nat
  deriving DecidableEq, Repr

/-- Modelled from the spec: `fastd_method_info_t` is declared outside the sources at hand; an
entry of the array `conf.methods` holds the name of a configured method and its provider. -/
structure fastd_method_info where
  name : String
  provider : fastd_method_provider
  deriving DecidableEq, Repr

/-- Modelled from the spec: `fastd_config_t` is declared outside the sources at hand; these are
the fields of the global `conf` that the functions below read or write. -/
structure fastd_config where
  log_syslog_ident : Option String
  maintenance_interval : Nat
  keepalive_timeout : Nat
  peer_stale_time : Nat
  eth_addr_stale_time : Nat
  reorder_time : Nat
  min_handshake_interval : Nat
  min_resolve_interval : Nat
  mtu : Nat
  mode : fastd_mode
  secure_handshakes : Bool
  protocol : Option String
  key_valid : Nat
  key_valid_old : Nat
  key_refresh : Nat
  key_refresh_splay : Nat
  peer_group : fastd_peer_group_config
  ifname : Option String
  method_list : List String
  methods : List fastd_method_info
  peers : List fastd_peer_config
  has_floating : Bool
  max_overhead : Nat
  min_encrypt_head_space : Nat
  min_decrypt_head_space : Nat
  min_encrypt_tail_space : Nat
  min_decrypt_tail_space : Nat

/-- The function `default_config`: every field zero, then the defaults. -/
def default_config : fastd_config :=
  { log_syslog_ident := some "fastd"
    maintenance_interval := 10
    keepalive_timeout := 15
    peer_stale_time := 90
    eth_addr_stale_time := 300
    reorder_time := 10
    min_handshake_interval := 15
    min_resolve_interval := 15
    mtu := 1500
    mode := fastd_mode.MODE_TAP
    secure_handshakes := true
    protocol := some "ec25519-fhmqvc"
    key_valid := 3600
    key_valid_old := 60
    key_refresh := 3300
    key_refresh_splay := 300
    peer_group := fastd_peer_group_config.mk "default" (-1) [] []
    ifname := none
    method_list := []
    methods := []
    peers := []
    has_floating := false
    max_overhead := 0
    min_encrypt_head_space := 0
    min_decrypt_head_space := 0
    min_encrypt_tail_space := 0
    min_decrypt_tail_space := 0 }

/-- The function `fastd_config_method`: adds a method name to `conf.method_list` unless the list
holds it already. -/
def fastd_config_method (conf : fastd_config) (name : String) : fastd_config :=
  if name ∈ conf.method_list then conf
  else { conf with method_list := conf.method_list ++ [name] }

mutual
/-- The function `has_peer_group_peer_dirs`: the group or one of its descendants has a peer
directory. -/
def has_peer_group_peer_dirs : fastd_peer_group_config → Bool
  | .mk _ _ peer_dirs children =>
    if peer_dirs ≠ [] then true else has_peer_group_peer_dirs_children children
/-- The loop over the children in `has_peer_group_peer_dirs`. -/
def has_peer_group_peer_dirs_children : List fastd_peer_group_config → Bool
  | [] => false
  | child :: children =>
    if has_peer_group_peer_dirs child then true
    else has_peer_group_peer_dirs_children children
end

/-- How a configuration check ends: it returns with the configuration, it ends the process
through `exit_error` with a message, or it reads through a NULL pointer. -/
inductive config_result where
  | ok (conf : fastd_config)
  | exit_error (message : String)
  | null_dereference

/-- The function `config_check_base`, for the platform features that are compiled in; `none`
when it returns. -/
def config_check_base (conf : fastd_config) : Option config_result :=
  if (match conf.ifname with
      | none => false
      | some ifname => decide ('/' ∈ ifname.toList)) then
    some (config_result.exit_error "config error: invalid interface name")
  else if conf.mode = fastd_mode.MODE_TUN then
    match conf.peers with
    | [] => some config_result.null_dereference
    | _ :: next =>
      if next ≠ [] then
        some (config_result.exit_error
          "config error: in TUN mode exactly one peer must be configured")
      else if !conf.peer_group.children.isEmpty then
        some (config_result.exit_error "config error: in TUN mode peer groups can't be used")
      else if has_peer_group_peer_dirs conf.peer_group then
        some (config_result.exit_error
          "config error: in TUN mode peer directories can't be used")
      else none
  else none

/-- The function `fastd_config_check` up to the calls of `configure_user` and
`configure_methods`, which follow when `ok` is the result. -/
def fastd_config_check (conf : fastd_config) : config_result :=
  match config_check_base conf with
  | some result => result
  | none =>
    if conf.mode = fastd_mode.MODE_TUN ∧ conf.peers = [] then
      config_result.exit_error "config error: in TUN mode exactly one peer must be configured"
    else if conf.peers = [] ∧ ¬ has_peer_group_peer_dirs conf.peer_group then
      config_result.exit_error
        "config error: neither fixed peers nor peer dirs have been configured"
    else if conf.method_list = [] then
      config_result.ok (fastd_config_method conf "null")
    else config_result.ok conf

/-- Modelled from the spec: `strequal` is declared outside the sources at hand; it tells whether
two optional strings are equal. -/
def strequal (a b : Option String) : Bool :=
  a == b

/-- The inner loop of `peer_dirs_handle_old_peers`: the first new peer with the source directory
and the name of `peer`, and the list of new peers without it. -/
def find_new_peer (peer : fastd_peer_config) :
    List fastd_peer_config → Option (fastd_peer_config × List fastd_peer_config)
  | [] => none
  | new_peer :: new_next =>
    if peer.config_source_dir = new_peer.config_source_dir
        ∧ strequal peer.name new_peer.name = true then
      some (new_peer, new_next)
    else
      match find_new_peer peer new_next with
      | none => none
      | some (found, others) => some (found, new_peer :: others)

/-- The function `peer_dirs_handle_old_peers`, with `fastd_peer_config_equal` as a parameter:
the old peers that stay and the new peers that stay. -/
def peer_dirs_handle_old_peers (equal : fastd_peer_config → fastd_peer_config → Bool) :
    List fastd_peer_config → List fastd_peer_config →
      List fastd_peer_config × List fastd_peer_config
  | [], new_peers => ([], new_peers)
  | peer :: next, new_peers =>
    if peer.config_source_dir = none then
      (peer :: (peer_dirs_handle_old_peers equal next new_peers).1,
        (peer_dirs_handle_old_peers equal next new_peers).2)
    else
      match find_new_peer peer new_peers with
      | none => peer_dirs_handle_old_peers equal next new_peers
      | some (new_peer, others) =>
        if equal peer new_peer then
          (peer :: (peer_dirs_handle_old_peers equal next others).1,
            (peer_dirs_handle_old_peers equal next others).2)
        else peer_dirs_handle_old_peers equal next new_peers

/-- Two peers clash: the first was read from a peer directory and the second has the same source
directory and name. -/
def peers_clash (p q : fastd_peer_config) : Prop :=
  p.config_source_dir ≠ none ∧ p.config_source_dir = q.config_source_dir
    ∧ strequal p.name q.name = true

/-- Source directory and name are unique among the directory peers of a list. -/
def dir_peers_unique (l : List fastd_peer_config) : Prop :=
  l.Pairwise (fun p q => ¬ peers_clash p q)

/-- An old peer stays according to the removal rule: it is statically configured, or the new
list holds a peer with the same source directory and name whose configuration is equal. -/
def old_peer_stays (equal : fastd_peer_config → fastd_peer_config → Bool)
    (new_peers : List fastd_peer_config) (p : fastd_peer_config) : Bool :=
  decide (p.config_source_dir = none) ||
    new_peers.any (fun q =>
      decide (p.config_source_dir = q.config_source_dir) && strequal p.name q.name && equal p q)

/-- A new peer is discarded: an old directory peer has the same source directory and name and an
equal configuration. -/
def new_peer_discarded (equal : fastd_peer_config → fastd_peer_config → Bool)
    (old_peers : List fastd_peer_config) (q : fastd_peer_config) : Bool :=
  old_peers.any (fun p =>
    decide (p.config_source_dir ≠ none) && decide (p.config_source_dir = q.config_source_dir)
      && strequal p.name q.name && equal p q)

/-- The names of a list in order of first occurrence, each once. -/
def first_occurrences : List String → List String
  | [] => []
  | name :: names => name :: (first_occurrences names).filter (fun n => n ≠ name)

/-- A sequence of `fastd_config_method` calls, one for each name of the list, in order. -/
def config_method_run (conf : fastd_config) (names : List String) : fastd_config :=
  names.foldl fastd_config_method conf

/-- An example comparison of peer configurations: equal keys and floating flags. -/
def demo_equal (p q : fastd_peer_config) : Bool :=
  p.key == q.key && p.floating == q.floating

/-- An example cipher whose `crypt` always fails. -/
def failing_cipher : fastd_cipher :=
  { crypt := fun _ _ _ => none }

instance peers_clash_decidable (p q : fastd_peer_config) : Decidable (peers_clash p q) := by
  unfold peers_clash
  exact inferInstance

instance dir_peers_unique_decidable (l : List fastd_peer_config) :
    Decidable (dir_peers_unique l) := by
  unfold dir_peers_unique
  exact inferInstance

/-- An example peer read from the file `name` of the peer directory `dir`. -/
def demo_dir_peer (dir : Nat) (name key : String) : fastd_peer_config :=
  { name := some name, key := key, floating := false, config_source_dir := some dir }

/-- An example peer of the main configuration file. -/
def demo_static_peer (name key : String) : fastd_peer_config :=
  { name := some name, key := key, floating := false, config_source_dir := none }

/-- An example peer list before a reload: one static peer and three directory peers. -/
def demo_old_peers : List fastd_peer_config :=
  [demo_static_peer "gate" "k0", demo_dir_peer 1 "a" "k1", demo_dir_peer 1 "b" "k2",
    demo_dir_peer 1 "c" "k3"]

/-- An example of freshly read peers: `b` unchanged, `a` with a new key, `c` gone, `d` new. -/
def demo_read_peers : List fastd_peer_config :=
  [demo_dir_peer 1 "d" "k4", demo_dir_peer 1 "b" "k2", demo_dir_peer 1 "a" "k5"]

/-- The integer that a list of bytes denotes, most significant byte first. -/
def be_value (bytes : List Nat) : Nat :=
  bytes.foldl (fun acc b => acc * 256 + b) 0

/-- Modelled from the spec: `max_size_t` is declared outside the sources at hand; it returns the
greater of two sizes. -/
def max_size_t (a b : Nat) : Nat :=
  if a > b then a else b

/-- The body of the loop of `configure_method_parameters` for the entry `info` of
`conf.methods`. -/
def configure_method_parameters_step (conf : fastd_config) (info : fastd_method_info) :
    fastd_config :=
  let provider := info.provider
  { conf with
    max_overhead := max_size_t conf.max_overhead provider.max_overhead
    min_encrypt_head_space :=
      max_size_t conf.min_encrypt_head_space provider.min_encrypt_head_space
    min_decrypt_head_space :=
      max_size_t conf.min_decrypt_head_space provider.min_decrypt_head_space
    min_encrypt_tail_space :=
      max_size_t conf.min_encrypt_tail_space provider.min_encrypt_tail_space
    min_decrypt_tail_space :=
      max_size_t conf.min_decrypt_tail_space provider.min_decrypt_tail_space }

/-- The function `configure_method_parameters`; the list `conf.methods` holds the entries of the
array before its terminating entry without a name. -/
def configure_method_parameters (conf : fastd_config) : fastd_config :=
  let conf := { conf with
    max_overhead := 0
    min_encrypt_head_space := 0
    min_decrypt_head_space := 0
    min_encrypt_tail_space := 0
    min_decrypt_tail_space := 0 }
  let conf := conf.methods.foldl configure_method_parameters_step conf
  let conf := { conf with min_encrypt_head_space := alignto conf.min_encrypt_head_space 16 }
  { conf with min_decrypt_head_space := alignto conf.min_decrypt_head_space 16 + 8 }

/-- The number `x` is the maximum of the list `l`: no member is greater, it is 0 for the empty
list and a member otherwise. -/
def is_max_of (x : Nat) (l : List Nat) : Prop :=
  (∀ y ∈ l, y ≤ x) ∧ (l = [] → x = 0) ∧ (l ≠ [] → x ∈ l)

instance is_max_of_decidable (x : Nat) (l : List Nat) : Decidable (is_max_of x l) := by
  unfold is_max_of
  exact inferInstance

/-- The greatest member of a list of sizes, 0 for the empty list. -/
def list_max (l : List Nat) : Nat :=
  l.foldl max_size_t 0

/-- An example provider with head space demands and a maximum overhead of 24 bytes. -/
def demo_provider : fastd_method_provider :=
  { max_overhead := 24
    min_encrypt_head_space := 17
    min_decrypt_head_space := 3
    min_encrypt_tail_space := 0
    min_decrypt_tail_space := 0 }

/-- An example configuration with two configured methods. -/
def demo_methods_config : fastd_config :=
  { default_config with
    methods := [⟨"null+salsa2012+gmac", fastd_method_composed_gmac⟩, ⟨"demo", demo_provider⟩] }

/-- A store into a memory region: `size` bytes from offset `off` on. -/
structure store_range where
  off : Nat
  size : Nat
  deriving DecidableEq, Repr

/-- The stores of `method_create_by_name` into its scratch array `char cipher_name[len]` up to
the search for `+`, in program order: `memcpy` and `strncpy` (which writes 4 bytes) for a name
that ends in `-gmac`, `memcpy` and the terminator for a name that ends in `+gmac`. -/
def cipher_name_stores (name : List Char) : List store_range :=
  let len := strlen name
  if 5 ≤ len ∧ streq (name.drop (len - 5)) ['-', 'g', 'm', 'a', 'c'] then
    [⟨0, len - 4⟩, ⟨len - 4, 4⟩]
  else if 5 ≤ len ∧ streq (name.drop (len - 5)) ['+', 'g', 'm', 'a', 'c'] then
    if 9 ≤ len ∧ streq (name.drop (len - 9)) ['-', 'c', 't', 'r', '+', 'g', 'm', 'a', 'c'] then
      []
    else
      [⟨0, len - 5⟩, ⟨len - 5, 1⟩]
  else
    []

/-- All stores of `method_create_by_name` into its scratch array, in program order: none when
GHASH is unknown, otherwise the stores up to the search for `+` followed by the store
`*gmac_cipher_name = 0` when a `+` is found. -/
def method_create_by_name_stores (reg : fastd_registry) (name : List Char) :
    List store_range :=
  match reg.mac_info_get_by_name ['g', 'h', 'a', 's', 'h'] with
  | none => []
  | some _ =>
    cipher_name_stores name ++
      match cipher_name_scratch name with
      | none => []
      | some cipher_name =>
        match strchr cipher_name '+' with
        | none => []
        | some i => [⟨i, 1⟩]

/-- The method name `null+aes128-gmac` as a C string in an array. -/
def demo_name : List Char :=
  ['n', 'u', 'l', 'l', '+', 'a', 'e', 's', '1', '2', '8', '-', 'g', 'm', 'a', 'c', NUL]

/-- The stores of `method_encrypt` into the input buffer, as offsets from `in.data`, in program
order: the zero padding behind the data. -/
def method_encrypt_in_stores (in_len : Nat) : List store_range :=
  let tail_len := alignto in_len BLOCK - in_len
  if tail_len ≠ 0 then [⟨in_len, tail_len⟩] else []

/-- The stores of `method_decrypt` into the input buffer of length `in_len` (common header
stripped), as offsets from `in.data`, in program order: the zero padding behind the data and
the length block that `put_size` writes to `inblocks[n_blocks]`. -/
def method_decrypt_in_stores (in_len : Nat) : List store_range :=
  let tail_len := alignto in_len BLOCK - in_len
  let n_blocks := block_count in_len BLOCK
  (if tail_len ≠ 0 then [⟨in_len, tail_len⟩] else []) ++ [⟨n_blocks * BLOCK, BLOCK⟩]

theorem bytes_fit_length (n : Nat) (xs : List Nat) : (bytes_fit n xs).length = n := by
  simp [bytes_fit]

theorem bytes_fit_append_left (xs ys : List Nat) : bytes_fit xs.length (xs ++ ys) = xs := by
  simp [bytes_fit]

theorem bytes_fit_self (n : Nat) (xs : List Nat) (h : xs.length = n) : bytes_fit n xs = xs := by
  subst h
  simp [bytes_fit]

theorem bytes_fit_prefix (n : Nat) (xs ys : List Nat) (h : xs.length = n) :
    bytes_fit n (xs ++ ys) = xs := by
  subst h
  simp [bytes_fit]

theorem bytes_fit_zero_pad (n k : Nat) (xs : List Nat) (h : xs.length + k = n) :
    bytes_fit n xs = xs ++ List.replicate k 0 := by
  subst h
  unfold bytes_fit
  rw [List.take_append_eq_append_take]
  simp

theorem arr_write_mid {α : Type} (p m q src : List α) (off : Nat) (hoff : off = p.length)
    (hm : m.length = src.length) : arr_write (p ++ m ++ q) off src = p ++ src ++ q := by
  subst hoff
  unfold arr_write
  simp [List.take_append_eq_append_take, List.drop_append_eq_append_drop, hm]

theorem arr_write_start {α : Type} (m q src : List α) (hm : m.length = src.length) :
    arr_write (m ++ q) 0 src = src ++ q := by
  have h := arr_write_mid ([] : List α) m q src 0 rfl hm
  simpa using h

theorem xor_a_length (x a : List Nat) (h : a.length = x.length) : (xor_a x a).length = x.length := by
  simp [xor_a, h]

theorem xor_a_cancel (x k : List Nat) (h : x.length ≤ k.length) : xor_a (xor_a x k) k = x := by
  induction x generalizing k with
  | nil => simp [xor_a]
  | cons a x ih =>
    cases k with
    | nil => simp at h
    | cons b k =>
      simp only [xor_a, List.zipWith_cons_cons, List.cons.injEq]
      exact ⟨Nat.xor_cancel_right b a, ih k (by simpa using h)⟩

theorem xor_a_take (x k : List Nat) (n : Nat) : (xor_a x k).take n = xor_a (x.take n) (k.take n) := by
  simp [xor_a, List.take_zipWith]

theorem xor_a_comm (x k : List Nat) : xor_a x k = xor_a k x := by
  induction x generalizing k with
  | nil => cases k <;> simp [xor_a]
  | cons a x ih =>
    cases k with
    | nil => simp [xor_a]
    | cons b k =>
      simp only [xor_a, List.zipWith_cons_cons, List.cons.injEq]
      exact ⟨Nat.xor_comm a b, ih k⟩

theorem block_count_bounds (n : Nat) :
    n ≤ block_count n BLOCK * BLOCK ∧ block_count n BLOCK * BLOCK < n + 16 := by
  unfold block_count BLOCK
  omega

theorem block_count_succ (n : Nat) : block_count (BLOCK + n) BLOCK = block_count n BLOCK + 1 := by
  unfold block_count BLOCK
  omega

theorem bytes_fit_pad (n : Nat) (xs : List Nat) (h : xs.length ≤ n) :
    bytes_fit n xs = xs ++ List.replicate (n - xs.length) 0 :=
  bytes_fit_zero_pad n (n - xs.length) xs (by omega)

theorem arr_write_at_end {α : Type} (xs ys src : List α) :
    arr_write (xs ++ ys) xs.length src = xs ++ src ++ ys.drop src.length := by
  unfold arr_write
  simp [List.drop_append_eq_append_drop]

/-- The cipher input of `method_encrypt`: the data bytes, zero padded to whole blocks. -/
theorem encrypt_inmem (data tail : List Nat) :
    mem_read
        (if alignto data.length BLOCK - data.length ≠ 0 then
          arr_write (data ++ tail) data.length
            (List.replicate (alignto data.length BLOCK - data.length) 0)
        else data ++ tail) 0 (block_count data.length BLOCK * BLOCK)
      = bytes_fit (alignto data.length BLOCK) data := by
  have hb := block_count_bounds data.length
  unfold alignto
  generalize block_count data.length BLOCK * BLOCK = A at hb ⊢
  rw [bytes_fit_pad A data hb.1]
  unfold mem_read
  split
  · rw [arr_write_at_end, List.drop_zero]
    apply bytes_fit_prefix
    simp
    omega
  · have : A = data.length := by omega
    subst this
    simp [bytes_fit]

theorem put_size_length (n : Nat) : (put_size n).length = 16 := rfl

/-- The output region of `method_encrypt` before the tag is folded in: the key-stream block, the
ciphertext, its zero padding and the length block. -/
theorem encrypt_outmem (n h : Nat) (b0 enc : List Nat) :
    arr_write
        (if alignto n BLOCK - n ≠ 0 then
          arr_write
            (arr_write
              (arr_write (fastd_buffer_alloc (BLOCK + n) h (BLOCK + (alignto n BLOCK - n))).mem 0
                (bytes_fit BLOCK b0))
              BLOCK (bytes_fit (block_count n BLOCK * BLOCK) enc))
            (BLOCK + n) (List.replicate (alignto n BLOCK - n) 0)
        else
          arr_write
            (arr_write (fastd_buffer_alloc (BLOCK + n) h (BLOCK + (alignto n BLOCK - n))).mem 0
              (bytes_fit BLOCK b0))
            BLOCK (bytes_fit (block_count n BLOCK * BLOCK) enc))
        ((block_count n BLOCK + 1) * BLOCK) (put_size n)
      = bytes_fit BLOCK b0 ++ (bytes_fit (alignto n BLOCK) enc).take n
          ++ List.replicate (alignto n BLOCK - n) 0 ++ put_size n := by
  have hb := block_count_bounds n
  unfold alignto
  generalize hA : block_count n BLOCK * BLOCK = A at hb ⊢
  have hA2 : (block_count n BLOCK + 1) * BLOCK = BLOCK + A := by rw [← hA]; ring
  rw [hA2]
  generalize hB : bytes_fit BLOCK b0 = B0
  have hB0 : B0.length = BLOCK := by rw [← hB, bytes_fit_length]
  generalize hE : bytes_fit A enc = E
  have hE0 : E.length = A := by rw [← hE, bytes_fit_length]
  have hmem : (fastd_buffer_alloc (BLOCK + n) h (BLOCK + (A - n))).mem
      = List.replicate BLOCK 0 ++ List.replicate n 0 := by
    simp only [fastd_buffer.mem, fastd_buffer_alloc, List.append_nil, ← List.replicate_add]
  rw [hmem, arr_write_start _ _ B0 (by simp [hB0])]
  have h2 : arr_write (B0 ++ List.replicate n 0) BLOCK E = B0 ++ E := by
    have h := arr_write_at_end B0 (List.replicate n 0) E
    rw [hB0] at h
    rw [h, List.drop_eq_nil_of_le (by simp only [List.length_replicate, hE0]; omega),
      List.append_nil]
  rw [h2]
  have hsplit : E = E.take n ++ E.drop n := (List.take_append_drop n E).symm
  have h3 : (if A - n ≠ 0 then arr_write (B0 ++ E) (BLOCK + n) (List.replicate (A - n) 0)
        else B0 ++ E)
      = (B0 ++ E.take n) ++ List.replicate (A - n) 0 := by
    split
    · conv_lhs => rw [hsplit]
      have h := arr_write_mid (B0 ++ E.take n) (E.drop n) [] (List.replicate (A - n) 0)
        (BLOCK + n) (by simp [hB0, hE0]; omega) (by simp [hE0])
      simpa using h
    · have hAn : A = n := by omega
      rw [List.take_of_length_le (by omega)]
      simp [hAn]
  rw [h3]
  have hX : (B0 ++ E.take n ++ List.replicate (A - n) 0).length = BLOCK + A := by
    simp only [List.length_append, List.length_take, List.length_replicate, hB0, hE0]
    omega
  have h4 := arr_write_at_end (B0 ++ E.take n ++ List.replicate (A - n) 0) [] (put_size n)
  rw [hX] at h4
  simpa using h4

theorem encrypt_inmem_buffer (inb : fastd_buffer) :
    mem_read
        (if alignto inb.len BLOCK - inb.len ≠ 0 then
          arr_write inb.mem inb.len (List.replicate (alignto inb.len BLOCK - inb.len) 0)
        else inb.mem) 0 (block_count inb.len BLOCK * BLOCK)
      = bytes_fit (alignto inb.len BLOCK) inb.data :=
  encrypt_inmem inb.data inb.tail

theorem mem_read_start (m q : List Nat) (len : Nat) (h : m.length = len) :
    mem_read (m ++ q) 0 len = m := by
  unfold mem_read
  rw [List.drop_zero]
  exact bytes_fit_prefix len m q h

theorem mem_read_rest (p r : List Nat) (off len : Nat) (hoff : off = p.length)
    (h : r.length = len) : mem_read (p ++ r) off len = r := by
  subst hoff
  unfold mem_read
  rw [List.drop_left]
  exact bytes_fit_self len r h

theorem take_bytes_fit_length (n a : Nat) (xs : List Nat) (h : n ≤ a) :
    ((bytes_fit a xs).take n).length = n := by
  simp [bytes_fit_length, h]

/-- What a successful `method_encrypt` computes, written out. -/
theorem method_encrypt_spec (s : fastd_method_session_state) (inb : fastd_buffer)
    (h : (method_encrypt s inb).ret = true) :
    ∃ b0 enc tag : List Nat,
      s.gmac_cipher.crypt s.gmac_cipher_state ZERO_BLOCK
          (fastd_method_expand_nonce s.common.send_nonce s.method.gmac_cipher_info.iv_length)
        = some b0 ∧
      s.cipher.crypt s.cipher_state (bytes_fit (alignto inb.len BLOCK) inb.data)
          (fastd_method_expand_nonce s.common.send_nonce s.method.cipher_info.iv_length)
        = some enc ∧
      s.ghash.digest s.ghash_state
          ((bytes_fit (alignto inb.len BLOCK) enc).take inb.len
            ++ List.replicate (alignto inb.len BLOCK - inb.len) 0 ++ put_size inb.len)
        = some tag ∧
      (method_encrypt s inb).session
        = { s with common := fastd_method_increment_nonce s.common } ∧
      (method_encrypt s inb).out = some
        { head_space := alignto COMMON_HEADBYTES 16 - COMMON_HEADBYTES
          data := nonce_bytes s.common.send_nonce ++ [0]
            ++ (xor_a (bytes_fit BLOCK b0) (bytes_fit BLOCK tag)
              ++ (bytes_fit (alignto inb.len BLOCK) enc).take inb.len)
          tail := List.replicate (alignto inb.len BLOCK - inb.len) 0 ++ put_size inb.len } := by
  have hb := block_count_bounds inb.len
  have hA : alignto inb.len BLOCK = block_count inb.len BLOCK * BLOCK := rfl
  unfold method_encrypt at h ⊢
  simp only [encrypt_inmem_buffer, encrypt_outmem] at h ⊢
  split at h
  · simp at h
  · rename_i b0 hb0
    split at h
    · simp at h
    · rename_i enc henc
      have hC : ((bytes_fit (alignto inb.len BLOCK) enc).take inb.len).length = inb.len :=
        take_bytes_fit_length _ _ _ (by rw [hA]; exact hb.1)
      have hread : mem_read
          (bytes_fit BLOCK b0 ++ List.take inb.len (bytes_fit (alignto inb.len BLOCK) enc) ++
            List.replicate (alignto inb.len BLOCK - inb.len) 0 ++ put_size inb.len)
          BLOCK ((block_count inb.len BLOCK + 1) * BLOCK)
          = List.take inb.len (bytes_fit (alignto inb.len BLOCK) enc) ++
            List.replicate (alignto inb.len BLOCK - inb.len) 0 ++ put_size inb.len := by
        rw [List.append_assoc, List.append_assoc]
        rw [← List.append_assoc (List.take _ _)]
        apply mem_read_rest
        · rw [bytes_fit_length]
        · simp only [List.length_append, hC, List.length_replicate, put_size_length]
          rw [hA]
          simp only [BLOCK] at hb ⊢
          omega
      have hread0 : mem_read
          (bytes_fit BLOCK b0 ++ List.take inb.len (bytes_fit (alignto inb.len BLOCK) enc) ++
            List.replicate (alignto inb.len BLOCK - inb.len) 0 ++ put_size inb.len)
          0 BLOCK = bytes_fit BLOCK b0 := by
        rw [List.append_assoc, List.append_assoc]
        exact mem_read_start _ _ _ (bytes_fit_length _ _)
      rw [hread] at h ⊢
      rw [hread0] at h ⊢
      split at h
      · simp at h
      · rename_i tag htag
        refine ⟨b0, enc, tag, hb0, henc, htag, rfl, ?_⟩
        have hx : (xor_a (bytes_fit BLOCK b0) (bytes_fit BLOCK tag)).length = BLOCK := by
          rw [xor_a_length _ _ (by simp [bytes_fit_length]), bytes_fit_length]
        have hw : arr_write
            (bytes_fit BLOCK b0 ++ List.take inb.len (bytes_fit (alignto inb.len BLOCK) enc) ++
              List.replicate (alignto inb.len BLOCK - inb.len) 0 ++ put_size inb.len) 0
            (xor_a (bytes_fit BLOCK b0) (bytes_fit BLOCK tag))
            = xor_a (bytes_fit BLOCK b0) (bytes_fit BLOCK tag)
              ++ (List.take inb.len (bytes_fit (alignto inb.len BLOCK) enc) ++
                (List.replicate (alignto inb.len BLOCK - inb.len) 0 ++ put_size inb.len)) := by
          rw [List.append_assoc, List.append_assoc]
          exact arr_write_start _ _ _ (by rw [hx, bytes_fit_length])
        simp only [hw, fastd_method_put_common_header, fastd_buffer.with_mem, fastd_buffer_alloc,
          List.length_replicate, Option.some.injEq, fastd_buffer.mk.injEq, true_and]
        have hxc : (xor_a (bytes_fit BLOCK b0) (bytes_fit BLOCK tag)
            ++ List.take inb.len (bytes_fit (alignto inb.len BLOCK) enc)).length
            = BLOCK + inb.len := by
          rw [List.length_append, hx, hC]
        constructor
        · rw [← List.append_assoc (xor_a _ _), List.take_left' hxc]
        · rw [← List.append_assoc (xor_a _ _), List.drop_left' hxc]

theorem nonce_value_bytes (n : Nat) : nonce_value (nonce_bytes n) = n % 2 ^ 48 := by
  simp only [nonce_bytes, nonce_value]
  omega

theorem nonce_bytes_mod (n : Nat) : nonce_bytes (n % 2 ^ 48) = nonce_bytes n := by
  simp only [nonce_bytes, List.cons.injEq, and_true]
  omega

theorem nonce_bytes_length (n : Nat) : (nonce_bytes n).length = 6 := rfl

theorem expand_nonce_mod (n len : Nat) :
    fastd_method_expand_nonce (n % 2 ^ 48) len = fastd_method_expand_nonce n len := by
  unfold fastd_method_expand_nonce
  rw [nonce_bytes_mod]

theorem packet_nonce_header (h : Nat) (n f : Nat) (rest tail : List Nat) :
    packet_nonce { head_space := h, data := nonce_bytes n ++ [f] ++ rest, tail := tail }
      = n % 2 ^ 48 := by
  unfold packet_nonce
  simp only [COMMON_NONCEBYTES]
  rw [List.append_assoc, List.take_left' (nonce_bytes_length n), nonce_value_bytes]

/-- The MAC input of `method_decrypt`: the ciphertext, its zero padding and the length block. -/
theorem decrypt_inmem (TG C G : List Nat) (A : Nat) (hTG : TG.length = BLOCK)
    (hA : C.length ≤ A) :
    mem_read
        (arr_write
          (if BLOCK + A - (BLOCK + C.length) ≠ 0 then
            arr_write (TG ++ C ++ G) (BLOCK + C.length)
              (List.replicate (BLOCK + A - (BLOCK + C.length)) 0)
          else TG ++ C ++ G)
          (BLOCK + A) (put_size (BLOCK + C.length - BLOCK)))
        BLOCK (BLOCK + A)
      = C ++ List.replicate (A - C.length) 0 ++ put_size C.length := by
  have e1 : BLOCK + A - (BLOCK + C.length) = A - C.length := by omega
  have e2 : BLOCK + C.length - BLOCK = C.length := by omega
  rw [e1, e2]
  have hpad : ∃ R, (if A - C.length ≠ 0 then
        arr_write (TG ++ C ++ G) (BLOCK + C.length) (List.replicate (A - C.length) 0)
      else TG ++ C ++ G) = (TG ++ C ++ List.replicate (A - C.length) 0) ++ R := by
    split
    · refine ⟨G.drop (A - C.length), ?_⟩
      have := arr_write_at_end (TG ++ C) G (List.replicate (A - C.length) 0)
      simp only [List.length_append, hTG, List.length_replicate] at this
      exact this
    · refine ⟨G, ?_⟩
      have : A - C.length = 0 := by omega
      simp [this]
  obtain ⟨R, hR⟩ := hpad
  rw [hR]
  have hw := arr_write_at_end (TG ++ C ++ List.replicate (A - C.length) 0) R (put_size C.length)
  have hl : (TG ++ C ++ List.replicate (A - C.length) 0).length = BLOCK + A := by
    simp only [List.length_append, hTG, List.length_replicate]
    omega
  rw [hl] at hw
  rw [hw]
  rw [show TG ++ C ++ List.replicate (A - C.length) 0 ++ put_size C.length
        ++ List.drop (put_size C.length).length R
      = TG ++ ((C ++ List.replicate (A - C.length) 0 ++ put_size C.length)
        ++ List.drop (put_size C.length).length R) by simp]
  unfold mem_read
  rw [← hTG, List.drop_left]
  apply bytes_fit_prefix
  simp only [List.length_append, List.length_replicate, put_size_length, hTG, BLOCK]
  omega

/-- The output region of `method_decrypt`: the recomputed tag block, then the decrypted blocks. -/
theorem decrypt_outmem (n A t : Nat) (B0 D : List Nat) (hB : B0.length = BLOCK)
    (hD : D.length = A) (ht : n + t = A) :
    arr_write
        (arr_write
          ((fastd_buffer_alloc (BLOCK + n) 0 t).data ++ (fastd_buffer_alloc (BLOCK + n) 0 t).tail)
          0 B0)
        BLOCK D
      = B0 ++ D := by
  have hmem : (fastd_buffer_alloc (BLOCK + n) 0 t).data ++ (fastd_buffer_alloc (BLOCK + n) 0 t).tail
      = List.replicate BLOCK 0 ++ List.replicate n 0 := by
    simp only [fastd_buffer_alloc, List.append_nil, ← List.replicate_add]
  rw [hmem, arr_write_start _ _ B0 (by simp [hB])]
  have h := arr_write_at_end B0 (List.replicate n 0) D
  rw [hB] at h
  rw [h, List.drop_eq_nil_of_le (by simp only [List.length_replicate, hD]; omega),
    List.append_nil]

/-- What the verification stage of `method_decrypt` computes on a stripped packet that consists
of a tag block `TG` and the ciphertext `C`, with `G` in the tail space of the buffer. -/
theorem method_decrypt_verify_spec (s : fastd_method_session_state) (h N : Nat)
    (TG C G : List Nat) (hTG : TG.length = BLOCK) :
    method_decrypt_verify s { head_space := h, data := TG ++ C, tail := G } N
      = match s.gmac_cipher.crypt s.gmac_cipher_state TG
            (fastd_method_expand_nonce N s.method.gmac_cipher_info.iv_length) with
        | none => none
        | some b0 =>
          match s.cipher.crypt s.cipher_state (bytes_fit (alignto C.length BLOCK) (C ++ G))
              (fastd_method_expand_nonce N s.method.cipher_info.iv_length) with
          | none => none
          | some dec =>
            match s.ghash.digest s.ghash_state
                (C ++ List.replicate (alignto C.length BLOCK - C.length) 0
                  ++ put_size C.length) with
            | none => none
            | some tag =>
              if bytes_fit BLOCK tag = bytes_fit BLOCK b0 then
                some { head_space := 0
                       data := bytes_fit BLOCK b0 ++ (bytes_fit (alignto C.length BLOCK) dec).take C.length
                       tail := (bytes_fit (alignto C.length BLOCK) dec).drop C.length }
              else none := by
  have hb := block_count_bounds C.length
  have hlen : (TG ++ C).length = BLOCK + C.length := by simp [hTG]
  have hA2 : (block_count C.length BLOCK + 1) * BLOCK
      = BLOCK + block_count C.length BLOCK * BLOCK := by ring
  unfold method_decrypt_verify
  simp only [fastd_buffer.len, fastd_buffer.mem, hlen, block_count_succ, alignto,
    Nat.add_sub_cancel, hA2]
  generalize block_count C.length BLOCK * BLOCK = A at hb ⊢
  have f1 : mem_read (TG ++ C ++ G) 0 BLOCK = TG := by
    rw [List.append_assoc]
    exact mem_read_start _ _ _ hTG
  have f2 : mem_read (TG ++ C ++ G) BLOCK A = bytes_fit A (C ++ G) := by
    unfold mem_read
    rw [List.append_assoc, ← hTG, List.drop_left]
  have f3 := decrypt_inmem TG C G A hTG hb.1
  have e1 : BLOCK + A - (BLOCK + C.length) = A - C.length := by omega
  have f4 : ∀ b0 dec : List Nat, arr_write
        (arr_write
          ((fastd_buffer_alloc (BLOCK + C.length) 0 (BLOCK + A - (BLOCK + C.length))).data
            ++ (fastd_buffer_alloc (BLOCK + C.length) 0 (BLOCK + A - (BLOCK + C.length))).tail)
          0 (bytes_fit BLOCK b0))
        BLOCK (bytes_fit A dec)
      = bytes_fit BLOCK b0 ++ bytes_fit A dec := fun b0 dec =>
    decrypt_outmem C.length A _ _ _ (bytes_fit_length _ _) (bytes_fit_length _ _) (by omega)
  simp only [f1, f2, f3, f4]
  split
  · rfl
  · split
    · rfl
    · split
      · rfl
      · rename_i b0 _ _ dec _ _ tag _
        have f5 : mem_read (bytes_fit BLOCK b0 ++ bytes_fit A dec) 0 BLOCK = bytes_fit BLOCK b0 :=
          mem_read_start _ _ _ (bytes_fit_length _ _)
        simp only [f5, block_equal, fastd_buffer.with_mem, fastd_buffer_alloc,
          List.length_replicate]
        by_cases hq : bytes_fit BLOCK tag = bytes_fit BLOCK b0
        · simp only [hq, decide_True, Bool.not_true, Bool.false_eq_true, if_false, if_true]
          have hsplit : bytes_fit A dec
              = (bytes_fit A dec).take C.length ++ (bytes_fit A dec).drop C.length :=
            (List.take_append_drop _ _).symm
          have hl : (bytes_fit BLOCK b0 ++ (bytes_fit A dec).take C.length).length
              = BLOCK + C.length := by
            rw [List.length_append, bytes_fit_length, take_bytes_fit_length _ _ _ hb.1]
          congr 2
          · conv_lhs => rw [hsplit, ← List.append_assoc]
            rw [List.take_left' hl]
          · conv_lhs => rw [hsplit, ← List.append_assoc]
            rw [List.drop_left' hl]
        · simp [hq]

theorem handle_common_header_spec (c : fastd_method_common) (bh N f : Nat)
    (rest G : List Nat) :
    fastd_method_handle_common_header c
        { head_space := bh, data := nonce_bytes N ++ [f] ++ rest, tail := G }
      = { ok := decide ((c.window_max : Int) - ((N % 2 ^ 48 : Nat) : Int) ≤ 63)
          buffer := { head_space := bh + COMMON_HEADBYTES, data := rest, tail := G }
          nonce := N % 2 ^ 48
          flags := f
          age := (c.window_max : Int) - ((N % 2 ^ 48 : Nat) : Int) } := by
  unfold fastd_method_handle_common_header fastd_buffer_push_head
  have h1 : (nonce_bytes N ++ [f] ++ rest).take COMMON_NONCEBYTES = nonce_bytes N := by
    rw [List.append_assoc]
    exact List.take_left' (nonce_bytes_length N)
  have h2 : (nonce_bytes N ++ [f] ++ rest).drop COMMON_NONCEBYTES = f :: rest := by
    rw [List.append_assoc]
    exact List.drop_left' (nonce_bytes_length N)
  have h3 : (nonce_bytes N ++ [f] ++ rest).drop COMMON_HEADBYTES = rest := by
    exact List.drop_left' (by simp [nonce_bytes_length, COMMON_HEADBYTES, COMMON_NONCEBYTES, COMMON_FLAGBYTES])
  simp only [h1, h2, h3, nonce_value_bytes, List.headD_cons]

theorem window_seen_false (c : fastd_method_common) (n : Nat) (h : window_seen c n = false) :
    c.window_max < n ∨
      (n ≤ c.window_max ∧ c.window_max - n ≤ 63 ∧
        c.window.testBit (63 - (c.window_max - n)) = false) := by
  unfold window_seen at h
  by_cases hn : n ≤ c.window_max
  · right
    simp only [hn, decide_True, Bool.true_and, Bool.or_eq_false_iff, decide_eq_false_iff_not,
      not_lt] at h
    exact ⟨hn, h.1, h.2⟩
  · left
    omega

theorem reorder_check_set (c : fastd_method_common) (n : Nat) :
    (fastd_method_reorder_check c n ((c.window_max : Int) - (n : Int))).1.set
      = !window_seen c n := by
  unfold fastd_method_reorder_check window_seen
  by_cases h1 : (c.window_max : Int) - (n : Int) < 0
  · have : ¬ n ≤ c.window_max := by omega
    simp [h1, this]
  · have hn : n ≤ c.window_max := by omega
    simp only [h1, if_false, hn, decide_True, Bool.true_and]
    by_cases h2 : (63 : Int) < (c.window_max : Int) - (n : Int)
    · have : 63 < c.window_max - n := by omega
      simp [h2, this]
    · have h2n : ¬ 63 < c.window_max - n := by omega
      have e : ((c.window_max : Int) - (n : Int)).toNat = c.window_max - n := by omega
      simp only [h2, if_false, h2n, decide_False, Bool.false_or, e]
      by_cases h3 : c.window.testBit (63 - (c.window_max - n)) = true
      · simp [h3]
      · simp [h3]

theorem xor_a_zero_left (k : List Nat) (n : Nat) (h : k.length = n) :
    xor_a (List.replicate n 0) k = k := by
  subst h
  induction k with
  | nil => simp [xor_a]
  | cons a k ih =>
    simp only [xor_a, List.length_cons, List.replicate_succ, List.zipWith_cons_cons,
      List.cons.injEq]
    exact ⟨Nat.zero_xor a, ih⟩

/-- A stream cipher that succeeds on one input succeeds on every input of that length, with the
same key stream. -/
theorem stream_cipher_key (c : fastd_cipher) (hc : is_stream_cipher c) (st iv x y : List Nat)
    (h : c.crypt st x iv = some y) :
    ∃ k : List Nat, k.length = x.length ∧ y = xor_a x k ∧
      ∀ z : List Nat, z.length = x.length → c.crypt st z iv = some (xor_a z k) := by
  obtain ⟨ks, hlen, hks⟩ := hc st iv x.length
  have hx := hks x rfl
  rw [h] at hx
  cases ks with
  | none => simp at hx
  | some k =>
    refine ⟨k, hlen k rfl, ?_, ?_⟩
    · simpa using hx
    · intro z hz
      rw [hks z hz]
      rfl

theorem take_bytes_fit (n a : Nat) (xs : List Nat) (h : n ≤ xs.length) :
    (bytes_fit a xs).take n = (xs.take a).take n := by
  unfold bytes_fit
  by_cases ha : a ≤ xs.length
  · rw [List.take_append_of_le_length ha]
  · rw [List.take_take, List.take_take]
    have e : min n a = n := by omega
    rw [e, List.take_append_of_le_length h]

theorem take_bytes_fit_append (n a : Nat) (xs ys : List Nat) (hn : xs.length = n) (ha : n ≤ a) :
    (bytes_fit a (xs ++ ys)).take n = xs := by
  unfold bytes_fit
  rw [List.take_take, Nat.min_eq_left ha, List.append_assoc]
  exact List.take_left' hn

/-- Decrypting the ciphertext with the key stream that encrypted it gives the plaintext back,
whatever follows the ciphertext in the buffer. -/
theorem stream_roundtrip (data k G : List Nat) (A : Nat) (hA : data.length ≤ A)
    (hk : k.length = A) :
    (bytes_fit A (xor_a (bytes_fit A
        ((bytes_fit A (xor_a (bytes_fit A data) k)).take data.length ++ G)) k)).take data.length
      = data := by
  have hfd : (bytes_fit A data).length = k.length := by rw [bytes_fit_length, hk]
  have henc : bytes_fit A (xor_a (bytes_fit A data) k) = xor_a (bytes_fit A data) k :=
    bytes_fit_self _ _ (by rw [xor_a_length _ _ hfd.symm, bytes_fit_length])
  have hdata : (bytes_fit A data).take data.length = data := by
    have := take_bytes_fit_append data.length A data [] rfl hA
    simpa using this
  have hC : (bytes_fit A (xor_a (bytes_fit A data) k)).take data.length
      = xor_a data (k.take data.length) := by
    rw [henc, xor_a_take, hdata]
  rw [hC]
  have hCl : (xor_a data (k.take data.length)).length = data.length :=
    xor_a_length _ _ (by rw [List.length_take, hk]; omega)
  have hdec : bytes_fit A (xor_a (bytes_fit A (xor_a data (k.take data.length) ++ G)) k)
      = xor_a (bytes_fit A (xor_a data (k.take data.length) ++ G)) k :=
    bytes_fit_self _ _ (by rw [xor_a_length _ _ (by rw [bytes_fit_length, hk]), bytes_fit_length])
  rw [hdec, xor_a_take, take_bytes_fit_append _ _ _ _ hCl hA]
  exact xor_a_cancel _ _ (by rw [List.length_take, hk]; omega)

/-- The tag block of a packet, run through the authentication cipher again, gives the tag. -/
theorem tag_block_roundtrip (k T : List Nat) (hk : k.length = BLOCK) (hT : T.length = BLOCK) :
    bytes_fit BLOCK (xor_a (xor_a (bytes_fit BLOCK k) T) k) = T := by
  rw [bytes_fit_self BLOCK k hk, xor_a_comm k T, xor_a_cancel T k (by omega)]
  exact bytes_fit_self _ _ hT

/-- What `method_decrypt` does with a packet produced by `method_encrypt` under the same keys:
the verification stage succeeds and leaves the tag block followed by the plaintext. -/
theorem decrypt_verify_of_encrypt (s : fastd_method_session_state) (rc : fastd_method_common)
    (inb : fastd_buffer) (hc : is_stream_cipher s.cipher) (hg : is_stream_cipher s.gmac_cipher)
    (henc : (method_encrypt s inb).ret = true) :
    ∃ TG C : List Nat, TG.length = BLOCK ∧ C.length = inb.len ∧
      (method_encrypt s inb).out.map fastd_buffer.data
        = some (nonce_bytes s.common.send_nonce ++ [0] ++ (TG ++ C)) ∧
      ∀ (h : Nat) (G : List Nat), ∃ B tl : List Nat, B.length = BLOCK ∧
        method_decrypt_verify { s with common := rc }
            { head_space := h, data := TG ++ C, tail := G } (s.common.send_nonce % 2 ^ 48)
          = some { head_space := 0, data := B ++ inb.data, tail := tl } := by
  obtain ⟨b0, enc, tag, hb0, henc2, htag, _, hout⟩ := method_encrypt_spec s inb henc
  have hb := block_count_bounds inb.len
  have hA : alignto inb.len BLOCK = block_count inb.len BLOCK * BLOCK := rfl
  have hCl : ((bytes_fit (alignto inb.len BLOCK) enc).take inb.len).length = inb.len :=
    take_bytes_fit_length _ _ _ (by rw [hA]; exact hb.1)
  have hXl : (xor_a (bytes_fit BLOCK b0) (bytes_fit BLOCK tag)).length = BLOCK := by
    rw [xor_a_length _ _ (by simp [bytes_fit_length]), bytes_fit_length]
  refine ⟨_, _, hXl, hCl, by rw [hout]; rfl, ?_⟩
  intro h G
  obtain ⟨kg, hkgl, hkg, hkgz⟩ := stream_cipher_key _ hg _ _ _ _ hb0
  obtain ⟨kc, hkcl, hkc, hkcz⟩ := stream_cipher_key _ hc _ _ _ _ henc2
  have hkgl16 : kg.length = BLOCK := by rw [hkgl]; rfl
  have hb0k : b0 = kg := by
    rw [hkg]
    exact xor_a_zero_left kg 16 hkgl16
  rw [bytes_fit_length] at hkcl
  rw [method_decrypt_verify_spec _ _ _ _ _ _ hXl]
  simp only [hCl, expand_nonce_mod]
  rw [hkgz _ (by rw [hXl]; rfl)]
  rw [hkcz _ (by rw [bytes_fit_length, bytes_fit_length])]
  simp only [htag]
  have htagblock : bytes_fit BLOCK
      (xor_a (xor_a (bytes_fit BLOCK b0) (bytes_fit BLOCK tag)) kg) = bytes_fit BLOCK tag := by
    rw [hb0k]
    exact tag_block_roundtrip kg _ hkgl16 (bytes_fit_length _ _)
  rw [htagblock]
  simp only [if_true]
  have hpl := stream_roundtrip inb.data kc G (alignto inb.len BLOCK)
    (by rw [hA]; exact hb.1) hkcl
  simp only [fastd_buffer.len] at hpl ⊢
  rw [hkc]
  simp only [fastd_buffer.len, hpl]
  exact ⟨_, _, bytes_fit_length _ _, rfl⟩

/-- What `method_decrypt` does with a well-formed packet (common header, tag block `TG`,
ciphertext `C`) on a valid session once the header is accepted and the flags are zero. -/
theorem method_decrypt_packet (ctx : fastd_context) (s : fastd_method_session_state)
    (bh N : Nat) (TG C G : List Nat) (hTG : TG.length = BLOCK)
    (hvalid : ctx.session_common_is_valid s.common = true)
    (hage : (s.common.window_max : Int) - ((N % 2 ^ 48 : Nat) : Int) ≤ 63) :
    method_decrypt ctx (some s) { head_space := bh, data := nonce_bytes N ++ [0] ++ (TG ++ C), tail := G }
      = match method_decrypt_verify s
            { head_space := bh + COMMON_HEADBYTES, data := TG ++ C, tail := G } (N % 2 ^ 48) with
        | none => { ret := false, session := some s, out := none, reordered := none }
        | some out =>
          if (fastd_method_reorder_check s.common (N % 2 ^ 48)
              ((s.common.window_max : Int) - ((N % 2 ^ 48 : Nat) : Int))).1.set then
            { ret := true
              session := some { s with common := (fastd_method_reorder_check s.common (N % 2 ^ 48)
                ((s.common.window_max : Int) - ((N % 2 ^ 48 : Nat) : Int))).2 }
              out := some (fastd_buffer_push_head out BLOCK)
              reordered := some (fastd_method_reorder_check s.common (N % 2 ^ 48)
                ((s.common.window_max : Int) - ((N % 2 ^ 48 : Nat) : Int))).1.state }
          else
            { ret := true
              session := some { s with common := (fastd_method_reorder_check s.common (N % 2 ^ 48)
                ((s.common.window_max : Int) - ((N % 2 ^ 48 : Nat) : Int))).2 }
              out := some (fastd_buffer_alloc 0 0 0)
              reordered := none } := by
  have hlen : ¬ (nonce_bytes N ++ [0] ++ (TG ++ C)).length < COMMON_HEADBYTES + BLOCK := by
    simp only [List.length_append, nonce_bytes_length, hTG, List.length_singleton,
      COMMON_HEADBYTES, COMMON_NONCEBYTES, COMMON_FLAGBYTES]
    omega
  unfold method_decrypt
  simp only [fastd_buffer.len, hlen, if_false, method_session_is_valid, hvalid, Bool.not_true,
    Bool.false_eq_true, handle_common_header_spec, hage, decide_True, ne_eq, not_true_eq_false]

/-- Every way in which `method_decrypt` can end: it fails and leaves everything as it was, or the
verification stage succeeded on a valid session with an accepted header and zero flags, and the
session is updated by the reorder check alone. -/
theorem method_decrypt_cases (ctx : fastd_context) (session : Option fastd_method_session_state)
    (inb : fastd_buffer) :
    ((method_decrypt ctx session inb).ret = false ∧
        (method_decrypt ctx session inb).session = session ∧
        (method_decrypt ctx session inb).out = none ∧
        (method_decrypt ctx session inb).reordered = none) ∨
      ∃ (s : fastd_method_session_state) (out : fastd_buffer),
        session = some s ∧
        COMMON_HEADBYTES + BLOCK ≤ inb.len ∧
        ctx.session_common_is_valid s.common = true ∧
        (fastd_method_handle_common_header s.common inb).ok = true ∧
        (fastd_method_handle_common_header s.common inb).flags = 0 ∧
        method_decrypt_verify s (fastd_method_handle_common_header s.common inb).buffer
          (fastd_method_handle_common_header s.common inb).nonce = some out ∧
        (method_decrypt ctx session inb).ret = true ∧
        (method_decrypt ctx session inb).session
          = some { s with common := (fastd_method_reorder_check s.common
              (fastd_method_handle_common_header s.common inb).nonce
              (fastd_method_handle_common_header s.common inb).age).2 } ∧
        (method_decrypt ctx session inb).reordered
          = (if (fastd_method_reorder_check s.common
                (fastd_method_handle_common_header s.common inb).nonce
                (fastd_method_handle_common_header s.common inb).age).1.set then
              some (fastd_method_reorder_check s.common
                (fastd_method_handle_common_header s.common inb).nonce
                (fastd_method_handle_common_header s.common inb).age).1.state
            else none) ∧
        (method_decrypt ctx session inb).out
          = (if (fastd_method_reorder_check s.common
                (fastd_method_handle_common_header s.common inb).nonce
                (fastd_method_handle_common_header s.common inb).age).1.set then
              some (fastd_buffer_push_head out BLOCK)
            else some (fastd_buffer_alloc 0 0 0)) := by
  unfold method_decrypt
  by_cases h1 : inb.len < COMMON_HEADBYTES + BLOCK
  · left
    simp [h1]
  · by_cases h2 : method_session_is_valid ctx session = true
    · cases session with
      | none => simp [method_session_is_valid] at h2
      | some s =>
        simp only [method_session_is_valid] at h2
        by_cases h3 : (fastd_method_handle_common_header s.common inb).ok = true
        · by_cases h4 : (fastd_method_handle_common_header s.common inb).flags = 0
          · cases h5 : method_decrypt_verify s (fastd_method_handle_common_header s.common inb).buffer
                (fastd_method_handle_common_header s.common inb).nonce with
            | none =>
              left
              simp [h1, method_session_is_valid, h2, h3, h4, h5]
            | some out =>
              right
              refine ⟨s, out, rfl, by omega, h2, h3, h4, h5, ?_⟩
              simp only [h1, if_false, method_session_is_valid, h2, h3, h4, h5, Bool.not_true,
                Bool.false_eq_true, ne_eq, not_true_eq_false]
              split <;> simp_all
          · left
            simp [h1, method_session_is_valid, h2, h3, h4]
        · left
          simp [h1, method_session_is_valid, h2, h3]
    · left
      simp [h1, h2]

/-- The replay window never forgets: a nonce with no room left before a reorder check has no
room left after it. -/
theorem reorder_check_seen_mono (c : fastd_method_common) (n m : Nat)
    (h : window_seen c n = true) :
    window_seen (fastd_method_reorder_check c m ((c.window_max : Int) - (m : Int))).2 n
      = true := by
  unfold window_seen at h
  simp only [Bool.and_eq_true, decide_eq_true_eq, Bool.or_eq_true] at h
  obtain ⟨hn, hs⟩ := h
  unfold fastd_method_reorder_check
  by_cases h1 : (c.window_max : Int) - (m : Int) < 0
  · simp only [h1, if_true]
    unfold window_seen
    simp only [Bool.and_eq_true, decide_eq_true_eq, Bool.or_eq_true]
    refine ⟨by omega, ?_⟩
    rcases hs with hs | hs
    · left; omega
    · by_cases h2 : 63 < m - n
      · left; exact h2
      · right
        have e : (-((c.window_max : Int) - (m : Int))).toNat = m - c.window_max := by omega
        rw [e, Nat.testBit_or, Nat.testBit_shiftRight]
        have e2 : m - c.window_max + (63 - (m - n)) = 63 - (c.window_max - n) := by omega
        rw [e2, hs]
        rfl
  · simp only [h1, if_false]
    by_cases h2 : (63 : Int) < (c.window_max : Int) - (m : Int)
    · simp only [h2, if_true]
      unfold window_seen
      simp only [Bool.and_eq_true, decide_eq_true_eq, Bool.or_eq_true]
      exact ⟨hn, hs⟩
    · simp only [h2, if_false]
      split
      · unfold window_seen
        simp only [Bool.and_eq_true, decide_eq_true_eq, Bool.or_eq_true]
        exact ⟨hn, hs⟩
      · unfold window_seen
        simp only [Bool.and_eq_true, decide_eq_true_eq, Bool.or_eq_true]
        refine ⟨hn, ?_⟩
        rcases hs with hs | hs
        · left; exact hs
        · right
          rw [Nat.testBit_or, hs]
          rfl

/-- A nonce that the reorder check accepts has no room left afterwards. -/
theorem reorder_check_marks (c : fastd_method_common) (n : Nat)
    (h : (fastd_method_reorder_check c n ((c.window_max : Int) - (n : Int))).1.set = true) :
    window_seen (fastd_method_reorder_check c n ((c.window_max : Int) - (n : Int))).2 n
      = true := by
  unfold fastd_method_reorder_check at h ⊢
  by_cases h1 : (c.window_max : Int) - (n : Int) < 0
  · simp only [h1, if_true]
    unfold window_seen
    simp only [le_refl, decide_True, Nat.sub_self, Bool.true_and, Bool.or_eq_true,
      decide_eq_true_eq]
    right
    rw [Nat.testBit_or, Nat.testBit_two_pow_self, Bool.or_true]
  · simp only [h1, if_false] at h ⊢
    by_cases h2 : (63 : Int) < (c.window_max : Int) - (n : Int)
    · simp [h2] at h
    · simp only [h2, if_false] at h ⊢
      split at h
      · simp at h
      · rename_i h3
        simp only [h3, Bool.false_eq_true, if_false]
        unfold window_seen
        simp only [Bool.and_eq_true, decide_eq_true_eq, Bool.or_eq_true]
        refine ⟨by omega, Or.inr ?_⟩
        have e : ((c.window_max : Int) - (n : Int)).toNat = c.window_max - n := by omega
        rw [e, Nat.testBit_or, Nat.testBit_two_pow_self, Bool.or_true]

theorem handle_common_header_nonce (c : fastd_method_common) (b : fastd_buffer) :
    (fastd_method_handle_common_header c b).nonce = packet_nonce b ∧
      (fastd_method_handle_common_header c b).age
        = (c.window_max : Int) - ((packet_nonce b : Nat) : Int) :=
  ⟨rfl, rfl⟩

/-- A call of `method_decrypt` keeps every nonce that had no room in the window out of it. -/
theorem method_decrypt_seen_mono (ctx : fastd_context)
    (session : Option fastd_method_session_state) (inb : fastd_buffer) (n : Nat)
    (h : ∀ s, session = some s → window_seen s.common n = true) :
    ∀ s, (method_decrypt ctx session inb).session = some s → window_seen s.common n = true := by
  intro s2 hs2
  rcases method_decrypt_cases ctx session inb with ⟨_, hsame, _, _⟩ | ⟨s, out, hs, _, _, _, _, _, _, hsess, _, _⟩
  · rw [hsame] at hs2
    exact h s2 hs2
  · rw [hsess] at hs2
    have e := (Option.some.inj hs2).symm
    subst e
    obtain ⟨hn, ha⟩ := handle_common_header_nonce s.common inb
    simp only [hn, ha]
    exact reorder_check_seen_mono s.common n (packet_nonce inb) (h s hs)

/-- A call of `method_decrypt` that accepts its packet found room for the nonce in the window and
leaves none. -/
theorem method_decrypt_accept (ctx : fastd_context)
    (session : Option fastd_method_session_state) (inb : fastd_buffer)
    (h : (method_decrypt ctx session inb).accepted = true) :
    (∃ s, session = some s ∧ window_seen s.common (packet_nonce inb) = false) ∧
      ∀ s, (method_decrypt ctx session inb).session = some s →
        window_seen s.common (packet_nonce inb) = true := by
  unfold decrypt_result.accepted at h
  simp only [Bool.and_eq_true] at h
  rcases method_decrypt_cases ctx session inb with ⟨hret, _, _, _⟩ | ⟨s, out, hs, _, _, _, _, _, _, hsess, hre, _⟩
  · rw [hret] at h
    simp at h
  · obtain ⟨hn, ha⟩ := handle_common_header_nonce s.common inb
    rw [hn, ha] at hsess hre
    have hset : (fastd_method_reorder_check s.common (packet_nonce inb)
        ((s.common.window_max : Int) - ((packet_nonce inb : Nat) : Int))).1.set = true := by
      by_contra hc
      rw [hre] at h
      simp [hc] at h
    constructor
    · refine ⟨s, hs, ?_⟩
      have := reorder_check_set s.common (packet_nonce inb)
      rw [hset] at this
      simpa using this.symm
    · intro s2 hs2
      rw [hsess] at hs2
      have e := (Option.some.inj hs2).symm
      subst e
      exact reorder_check_marks s.common (packet_nonce inb) hset

/-- A call of `method_decrypt` that returns a non-empty payload accepted its packet. -/
theorem method_decrypt_nonempty_accepted (ctx : fastd_context)
    (session : Option fastd_method_session_state) (inb : fastd_buffer)
    (h : (method_decrypt ctx session inb).nonempty = true) :
    (method_decrypt ctx session inb).accepted = true := by
  unfold decrypt_result.nonempty at h
  unfold decrypt_result.accepted
  simp only [Bool.and_eq_true] at h ⊢
  refine ⟨h.1, ?_⟩
  rcases method_decrypt_cases ctx session inb with ⟨hret, _, _, _⟩ | ⟨s, out, hs, _, _, _, _, _, _, _, hre, hout⟩
  · rw [hret] at h
    simp at h
  · rw [hre]
    rw [hout] at h
    split
    · rfl
    · rename_i hset
      simp [hset, fastd_buffer_alloc, fastd_buffer.len] at h

/-- Once the window has no room for a nonce, no later call accepts a packet that carries it. -/
theorem decrypt_run_seen (n : Nat) (calls : List (fastd_context × fastd_buffer)) :
    ∀ session : Option fastd_method_session_state,
      (∀ s, session = some s → window_seen s.common n = true) →
      (calls.zip (decrypt_run session calls)).countP
        (fun p => decide (packet_nonce p.1.2 = n) && p.2.accepted) = 0 := by
  induction calls with
  | nil => intro session _; rfl
  | cons call calls ih =>
    intro session h
    simp only [decrypt_run, List.zip_cons_cons, List.countP_cons]
    rw [ih _ (method_decrypt_seen_mono call.1 session call.2 n h)]
    by_cases hacc : (method_decrypt call.1 session call.2).accepted = true
    · obtain ⟨⟨s, hs, hfresh⟩, _⟩ := method_decrypt_accept call.1 session call.2 hacc
      have hne : packet_nonce call.2 ≠ n := by
        intro he
        rw [he, h s hs] at hfresh
        exact Bool.noConfusion hfresh
      simp [hne]
    · simp [hacc]

theorem decrypt_run_accept_once (n : Nat) (calls : List (fastd_context × fastd_buffer)) :
    ∀ session : Option fastd_method_session_state,
      (calls.zip (decrypt_run session calls)).countP
        (fun p => decide (packet_nonce p.1.2 = n) && p.2.accepted) ≤ 1 := by
  induction calls with
  | nil => intro session; simp [decrypt_run]
  | cons call calls ih =>
    intro session
    simp only [decrypt_run, List.zip_cons_cons, List.countP_cons]
    by_cases hacc : (decide (packet_nonce call.2 = n) &&
        (method_decrypt call.1 session call.2).accepted) = true
    · simp only [Bool.and_eq_true, decide_eq_true_eq] at hacc
      obtain ⟨_, hseen⟩ := method_decrypt_accept call.1 session call.2 hacc.2
      rw [hacc.1] at hseen
      rw [decrypt_run_seen n calls _ hseen]
      split <;> omega
    · have := ih (method_decrypt call.1 session call.2).session
      simp only [hacc, Bool.false_eq_true, if_false]
      omega

/-- A failing `method_encrypt` leaves the session as it was and hands back no buffer. -/
theorem method_encrypt_fail (s : fastd_method_session_state) (inb : fastd_buffer)
    (h : (method_encrypt s inb).ret = false) :
    (method_encrypt s inb).session = s ∧ (method_encrypt s inb).out = none := by
  unfold method_encrypt at h ⊢
  simp only [] at h ⊢
  split
  · exact ⟨rfl, rfl⟩
  · split
    · exact ⟨rfl, rfl⟩
    · split
      · exact ⟨rfl, rfl⟩
      · rename_i h1 _ _ h2 _ _ h3
        simp only [h1, h2, h3] at h
        exact Bool.noConfusion h

theorem sent_nonces_cons (s : fastd_method_session_state) (inb : fastd_buffer)
    (inbs : List fastd_buffer) :
    sent_nonces s (inb :: inbs)
      = if (method_encrypt s inb).ret = true then
          (s.common.send_nonce % 2 ^ 48) ::
            sent_nonces { s with common := fastd_method_increment_nonce s.common } inbs
        else sent_nonces s inbs := by
  unfold sent_nonces
  simp only [encrypt_run, List.filterMap_cons]
  by_cases h : (method_encrypt s inb).ret = true
  · obtain ⟨b0, enc, tag, _, _, _, hsess, hout⟩ := method_encrypt_spec s inb h
    simp only [h, if_true, hout, Option.map_some', hsess]
    rw [packet_nonce_header]
  · have h2 : (method_encrypt s inb).ret = false := by simpa using h
    obtain ⟨hsess, _⟩ := method_encrypt_fail s inb h2
    simp only [h, if_false, hsess]
    simp

theorem sent_nonces_lower (inbs : List fastd_buffer) :
    ∀ s : fastd_method_session_state, s.common.send_nonce + 2 * inbs.length < 2 ^ 48 →
      ∀ x ∈ sent_nonces s inbs, s.common.send_nonce ≤ x := by
  induction inbs with
  | nil => intro s _ x hx; simp [sent_nonces, encrypt_run] at hx
  | cons inb inbs ih =>
    intro s hs x hx
    rw [sent_nonces_cons] at hx
    simp only [List.length_cons] at hs
    split at hx
    · rcases List.mem_cons.1 hx with hx | hx
      · rw [hx, Nat.mod_eq_of_lt (by omega)]
      · have hinc : (fastd_method_increment_nonce s.common).send_nonce
            = s.common.send_nonce + 2 := by
          simp only [fastd_method_increment_nonce]
          exact Nat.mod_eq_of_lt (by omega)
        have := ih { s with common := fastd_method_increment_nonce s.common }
          (by simp only [hinc]; omega) x hx
        simp only [hinc] at this
        omega
    · exact ih s (by omega) x hx

theorem sent_nonces_increasing (inbs : List fastd_buffer) :
    ∀ s : fastd_method_session_state, s.common.send_nonce + 2 * inbs.length < 2 ^ 48 →
      (sent_nonces s inbs).Pairwise (fun a b => a < b) := by
  induction inbs with
  | nil => intro s _; simp [sent_nonces, encrypt_run]
  | cons inb inbs ih =>
    intro s hs
    rw [sent_nonces_cons]
    simp only [List.length_cons] at hs
    split
    · have hinc : (fastd_method_increment_nonce s.common).send_nonce
          = s.common.send_nonce + 2 := by
        simp only [fastd_method_increment_nonce]
        exact Nat.mod_eq_of_lt (by omega)
      rw [List.pairwise_cons]
      refine ⟨?_, ih _ (by simp only [hinc]; omega)⟩
      intro x hx
      have := sent_nonces_lower inbs { s with common := fastd_method_increment_nonce s.common }
        (by simp only [hinc]; omega) x hx
      simp only [hinc] at this
      rw [Nat.mod_eq_of_lt (by omega)]
      omega
    · exact ih s (by omega)

/-! ## Lemmas on C strings and method names -/

theorem cstr_of_no_nul (s : List Char) (h : NUL ∉ s) : cstr s = s := by
  unfold cstr
  rw [List.takeWhile_eq_self_iff]
  intro c hc
  simp only [bne_iff_ne, ne_eq]
  intro he
  exact h (he ▸ hc)

theorem cstr_append_nul (s r : List Char) (h : NUL ∉ s) : cstr (s ++ NUL :: r) = s := by
  unfold cstr
  induction s with
  | nil => simp [List.takeWhile]
  | cons a s ih =>
    have ha : a ≠ NUL := fun he => h (he ▸ List.mem_cons_self _ _)
    have hs : NUL ∉ s := fun hm => h (List.mem_cons_of_mem _ hm)
    simp only [List.cons_append, List.takeWhile_cons, bne_iff_ne, ne_eq, ha, not_false_eq_true,
      decide_True, if_true, List.cons.injEq, true_and]
    exact ih hs

theorem not_mem_drop {α : Type} (a : α) (s : List α) (k : Nat) (h : a ∉ s) : a ∉ s.drop k :=
  fun hm => h (List.mem_of_mem_drop hm)

theorem streq_drop (name lit : List Char) (k : Nat) (h : NUL ∉ name) :
    streq (name.drop k) lit = decide (name.drop k = lit) := by
  unfold streq
  rw [cstr_of_no_nul _ (not_mem_drop NUL name k h)]

theorem strlen_of_no_nul (s : List Char) (h : NUL ∉ s) : strlen s = s.length := by
  unfold strlen
  rw [cstr_of_no_nul s h]

theorem nul_not_mem_append (X lit : List Char) (hX : NUL ∉ X) (hl : NUL ∉ lit) :
    NUL ∉ X ++ lit := by
  intro hm
  rcases List.mem_append.1 hm with hm | hm
  · exact hX hm
  · exact hl hm

/-- The scratch array for a name that ends in `-gmac`: the name with `gmac` replaced by `ctr`. -/
theorem cipher_name_scratch_minus (X : List Char) (hX : NUL ∉ X) :
    cipher_name_scratch (X ++ ['-', 'g', 'm', 'a', 'c'])
      = some (X ++ ['-', 'c', 't', 'r', NUL]) := by
  have hn : NUL ∉ X ++ ['-', 'g', 'm', 'a', 'c'] :=
    nul_not_mem_append X _ hX (by decide)
  unfold cipher_name_scratch
  simp only [strlen_of_no_nul _ hn, streq_drop _ _ _ hn, List.length_append, List.length_cons,
    List.length_nil]
  have e1 : X.length + (0 + 1 + 1 + 1 + 1 + 1) - 5 = X.length := by omega
  have e2 : X.length + (0 + 1 + 1 + 1 + 1 + 1) - 4 = (X ++ ['-']).length := by
    simp
  have hd : (X ++ ['-', 'g', 'm', 'a', 'c']).drop X.length = ['-', 'g', 'm', 'a', 'c'] :=
    List.drop_left' rfl
  have ht : (X ++ ['-', 'g', 'm', 'a', 'c']).take (X ++ ['-']).length = X ++ ['-'] := by
    rw [show X ++ ['-', 'g', 'm', 'a', 'c'] = (X ++ ['-']) ++ ['g', 'm', 'a', 'c'] by simp]
    exact List.take_left' rfl
  rw [e1, hd, e2, ht]
  have h5 : 5 ≤ X.length + (0 + 1 + 1 + 1 + 1 + 1) := by omega
  simp only [h5, decide_True, and_self, if_true, Option.some.injEq]
  have hr : List.replicate (X.length + (0 + 1 + 1 + 1 + 1 + 1)) (Char.ofNat 63)
      = List.replicate (X ++ ['-']).length (Char.ofNat 63)
        ++ List.replicate 4 (Char.ofNat 63) := by
    rw [← List.replicate_add]
    congr 1
    simp
  rw [hr, arr_write_start _ _ _ (by simp)]
  have := arr_write_mid (X ++ ['-']) (List.replicate 4 (Char.ofNat 63)) [] ['c', 't', 'r', NUL]
    (X ++ ['-']).length rfl (by simp)
  simpa using this

theorem ends_in_ctr_gmac (X : List Char) :
    (9 ≤ X.length + 5 ∧
        (X ++ ['+', 'g', 'm', 'a', 'c']).drop (X.length + 5 - 9)
          = ['-', 'c', 't', 'r', '+', 'g', 'm', 'a', 'c'])
      ↔ List.IsSuffix ['-', 'c', 't', 'r'] X := by
  constructor
  · rintro ⟨h9, hd⟩
    have hk : X.length + 5 - 9 ≤ X.length := by omega
    rw [List.drop_append_of_le_length hk] at hd
    have hl : (X.drop (X.length + 5 - 9)).length = ['-', 'c', 't', 'r'].length := by
      simp only [List.length_drop, List.length_cons, List.length_nil]
      omega
    have := List.append_inj_left
      (show X.drop (X.length + 5 - 9) ++ ['+', 'g', 'm', 'a', 'c']
        = ['-', 'c', 't', 'r'] ++ ['+', 'g', 'm', 'a', 'c'] from hd) hl
    exact ⟨X.take (X.length + 5 - 9), by rw [← this, List.take_append_drop]⟩
  · rintro ⟨Y, hY⟩
    subst hY
    refine ⟨by simp, ?_⟩
    have e : (Y ++ ['-', 'c', 't', 'r']).length + 5 - 9 = Y.length := by simp
    rw [e, List.append_assoc, List.drop_left]
    rfl

/-- The scratch array for a name that ends in `+gmac`: nothing when the name ends in
`-ctr+gmac`, otherwise the name with `+gmac` cut off by a NUL. -/
theorem cipher_name_scratch_plus (X : List Char) (hX : NUL ∉ X) :
    cipher_name_scratch (X ++ ['+', 'g', 'm', 'a', 'c'])
      = if List.IsSuffix ['-', 'c', 't', 'r'] X then none
        else some (X ++ NUL :: List.replicate 4 (Char.ofNat 63)) := by
  have hn : NUL ∉ X ++ ['+', 'g', 'm', 'a', 'c'] :=
    nul_not_mem_append X _ hX (by decide)
  unfold cipher_name_scratch
  simp only [strlen_of_no_nul _ hn, streq_drop _ _ _ hn]
  have hlen : (X ++ ['+', 'g', 'm', 'a', 'c']).length = X.length + 5 := by simp
  rw [hlen]
  have e1 : X.length + 5 - 5 = X.length := by omega
  have hd : (X ++ ['+', 'g', 'm', 'a', 'c']).drop X.length = ['+', 'g', 'm', 'a', 'c'] :=
    List.drop_left' rfl
  have ht : (X ++ ['+', 'g', 'm', 'a', 'c']).take X.length = X := List.take_left' rfl
  rw [e1, hd, ht]
  have h5 : 5 ≤ X.length + 5 := by omega
  have hne : ¬ (['+', 'g', 'm', 'a', 'c'] = ['-', 'g', 'm', 'a', 'c']) := by decide
  simp only [h5, hne, decide_False, decide_True, Bool.false_eq_true, and_false, and_true,
    and_self, if_false, if_true, decide_eq_true_eq, ends_in_ctr_gmac]
  split
  · rfl
  · congr 1
    have hr : List.replicate (X.length + 5) (Char.ofNat 63)
        = List.replicate X.length (Char.ofNat 63) ++ List.replicate 5 (Char.ofNat 63) := by
      rw [← List.replicate_add]
    rw [hr, arr_write_start _ _ _ (by simp)]
    have := arr_write_mid X [Char.ofNat 63] (List.replicate 4 (Char.ofNat 63)) [NUL] X.length rfl
      rfl
    simpa using this

theorem strchr_split (A B r : List Char) (hp : '+' ∉ A) (hA : NUL ∉ A) (hB : NUL ∉ B) :
    strchr (A ++ '+' :: (B ++ NUL :: r)) '+' = some A.length := by
  have hc : cstr (A ++ '+' :: (B ++ NUL :: r)) = A ++ '+' :: B := by
    have : A ++ '+' :: (B ++ NUL :: r) = (A ++ '+' :: B) ++ NUL :: r := by simp
    rw [this]
    apply cstr_append_nul
    intro hm
    rcases List.mem_append.1 hm with hm | hm
    · exact hA hm
    · rcases List.mem_cons.1 hm with hm | hm
      · exact absurd hm (by decide)
      · exact hB hm
  unfold strchr
  rw [hc]
  have hmem : '+' ∈ A ++ '+' :: B := by simp
  rw [if_pos hmem, List.indexOf_append_of_not_mem hp, List.indexOf_cons_self]
  rfl

theorem strchr_none (Y r : List Char) (hp : '+' ∉ Y) (hY : NUL ∉ Y) :
    strchr (Y ++ NUL :: r) '+' = none := by
  unfold strchr
  rw [cstr_append_nul Y r hY, if_neg hp]

/-- Once the scratch array holds `A+B` followed by a NUL, `method_create_by_name` looks up the
ciphers `A` and `B`. -/
theorem method_create_by_name_of_scratch (reg : fastd_registry) (name A B r : List Char)
    (hs : cipher_name_scratch name = some (A ++ '+' :: (B ++ NUL :: r)))
    (hp : '+' ∉ A) (hA : NUL ∉ A) (hB : NUL ∉ B) :
    method_create_by_name reg name
      = match reg.mac_info_get_by_name ['g', 'h', 'a', 's', 'h'] with
        | none => none
        | some ghash_info =>
          match reg.cipher_info_get_by_name A with
          | none => none
          | some cipher_info =>
            if cipher_info.iv_length ≠ 0 ∧ cipher_info.iv_length ≤ COMMON_NONCEBYTES then none
            else
              match reg.cipher_info_get_by_name B with
              | none => none
              | some gmac_cipher_info =>
                if gmac_cipher_info.iv_length ≤ COMMON_NONCEBYTES then none
                else
                  some { cipher_info := cipher_info
                         gmac_cipher_info := gmac_cipher_info
                         ghash_info := ghash_info } := by
  unfold method_create_by_name
  rw [hs]
  simp only [strchr_split A B r hp hA hB]
  have hw : arr_write (A ++ '+' :: (B ++ NUL :: r)) A.length [NUL] = A ++ NUL :: (B ++ NUL :: r) := by
    have := arr_write_mid A ['+'] (B ++ NUL :: r) [NUL] A.length rfl rfl
    simpa using this
  have hd : (A ++ NUL :: (B ++ NUL :: r)).drop (A.length + 1) = B ++ NUL :: r := by
    have : A ++ NUL :: (B ++ NUL :: r) = (A ++ [NUL]) ++ (B ++ NUL :: r) := by simp
    rw [this]
    exact List.drop_left' (by simp)
  rw [hw, hd, cstr_append_nul A _ hA, cstr_append_nul B r hB]

theorem method_create_by_name_no_plus (reg : fastd_registry) (name Y r : List Char)
    (hs : cipher_name_scratch name = some (Y ++ NUL :: r)) (hp : '+' ∉ Y) (hY : NUL ∉ Y) :
    method_create_by_name reg name = none := by
  unfold method_create_by_name
  rw [hs]
  simp only [strchr_none Y r hp hY]
  split <;> rfl

theorem method_create_by_name_no_scratch (reg : fastd_registry) (name : List Char)
    (hs : cipher_name_scratch name = none) : method_create_by_name reg name = none := by
  unfold method_create_by_name
  rw [hs]
  split <;> rfl

/-! ## The example primitives satisfy the assumptions made on ciphers and MACs -/

theorem toy_cipher_stream : is_stream_cipher toy_cipher := by
  intro st iv len
  refine ⟨some (toy_keystream st iv len), ?_, ?_⟩
  · intro k hk
    cases hk
    simp [toy_keystream]
  · intro inp hinp
    simp [toy_cipher, hinp]

/-- C1, as stated, fails: a receiver that has so far accepted only the packet with nonce 201
returns false for the packet with nonce 1 of the same sender, although it has never seen that
nonce (the nonce lies below the replay window); and a fresh receiver whose session has expired
returns false for the packet with nonce 1. -/
theorem roundtrip_counterexample :
    (method_encrypt (demo_session ⟨1, 0, 0⟩) demo_frame).ret = true ∧
      (method_encrypt (demo_session ⟨201, 0, 0⟩) demo_frame).ret = true ∧
      packet_nonce (demo_packet 1) = 1 ∧
      packet_nonce (demo_packet 201) = 201 ∧
      (method_decrypt demo_ctx (some (demo_session ⟨2, 0, 0⟩)) (demo_packet 201)).accepted
        = true ∧
      (method_decrypt demo_ctx
        (method_decrypt demo_ctx (some (demo_session ⟨2, 0, 0⟩)) (demo_packet 201)).session
        (demo_packet 1)).ret = false ∧
      (method_decrypt expired_ctx (some (demo_session ⟨2, 0, 0⟩)) (demo_packet 1)).ret
        = false := by
  decide

/-- C1, amended: with stream ciphers for encryption and authentication, if `method_encrypt` on
the sender session succeeds and its output is given to `method_decrypt` on a valid peer session
(same method and keys, any common state) whose replay window still has room for the nonce of the
packet, then `method_decrypt` returns true, accepts the packet, and the output buffer holds
exactly the bytes of the plaintext. -/
theorem method_roundtrip (ctx : fastd_context) (s : fastd_method_session_state)
    (rc : fastd_method_common) (inb b : fastd_buffer)
    (hc : is_stream_cipher s.cipher) (hg : is_stream_cipher s.gmac_cipher)
    (henc : (method_encrypt s inb).ret = true)
    (hb : (method_encrypt s inb).out.map (fun o => o.data) = some b.data)
    (hvalid : ctx.session_common_is_valid rc = true)
    (hroom : window_seen rc (packet_nonce b) = false) :
    (method_decrypt ctx (some { s with common := rc }) b).ret = true ∧
      (method_decrypt ctx (some { s with common := rc }) b).accepted = true ∧
      (method_decrypt ctx (some { s with common := rc }) b).out.map (fun o => o.data)
        = some inb.data ∧
      (method_decrypt ctx (some { s with common := rc }) b).out.map (fun o => o.len)
        = some inb.len := by
  obtain ⟨TG, C, hTG, hC, hout, hver⟩ := decrypt_verify_of_encrypt s rc inb hc hg henc
  rw [show (fun o : fastd_buffer => o.data) = fastd_buffer.data from rfl, hout] at hb
  have hdata : b = { head_space := b.head_space
                     data := nonce_bytes s.common.send_nonce ++ [0] ++ (TG ++ C)
                     tail := b.tail } := by
    cases b
    simp only [Option.some.injEq] at hb
    simp [hb]
  rw [hdata] at hroom ⊢
  rw [packet_nonce_header] at hroom
  have hage : ((({ s with common := rc } : fastd_method_session_state).common.window_max : Nat)
      : Int) - ((s.common.send_nonce % 2 ^ 48 : Nat) : Int) ≤ 63 := by
    rcases window_seen_false rc _ hroom with h | ⟨_, h, _⟩
    · simp only []
      omega
    · simp only []
      omega
  rw [method_decrypt_packet ctx { s with common := rc } b.head_space s.common.send_nonce TG C
    b.tail hTG hvalid hage]
  obtain ⟨B, tl, hB, hv⟩ := hver (b.head_space + COMMON_HEADBYTES) b.tail
  rw [hv]
  have hset := reorder_check_set rc (s.common.send_nonce % 2 ^ 48)
  rw [hroom] at hset
  simp only [hset, Bool.not_false, if_true, decrypt_result.accepted, Option.isSome_some,
    Bool.and_self, Option.map_some', fastd_buffer_push_head, fastd_buffer.len, true_and]
  rw [List.drop_left' hB]
  exact ⟨rfl, rfl⟩

/-- An instance of `method_roundtrip`: the example frame sent with nonce 1 to a fresh receiver. -/
theorem method_roundtrip_witness :
    (method_encrypt (demo_session ⟨1, 0, 0⟩) demo_frame).ret = true ∧
      window_seen ⟨2, 0, 0⟩ (packet_nonce (demo_packet 1)) = false ∧
      ((method_decrypt demo_ctx (some (demo_session ⟨2, 0, 0⟩)) (demo_packet 1)).ret = true ∧
        (method_decrypt demo_ctx (some (demo_session ⟨2, 0, 0⟩)) (demo_packet 1)).accepted
          = true ∧
        (method_decrypt demo_ctx (some (demo_session ⟨2, 0, 0⟩)) (demo_packet 1)).out.map
          (fun o => o.data) = some demo_frame.data ∧
        (method_decrypt demo_ctx (some (demo_session ⟨2, 0, 0⟩)) (demo_packet 1)).out.map
          (fun o => o.len) = some demo_frame.len) :=
  ⟨by decide, by decide,
    method_roundtrip demo_ctx (demo_session ⟨1, 0, 0⟩) ⟨2, 0, 0⟩ demo_frame (demo_packet 1)
      toy_cipher_stream toy_cipher_stream (by decide) (by decide) rfl (by decide)⟩

/-! ## Replay protection and the send nonce -/

/-- C2: replay soundness.  For every session, every sequence of `method_decrypt` calls on it
(each with its own context and packet) and every nonce `n`, at most one call whose packet
carries `n` accepts the packet, and at most one such call returns a non-empty payload. -/
theorem replay_soundness (session : Option fastd_method_session_state)
    (calls : List (fastd_context × fastd_buffer)) (n : Nat) :
    (calls.zip (decrypt_run session calls)).countP
        (fun p => decide (packet_nonce p.1.2 = n) && p.2.accepted) ≤ 1 ∧
      (calls.zip (decrypt_run session calls)).countP
        (fun p => decide (packet_nonce p.1.2 = n) && p.2.nonempty) ≤ 1 := by
  have hacc := decrypt_run_accept_once n calls session
  refine ⟨hacc, Nat.le_trans ?_ hacc⟩
  apply List.countP_mono_left
  intro p hp hne
  simp only [Bool.and_eq_true, decide_eq_true_eq] at hne ⊢
  refine ⟨hne.1, ?_⟩
  have hmem : p.2 ∈ decrypt_run session calls := (List.of_mem_zip hp).2
  have hall : ∀ (cs : List (fastd_context × fastd_buffer))
      (s0 : Option fastd_method_session_state) (d : decrypt_result),
      d ∈ decrypt_run s0 cs → d.nonempty = true → d.accepted = true := by
    intro cs
    induction cs with
    | nil => intro s0 d hd; simp [decrypt_run] at hd
    | cons c cs ih =>
      intro s0 d hd hdn
      simp only [decrypt_run, List.mem_cons] at hd
      rcases hd with hd | hd
      · subst hd
        exact method_decrypt_nonempty_accepted _ _ _ hdn
      · exact ih _ d hd hdn
  exact hall calls session p.2 hmem hne.2

/-- C3, as stated, fails: a session whose send nonce is the last 48-bit value sends the nonces
`2^48 - 1` and then `1`, which is not an increasing sequence. -/
theorem nonce_monotonicity_counterexample :
    sent_nonces (demo_session ⟨2 ^ 48 - 1, 0, 0⟩) [demo_frame, demo_frame]
        = [2 ^ 48 - 1, 1] ∧
      ¬ (sent_nonces (demo_session ⟨2 ^ 48 - 1, 0, 0⟩) [demo_frame, demo_frame]).Pairwise
        (fun a b => a < b) := by
  decide

/-- C3, amended: for every session and every sequence of `method_encrypt` calls on it during
which the 48-bit send nonce does not run out (send nonce plus twice the number of calls stays
below `2^48`), the nonces in the headers of the successive successful outputs are strictly
increasing, so none is used twice. -/
theorem nonce_monotonicity (s : fastd_method_session_state) (inbs : List fastd_buffer)
    (h : s.common.send_nonce + 2 * inbs.length < 2 ^ 48) :
    (sent_nonces s inbs).Pairwise (fun a b => a < b) ∧ (sent_nonces s inbs).Nodup := by
  have hp := sent_nonces_increasing inbs s h
  refine ⟨hp, ?_⟩
  exact hp.imp (fun hab => Nat.ne_of_lt hab)

/-- An instance of `nonce_monotonicity`: three frames sent from nonce 1 carry 1, 3 and 5. -/
theorem nonce_monotonicity_witness :
    sent_nonces (demo_session ⟨1, 0, 0⟩) [demo_frame, demo_frame, demo_frame] = [1, 3, 5] ∧
      (sent_nonces (demo_session ⟨1, 0, 0⟩) [demo_frame, demo_frame, demo_frame]).Pairwise
        (fun a b => a < b) ∧
      (sent_nonces (demo_session ⟨1, 0, 0⟩) [demo_frame, demo_frame, demo_frame]).Nodup :=
  ⟨by decide,
    nonce_monotonicity (demo_session ⟨1, 0, 0⟩) [demo_frame, demo_frame, demo_frame]
      (by decide)⟩

/-! ## Failure paths of `method_decrypt` -/

/-- C5: no mutation on failure of decrypt.  For every session and every input packet, if
`method_decrypt` returns false, the session (send nonce and replay window included) is the same
after the call as before, and no output is produced; and whenever the call changes the session,
the packet was long enough, the session valid, the header accepted, the flags zero and the
verification stage (ciphers, MAC and tag comparison) had succeeded before the reorder check
ran. -/
theorem decrypt_failure_keeps_state (ctx : fastd_context)
    (session : Option fastd_method_session_state) (inb : fastd_buffer) :
    ((method_decrypt ctx session inb).ret = false →
        (method_decrypt ctx session inb).session = session ∧
        (method_decrypt ctx session inb).out = none ∧
        (method_decrypt ctx session inb).reordered = none) ∧
      ((method_decrypt ctx session inb).session ≠ session →
        ∃ s : fastd_method_session_state, session = some s ∧
          COMMON_HEADBYTES + BLOCK ≤ inb.len ∧
          ctx.session_common_is_valid s.common = true ∧
          (fastd_method_handle_common_header s.common inb).ok = true ∧
          (fastd_method_handle_common_header s.common inb).flags = 0 ∧
          (method_decrypt_verify s (fastd_method_handle_common_header s.common inb).buffer
            (fastd_method_handle_common_header s.common inb).nonce).isSome = true ∧
          (method_decrypt ctx session inb).ret = true) := by
  rcases method_decrypt_cases ctx session inb with
    ⟨h1, h2, h3, h4⟩ | ⟨s, out, hs, hlen, hvalid, hok, hfl, hver, hret, _⟩
  · exact ⟨fun _ => ⟨h2, h3, h4⟩, fun hne => absurd h2 hne⟩
  · refine ⟨fun hf => ?_, fun _ => ⟨s, hs, hlen, hvalid, hok, hfl, by rw [hver]; rfl, hret⟩⟩
    rw [hret] at hf
    exact Bool.noConfusion hf

/-- An instance of `decrypt_failure_keeps_state`: the example packet with a corrupted tag byte
fails and leaves the receiver as it was; the intact packet changes the receiver's window. -/
theorem decrypt_failure_keeps_state_witness :
    ((method_decrypt demo_ctx (some (demo_session ⟨2, 0, 0⟩))
          { demo_packet 1 with data := (demo_packet 1).data.set 9 0 }).session
        = some (demo_session ⟨2, 0, 0⟩) ∧
      (method_decrypt demo_ctx (some (demo_session ⟨2, 0, 0⟩))
          { demo_packet 1 with data := (demo_packet 1).data.set 9 0 }).out = none ∧
      (method_decrypt demo_ctx (some (demo_session ⟨2, 0, 0⟩))
          { demo_packet 1 with data := (demo_packet 1).data.set 9 0 }).reordered = none) ∧
      (method_decrypt demo_ctx (some (demo_session ⟨2, 0, 0⟩)) (demo_packet 1)).ret = true :=
  ⟨(decrypt_failure_keeps_state demo_ctx (some (demo_session ⟨2, 0, 0⟩))
      { demo_packet 1 with data := (demo_packet 1).data.set 9 0 }).1 (by decide),
    by decide⟩

/-! ## The wire layout -/

/-- C6: wire layout and overhead of encrypt.  For every plaintext of length `n` on which
`method_encrypt` succeeds, the output buffer is the common header (the 6 nonce bytes of the send
nonce, least significant first, and a flags byte equal to 0), followed by the 16-byte tag block,
followed by exactly `n` ciphertext bytes (the first `n` bytes that the cipher produced for the
zero-padded plaintext); its length is `n + COMMON_HEADBYTES + 16`, which is `n` plus the
`max_overhead` that the provider declares. -/
theorem encrypt_wire_layout (s : fastd_method_session_state) (inb : fastd_buffer)
    (h : (method_encrypt s inb).ret = true) :
    ∃ (out : fastd_buffer) (tag ct enc : List Nat),
      (method_encrypt s inb).out = some out ∧
      out.data = nonce_bytes s.common.send_nonce ++ [0] ++ tag ++ ct ∧
      (nonce_bytes s.common.send_nonce).length = COMMON_NONCEBYTES ∧
      packet_nonce out = s.common.send_nonce % 2 ^ 48 ∧
      tag.length = 16 ∧
      ct.length = inb.len ∧
      s.cipher.crypt s.cipher_state (bytes_fit (alignto inb.len BLOCK) inb.data)
          (fastd_method_expand_nonce s.common.send_nonce s.method.cipher_info.iv_length)
        = some enc ∧
      ct = (bytes_fit (alignto inb.len BLOCK) enc).take inb.len ∧
      out.len = inb.len + COMMON_HEADBYTES + 16 ∧
      out.len = inb.len + fastd_method_composed_gmac.max_overhead := by
  obtain ⟨b0, enc, tag, _, henc, _, _, hout⟩ := method_encrypt_spec s inb h
  have hbb := block_count_bounds inb.len
  have hA : alignto inb.len BLOCK = block_count inb.len BLOCK * BLOCK := rfl
  have hCl : ((bytes_fit (alignto inb.len BLOCK) enc).take inb.len).length = inb.len :=
    take_bytes_fit_length _ _ _ (by rw [hA]; exact hbb.1)
  have hXl : (xor_a (bytes_fit BLOCK b0) (bytes_fit BLOCK tag)).length = 16 := by
    rw [xor_a_length _ _ (by simp [bytes_fit_length]), bytes_fit_length]
    rfl
  have hlen : (nonce_bytes s.common.send_nonce ++ [0]
      ++ (xor_a (bytes_fit BLOCK b0) (bytes_fit BLOCK tag)
        ++ (bytes_fit (alignto inb.len BLOCK) enc).take inb.len)).length
      = inb.len + COMMON_HEADBYTES + 16 := by
    simp only [List.length_append, nonce_bytes_length, List.length_singleton, hXl, hCl,
      COMMON_HEADBYTES, COMMON_NONCEBYTES, COMMON_FLAGBYTES]
    omega
  refine ⟨_, xor_a (bytes_fit BLOCK b0) (bytes_fit BLOCK tag),
    (bytes_fit (alignto inb.len BLOCK) enc).take inb.len, enc, hout, ?_, rfl, ?_, hXl, hCl,
    henc, rfl, hlen, ?_⟩
  · simp
  · exact packet_nonce_header _ _ _ _ _
  · rw [fastd_buffer.len, hlen]
    rfl

/-- An instance of `encrypt_wire_layout` on the example frame. -/
theorem encrypt_wire_layout_witness :
    (method_encrypt (demo_session ⟨1, 0, 0⟩) demo_frame).ret = true ∧
      ∃ (out : fastd_buffer) (tag ct enc : List Nat),
        (method_encrypt (demo_session ⟨1, 0, 0⟩) demo_frame).out = some out ∧
        out.data = nonce_bytes 1 ++ [0] ++ tag ++ ct ∧
        (nonce_bytes 1).length = COMMON_NONCEBYTES ∧
        packet_nonce out = 1 % 2 ^ 48 ∧
        tag.length = 16 ∧
        ct.length = demo_frame.len ∧
        toy_cipher.crypt [5] (bytes_fit (alignto demo_frame.len BLOCK) demo_frame.data)
            (fastd_method_expand_nonce 1 8) = some enc ∧
        ct = (bytes_fit (alignto demo_frame.len BLOCK) enc).take demo_frame.len ∧
        out.len = demo_frame.len + COMMON_HEADBYTES + 16 ∧
        out.len = demo_frame.len + fastd_method_composed_gmac.max_overhead :=
  ⟨by decide, encrypt_wire_layout (demo_session ⟨1, 0, 0⟩) demo_frame (by decide)⟩

/-- C7: flags check.  For every input packet whose common header carries a flags byte different
from 0, `method_decrypt` returns false and hands back no output buffer, whatever the session,
the tag and the ciphertext are; the session is left as it was. -/
theorem decrypt_rejects_flags (ctx : fastd_context)
    (session : Option fastd_method_session_state) (inb : fastd_buffer) (f : Nat)
    (hf : inb.data.get? COMMON_NONCEBYTES = some f) (hne : f ≠ 0) :
    (method_decrypt ctx session inb).ret = false ∧
      (method_decrypt ctx session inb).out = none ∧
      (method_decrypt ctx session inb).reordered = none ∧
      (method_decrypt ctx session inb).session = session := by
  rcases method_decrypt_cases ctx session inb with
    ⟨h1, h2, h3, h4⟩ | ⟨s, out, _, _, _, _, hfl, _⟩
  · exact ⟨h1, h3, h4, h2⟩
  · exfalso
    have hf2 : inb.data[COMMON_NONCEBYTES + 0]? = some f := by
      rw [← List.get?_eq_getElem?]
      exact hf
    rw [← List.getElem?_drop] at hf2
    have : (fastd_method_handle_common_header s.common inb).flags = f := by
      simp only [fastd_method_handle_common_header]
      cases hd : inb.data.drop COMMON_NONCEBYTES with
      | nil =>
        rw [hd] at hf2
        exact Option.noConfusion hf2
      | cons a r =>
        rw [hd] at hf2
        simp only [List.getElem?_cons_zero, Option.some.injEq] at hf2
        simp only [List.headD_cons]
        exact hf2
    rw [this] at hfl
    exact hne hfl

/-- An instance of `decrypt_rejects_flags`: the example packet with its flags byte set to 1. -/
theorem decrypt_rejects_flags_witness :
    (method_decrypt demo_ctx (some (demo_session ⟨2, 0, 0⟩))
        { demo_packet 1 with data := (demo_packet 1).data.set 6 1 }).ret = false ∧
      (method_decrypt demo_ctx (some (demo_session ⟨2, 0, 0⟩))
        { demo_packet 1 with data := (demo_packet 1).data.set 6 1 }).out = none ∧
      (method_decrypt demo_ctx (some (demo_session ⟨2, 0, 0⟩))
        { demo_packet 1 with data := (demo_packet 1).data.set 6 1 }).reordered = none ∧
      (method_decrypt demo_ctx (some (demo_session ⟨2, 0, 0⟩))
        { demo_packet 1 with data := (demo_packet 1).data.set 6 1 }).session
        = some (demo_session ⟨2, 0, 0⟩) :=
  decrypt_rejects_flags demo_ctx (some (demo_session ⟨2, 0, 0⟩))
    { demo_packet 1 with data := (demo_packet 1).data.set 6 1 } 1 (by decide) (by decide)

/-! ## Method names -/

theorem method_lookup_iff (reg : fastd_registry) (A B : List Char) (m : fastd_method) :
    (match reg.mac_info_get_by_name ['g', 'h', 'a', 's', 'h'] with
      | none => none
      | some ghash_info =>
        match reg.cipher_info_get_by_name A with
        | none => none
        | some cipher_info =>
          if cipher_info.iv_length ≠ 0 ∧ cipher_info.iv_length ≤ COMMON_NONCEBYTES then none
          else
            match reg.cipher_info_get_by_name B with
            | none => none
            | some gmac_cipher_info =>
              if gmac_cipher_info.iv_length ≤ COMMON_NONCEBYTES then none
              else
                some { cipher_info := cipher_info
                       gmac_cipher_info := gmac_cipher_info
                       ghash_info := ghash_info }) = some m
      ↔ ∃ (g : fastd_mac_info) (c a : fastd_cipher_info),
          reg.mac_info_get_by_name ['g', 'h', 'a', 's', 'h'] = some g ∧
          reg.cipher_info_get_by_name A = some c ∧
          reg.cipher_info_get_by_name B = some a ∧
          (c.iv_length = 0 ∨ COMMON_NONCEBYTES < c.iv_length) ∧
          COMMON_NONCEBYTES < a.iv_length ∧
          m = { cipher_info := c, gmac_cipher_info := a, ghash_info := g } := by
  cases hg : reg.mac_info_get_by_name ['g', 'h', 'a', 's', 'h'] with
  | none => simp
  | some g =>
    cases hc : reg.cipher_info_get_by_name A with
    | none => simp
    | some c =>
      cases ha : reg.cipher_info_get_by_name B with
      | none =>
        constructor
        · intro h
          simp only [] at h
          split at h <;> exact Option.noConfusion h
        · rintro ⟨_, _, _, _, _, h, _⟩
          exact Option.noConfusion h
      | some a =>
        simp only []
        constructor
        · intro h
          split at h
          · exact Option.noConfusion h
          · split at h
            · exact Option.noConfusion h
            · exact ⟨g, c, a, rfl, rfl, rfl, by omega, by omega, (Option.some.inj h).symm⟩
        · rintro ⟨g2, c2, a2, hg2, hc2, ha2, h1, h2, hm⟩
          cases hg2
          cases hc2
          cases ha2
          rw [if_neg (by omega), if_neg (by omega), hm]

theorem not_mem_append_lit (a : Char) (X lit : List Char) (hX : a ∉ X) (hl : a ∉ lit) :
    a ∉ X ++ lit := by
  intro hm
  rcases List.mem_append.1 hm with hm | hm
  · exact hX hm
  · exact hl hm

/-- C8, as stated, fails: the example registry knows `aes128` and `aes128-ctr` (and GHASH), yet
`method_create_by_name` returns false for the shortcut name `aes128-gmac`. -/
theorem shortcut_name_counterexample :
    demo_registry.mac_info_get_by_name ("ghash".toList) = some ⟨16⟩ ∧
      demo_registry.cipher_info_get_by_name ("aes128".toList) = some ⟨16, 16⟩ ∧
      demo_registry.cipher_info_get_by_name ("aes128-ctr".toList) = some ⟨16, 16⟩ ∧
      method_create_by_name demo_registry ("aes128-gmac".toList) = none := by
  decide

/-- C8, amended: for every cipher name `C` (containing no `+`), `method_create_by_name` returns
false for the shortcut name `C-gmac`, and when the registry knows GHASH, `C` and `C-ctr` with
acceptable IV lengths (that of `C` zero or above `COMMON_NONCEBYTES`, that of `C-ctr` above
`COMMON_NONCEBYTES`), the method with encryption cipher `C` and authentication cipher `C-ctr` is
what it yields for the expanded name `C+C-gmac`. -/
theorem shortcut_name (reg : fastd_registry) (C : List Char) (g : fastd_mac_info)
    (c a : fastd_cipher_info) (hp : '+' ∉ C) (hn : NUL ∉ C)
    (hg : reg.mac_info_get_by_name ['g', 'h', 'a', 's', 'h'] = some g)
    (hc : reg.cipher_info_get_by_name C = some c)
    (ha : reg.cipher_info_get_by_name (C ++ ['-', 'c', 't', 'r']) = some a)
    (hciv : c.iv_length = 0 ∨ COMMON_NONCEBYTES < c.iv_length)
    (haiv : COMMON_NONCEBYTES < a.iv_length) :
    method_create_by_name reg (C ++ ['-', 'g', 'm', 'a', 'c']) = none ∧
      method_create_by_name reg (C ++ '+' :: C ++ ['-', 'g', 'm', 'a', 'c'])
        = some { cipher_info := c, gmac_cipher_info := a, ghash_info := g } := by
  constructor
  · have hs := cipher_name_scratch_minus C hn
    have e : C ++ ['-', 'c', 't', 'r', NUL] = (C ++ ['-', 'c', 't', 'r']) ++ NUL :: [] := by simp
    rw [e] at hs
    exact method_create_by_name_no_plus reg _ _ _ hs
      (not_mem_append_lit '+' C _ hp (by decide)) (not_mem_append_lit NUL C _ hn (by decide))
  · have hn2 : NUL ∉ C ++ '+' :: C := by
      intro hm
      rcases List.mem_append.1 hm with hm | hm
      · exact hn hm
      · rcases List.mem_cons.1 hm with hm | hm
        · exact absurd hm (by decide)
        · exact hn hm
    have hs := cipher_name_scratch_minus (C ++ '+' :: C) hn2
    have e : (C ++ '+' :: C) ++ ['-', 'c', 't', 'r', NUL]
        = C ++ '+' :: ((C ++ ['-', 'c', 't', 'r']) ++ NUL :: []) := by simp
    rw [e] at hs
    have e2 : C ++ '+' :: C ++ ['-', 'g', 'm', 'a', 'c']
        = (C ++ '+' :: C) ++ ['-', 'g', 'm', 'a', 'c'] := by simp
    rw [e2, method_create_by_name_of_scratch reg _ C (C ++ ['-', 'c', 't', 'r']) [] hs hp hn
      (not_mem_append_lit NUL C _ hn (by decide))]
    exact (method_lookup_iff reg C (C ++ ['-', 'c', 't', 'r']) _).2
      ⟨g, c, a, hg, hc, ha, hciv, haiv, rfl⟩

/-- An instance of `shortcut_name` in the example registry, with `C = aes128`. -/
theorem shortcut_name_witness :
    method_create_by_name demo_registry ("aes128-gmac".toList) = none ∧
      method_create_by_name demo_registry ("aes128+aes128-gmac".toList)
        = some { cipher_info := ⟨16, 16⟩, gmac_cipher_info := ⟨16, 16⟩, ghash_info := ⟨16⟩ } :=
  shortcut_name demo_registry ("aes128".toList) ⟨16⟩ ⟨16, 16⟩ ⟨16, 16⟩ (by decide) (by decide)
    (by decide) (by decide) (by decide) (by decide) (by decide)

/-- C9: counter-mode name form.  For every name of the form `A+B-gmac` where `A` contains no
`+`, `method_create_by_name` looks up the encryption cipher under the name `A` and the
authentication cipher under the name `B-ctr`, and it succeeds exactly when both lookups succeed,
the GHASH MAC exists, the IV length of the encryption cipher is 0 or greater than
`COMMON_NONCEBYTES`, and the IV length of the authentication cipher is greater than
`COMMON_NONCEBYTES`; the method it yields holds the three descriptors found. -/
theorem counter_mode_name (reg : fastd_registry) (A B : List Char) (m : fastd_method)
    (hp : '+' ∉ A) (hA : NUL ∉ A) (hB : NUL ∉ B) :
    method_create_by_name reg (A ++ '+' :: B ++ ['-', 'g', 'm', 'a', 'c']) = some m
      ↔ ∃ (g : fastd_mac_info) (c a : fastd_cipher_info),
          reg.mac_info_get_by_name ['g', 'h', 'a', 's', 'h'] = some g ∧
          reg.cipher_info_get_by_name A = some c ∧
          reg.cipher_info_get_by_name (B ++ ['-', 'c', 't', 'r']) = some a ∧
          (c.iv_length = 0 ∨ COMMON_NONCEBYTES < c.iv_length) ∧
          COMMON_NONCEBYTES < a.iv_length ∧
          m = { cipher_info := c, gmac_cipher_info := a, ghash_info := g } := by
  have hn2 : NUL ∉ A ++ '+' :: B := by
    intro hm
    rcases List.mem_append.1 hm with hm | hm
    · exact hA hm
    · rcases List.mem_cons.1 hm with hm | hm
      · exact absurd hm (by decide)
      · exact hB hm
  have hs := cipher_name_scratch_minus (A ++ '+' :: B) hn2
  have e : (A ++ '+' :: B) ++ ['-', 'c', 't', 'r', NUL]
      = A ++ '+' :: ((B ++ ['-', 'c', 't', 'r']) ++ NUL :: []) := by simp
  rw [e] at hs
  have e2 : A ++ '+' :: B ++ ['-', 'g', 'm', 'a', 'c']
      = (A ++ '+' :: B) ++ ['-', 'g', 'm', 'a', 'c'] := by simp
  rw [e2, method_create_by_name_of_scratch reg _ A (B ++ ['-', 'c', 't', 'r']) [] hs hp hA
    (not_mem_append_lit NUL B _ hB (by decide))]
  exact method_lookup_iff reg A (B ++ ['-', 'c', 't', 'r']) m

/-- An instance of `counter_mode_name`: `null+aes128-gmac` resolves to the ciphers `null` and
`aes128-ctr` in the example registry. -/
theorem counter_mode_name_witness :
    method_create_by_name demo_registry ("null+aes128-gmac".toList)
        = some { cipher_info := ⟨0, 0⟩, gmac_cipher_info := ⟨16, 16⟩, ghash_info := ⟨16⟩ } ∧
      demo_registry.cipher_info_get_by_name ("null".toList) = some ⟨0, 0⟩ ∧
      demo_registry.cipher_info_get_by_name ("aes128-ctr".toList) = some ⟨16, 16⟩ :=
  ⟨(counter_mode_name demo_registry ("null".toList) ("aes128".toList)
      { cipher_info := ⟨0, 0⟩, gmac_cipher_info := ⟨16, 16⟩, ghash_info := ⟨16⟩ }
      (by decide) (by decide) (by decide)).2
      ⟨⟨16⟩, ⟨0, 0⟩, ⟨16, 16⟩, by decide, by decide, by decide, by decide, by decide, rfl⟩,
    by decide, by decide⟩

theorem cipher_name_scratch_other (name : List Char) (hn : NUL ∉ name)
    (h1 : ¬ List.IsSuffix ['-', 'g', 'm', 'a', 'c'] name)
    (h2 : ¬ List.IsSuffix ['+', 'g', 'm', 'a', 'c'] name) :
    cipher_name_scratch name = none := by
  unfold cipher_name_scratch
  simp only [strlen_of_no_nul _ hn, streq_drop _ _ _ hn, decide_eq_true_eq]
  have d1 : ¬ (5 ≤ name.length ∧ name.drop (name.length - 5) = ['-', 'g', 'm', 'a', 'c']) := by
    rintro ⟨_, hd⟩
    exact h1 (hd ▸ List.drop_suffix _ _)
  have d2 : ¬ (5 ≤ name.length ∧ name.drop (name.length - 5) = ['+', 'g', 'm', 'a', 'c']) := by
    rintro ⟨_, hd⟩
    exact h2 (hd ▸ List.drop_suffix _ _)
  rw [if_neg d1, if_neg d2]

theorem nul_not_mem_left (X lit : List Char) (h : NUL ∉ X ++ lit) : NUL ∉ X :=
  fun hm => h (List.mem_append_left _ hm)

/-- Names that `method_create_by_name` rejects. -/
theorem method_create_by_name_rejects (reg : fastd_registry) (name : List Char)
    (hn : NUL ∉ name)
    (h : name.length < 5 ∨
      (¬ List.IsSuffix ['-', 'g', 'm', 'a', 'c'] name ∧
        ¬ List.IsSuffix ['+', 'g', 'm', 'a', 'c'] name) ∨
      List.IsSuffix ['-', 'c', 't', 'r', '+', 'g', 'm', 'a', 'c'] name ∨
      '+' ∉ name.take (name.length - 5)) :
    method_create_by_name reg name = none := by
  by_cases h1 : List.IsSuffix ['-', 'g', 'm', 'a', 'c'] name
  · obtain ⟨X, hX⟩ := h1
    subst hX
    have hXn := nul_not_mem_left X _ hn
    have hs := cipher_name_scratch_minus X hXn
    have e : X ++ ['-', 'c', 't', 'r', NUL] = (X ++ ['-', 'c', 't', 'r']) ++ NUL :: [] := by simp
    rw [e] at hs
    have hplus : '+' ∉ X := by
      rcases h with h | h | h | h
      · simp at h
      · exact absurd ⟨X, rfl⟩ h.1
      · exfalso
        obtain ⟨Y, hY⟩ := h
        have e : Y ++ ['-', 'c', 't', 'r', '+', 'g', 'm', 'a', 'c']
            = (Y ++ ['-', 'c', 't', 'r']) ++ ['+', 'g', 'm', 'a', 'c'] := by simp
        rw [e] at hY
        have := List.append_inj_right' hY rfl
        exact absurd this (by decide)
      · simpa using h
    exact method_create_by_name_no_plus reg _ _ _ hs
      (not_mem_append_lit '+' X _ hplus (by decide))
      (not_mem_append_lit NUL X _ hXn (by decide))
  · by_cases h2 : List.IsSuffix ['+', 'g', 'm', 'a', 'c'] name
    · obtain ⟨X, hX⟩ := h2
      subst hX
      have hXn := nul_not_mem_left X _ hn
      have hs := cipher_name_scratch_plus X hXn
      by_cases h3 : List.IsSuffix ['-', 'c', 't', 'r'] X
      · rw [if_pos h3] at hs
        exact method_create_by_name_no_scratch reg _ hs
      · rw [if_neg h3] at hs
        have hplus : '+' ∉ X := by
          rcases h with h | h | h | h
          · simp at h
          · exact absurd ⟨X, rfl⟩ h.2
          · exfalso
            apply h3
            obtain ⟨Y, hY⟩ := h
            have e : Y ++ ['-', 'c', 't', 'r', '+', 'g', 'm', 'a', 'c']
                = (Y ++ ['-', 'c', 't', 'r']) ++ ['+', 'g', 'm', 'a', 'c'] := by simp
            rw [e] at hY
            exact ⟨Y, List.append_cancel_right hY⟩
          · simpa using h
        exact method_create_by_name_no_plus reg _ _ _ hs hplus hXn
    · exact method_create_by_name_no_scratch reg _ (cipher_name_scratch_other name hn h1 h2)


/-- C10: plain name form and rejected names.  For every name of the form `A+B+gmac` (`A` without
`+`) that does not end in `-ctr+gmac`, `method_create_by_name` looks up the ciphers `A` and `B`
and succeeds exactly when GHASH and both ciphers are known with acceptable IV lengths; and it
returns false, without producing a method, for every name that is shorter than 5 characters,
ends in neither `-gmac` nor `+gmac`, ends in `-ctr+gmac`, or contains no `+` before the
suffix. -/
theorem plain_name_form (reg : fastd_registry) (A B : List Char) (m : fastd_method)
    (hp : '+' ∉ A) (hA : NUL ∉ A) (hB : NUL ∉ B)
    (hctr : ¬ List.IsSuffix ['-', 'c', 't', 'r', '+', 'g', 'm', 'a', 'c']
      (A ++ '+' :: B ++ ['+', 'g', 'm', 'a', 'c'])) :
    (method_create_by_name reg (A ++ '+' :: B ++ ['+', 'g', 'm', 'a', 'c']) = some m
        ↔ ∃ (g : fastd_mac_info) (c a : fastd_cipher_info),
            reg.mac_info_get_by_name ['g', 'h', 'a', 's', 'h'] = some g ∧
            reg.cipher_info_get_by_name A = some c ∧
            reg.cipher_info_get_by_name B = some a ∧
            (c.iv_length = 0 ∨ COMMON_NONCEBYTES < c.iv_length) ∧
            COMMON_NONCEBYTES < a.iv_length ∧
            m = { cipher_info := c, gmac_cipher_info := a, ghash_info := g }) ∧
      ∀ name : List Char, NUL ∉ name →
        (name.length < 5 ∨
          (¬ List.IsSuffix ['-', 'g', 'm', 'a', 'c'] name ∧
            ¬ List.IsSuffix ['+', 'g', 'm', 'a', 'c'] name) ∨
          List.IsSuffix ['-', 'c', 't', 'r', '+', 'g', 'm', 'a', 'c'] name ∨
          '+' ∉ name.take (name.length - 5)) →
        method_create_by_name reg name = none := by
  refine ⟨?_, fun name hn h => method_create_by_name_rejects reg name hn h⟩
  have hn2 : NUL ∉ A ++ '+' :: B := by
    intro hm
    rcases List.mem_append.1 hm with hm | hm
    · exact hA hm
    · rcases List.mem_cons.1 hm with hm | hm
      · exact absurd hm (by decide)
      · exact hB hm
  have e2 : A ++ '+' :: B ++ ['+', 'g', 'm', 'a', 'c']
      = (A ++ '+' :: B) ++ ['+', 'g', 'm', 'a', 'c'] := by simp
  have h3 : ¬ List.IsSuffix ['-', 'c', 't', 'r'] (A ++ '+' :: B) := by
    rintro ⟨Y, hY⟩
    apply hctr
    refine ⟨Y, ?_⟩
    rw [e2, ← hY]
    simp
  have hs := cipher_name_scratch_plus (A ++ '+' :: B) hn2
  rw [if_neg h3] at hs
  have e : (A ++ '+' :: B) ++ NUL :: List.replicate 4 (Char.ofNat 63)
      = A ++ '+' :: (B ++ NUL :: List.replicate 4 (Char.ofNat 63)) := by simp
  rw [e] at hs
  rw [e2, method_create_by_name_of_scratch reg _ A B _ hs hp hA hB]
  exact method_lookup_iff reg A B m

/-- An instance of `plain_name_form`: `null+salsa20+gmac` resolves to the ciphers `null` and
`salsa20` in the example registry, and four malformed names are rejected. -/
theorem plain_name_form_witness :
    method_create_by_name demo_registry ("null+salsa20+gmac".toList)
        = some { cipher_info := ⟨0, 0⟩, gmac_cipher_info := ⟨32, 8⟩, ghash_info := ⟨16⟩ } ∧
      method_create_by_name demo_registry ("gmac".toList) = none ∧
      method_create_by_name demo_registry ("null+salsa20".toList) = none ∧
      method_create_by_name demo_registry ("null+aes128-ctr+gmac".toList) = none ∧
      method_create_by_name demo_registry ("salsa20+gmac".toList) = none :=
  have h := plain_name_form demo_registry ("null".toList) ("salsa20".toList)
    { cipher_info := ⟨0, 0⟩, gmac_cipher_info := ⟨32, 8⟩, ghash_info := ⟨16⟩ }
    (by decide) (by decide) (by decide) (by decide)
  ⟨h.1.2 ⟨⟨16⟩, ⟨0, 0⟩, ⟨32, 8⟩, by decide, by decide, by decide, by decide, by decide, rfl⟩,
    h.2 _ (by decide) (Or.inl (by decide)),
    h.2 _ (by decide) (Or.inr (Or.inl (by decide))),
    h.2 _ (by decide) (Or.inr (Or.inr (Or.inl (by decide)))),
    h.2 _ (by decide) (Or.inr (Or.inr (Or.inr (by decide))))⟩

/-! ## Handshake records and the buffer structure -/

theorem bytes_fit_getElem? (n i : Nat) (xs : List Nat) :
    (bytes_fit n xs)[i]? = if i < n then some (xs.getD i 0) else none := by
  unfold bytes_fit
  rw [List.getElem?_take]
  split
  · rename_i h
    rw [List.getElem?_append, List.getD_eq_getElem?_getD]
    split
    · rename_i h2
      rw [List.getElem?_eq_getElem h2]
      rfl
    · rename_i h2
      have h3 : xs[i]? = none := List.getElem?_eq_none (by omega)
      have h4 : i - xs.length < n := by omega
      rw [h3, List.getElem?_replicate, if_pos h4]
      rfl
  · rfl

theorem bytes_fit_drop (a n : Nat) (xs : List Nat) :
    (bytes_fit (a + n) xs).drop a = bytes_fit n (xs.drop a) := by
  apply List.ext_getElem?
  intro i
  rw [List.getElem?_drop, bytes_fit_getElem?, bytes_fit_getElem?]
  by_cases h : i < n
  · rw [if_pos h, if_pos (by omega)]
    simp [List.getD_eq_getElem?_getD]
  · rw [if_neg h, if_neg (by omega)]

theorem mem_store_after (p rest src : List Nat) (off : Nat) (h : off = p.length) :
    mem_store (p ++ rest) off src = p ++ src ++ rest.drop src.length := by
  subst h
  unfold mem_store
  rw [ bytes_fit_prefix _ p rest rfl, List.drop_append_eq_append_drop]
  simp

/-- The five stores of a record encoder leave the bytes before the record as they were and put
the record behind them. -/
theorem handshake_store (mem : List Nat) (dst b0 b1 b2 b3 : Nat) (V : List Nat) :
    ∃ R : List Nat,
      mem_store (mem_store (mem_store (mem_store (mem_store mem dst [b0]) (dst + 1) [b1])
          (dst + 2) [b2]) (dst + 3) [b3]) (dst + 4) V
        = bytes_fit dst mem ++ ([b0, b1, b2, b3] ++ V) ++ R := by
  have hP : (bytes_fit dst mem).length = dst := bytes_fit_length _ _
  have h1 : mem_store mem dst [b0] = bytes_fit dst mem ++ [b0] ++ mem.drop (dst + 1) := rfl
  rw [h1]
  rw [mem_store_after (bytes_fit dst mem ++ [b0]) _ [b1] (dst + 1) (by simp [hP])]
  rw [mem_store_after (bytes_fit dst mem ++ [b0] ++ [b1]) _ [b2] (dst + 2) (by simp [hP])]
  rw [mem_store_after (bytes_fit dst mem ++ [b0] ++ [b1] ++ [b2]) _ [b3] (dst + 3)
    (by simp [hP])]
  rw [mem_store_after (bytes_fit dst mem ++ [b0] ++ [b1] ++ [b2] ++ [b3]) _ V (dst + 4)
    (by simp [hP])]
  exact ⟨List.drop V.length (List.drop [b3].length (List.drop [b2].length
    (List.drop [b1].length (List.drop (dst + 1) mem)))), by simp⟩

/-- The bytes of a buffer after a record has been stored behind them. -/
theorem bytes_after_store (b : _fastd_buffer) (rec R : List Nat) (hbase : b.base ≤ b.data) :
    mem_read (bytes_fit (b.data + b.len - b.base) b.mem ++ rec ++ R) (b.data - b.base)
        (b.len + rec.length)
      = b.bytes ++ rec := by
  have e : b.data + b.len - b.base = (b.data - b.base) + b.len := by omega
  unfold mem_read _fastd_buffer.bytes mem_read
  rw [e, List.append_assoc, List.drop_append_of_le_length (by rw [bytes_fit_length]; omega),
    bytes_fit_drop, ← List.append_assoc]
  exact bytes_fit_prefix _ _ _ (by rw [List.length_append, bytes_fit_length])

/-- One call of `fastd_handshake_add` with enough room. -/
theorem fastd_handshake_add_spec (b : _fastd_buffer) (t : Nat) (v : List Nat)
    (hbase : b.base ≤ b.data)
    (hroom : b.data + b.len + 4 + v.length ≤ b.base + b.base_len) :
    ∃ b1 : _fastd_buffer, fastd_handshake_add b t v.length v = some b1 ∧
      b1.bytes = b.bytes ++ record_bytes t v ∧
      b1.len = b.len + (4 + v.length) ∧
      b1.base = b.base ∧ b1.base_len = b.base_len ∧ b1.data = b.data := by
  obtain ⟨R, hR⟩ := handshake_store b.mem (b.data + b.len - b.base) (t % 256)
    ((t >>> 8) % 256) (v.length % 256) ((v.length >>> 8) % 256) (bytes_fit v.length v)
  rw [bytes_fit_self _ v rfl] at hR
  have hadd : fastd_handshake_add b t v.length v
      = some { b with
          mem := bytes_fit (b.data + b.len - b.base) b.mem
            ++ ([t % 256, (t >>> 8) % 256, v.length % 256, (v.length >>> 8) % 256] ++ v) ++ R
          len := b.len + (4 + v.length) } := by
    unfold fastd_handshake_add
    rw [if_neg (by omega)]
    simp only [bytes_fit_self _ v rfl]
    rw [hR]
  refine ⟨_, hadd, ?_, rfl, rfl, rfl, rfl⟩
  have hb := bytes_after_store b ([t % 256, (t >>> 8) % 256, v.length % 256,
    (v.length >>> 8) % 256] ++ v) R hbase
  have hl : ([t % 256, (t >>> 8) % 256, v.length % 256, (v.length >>> 8) % 256] ++ v).length
      = 4 + v.length := by
    simp only [List.length_append, List.length_cons, List.length_nil]
  rw [hl] at hb
  exact hb

/-- The room that a list of records takes. -/
theorem handshake_add_all_spec (records : List (Nat × List Nat)) :
    ∀ b : _fastd_buffer, b.base ≤ b.data →
      b.data + b.len + (records.map (fun r => 4 + r.2.length)).sum ≤ b.base + b.base_len →
      ∃ b2 : _fastd_buffer, handshake_add_all b records = some b2 ∧
        b2.bytes = b.bytes ++ (records.map (fun r => record_bytes r.1 r.2)).flatten ∧
        b2.len = b.len + (records.map (fun r => 4 + r.2.length)).sum ∧
        b2.base = b.base ∧ b2.base_len = b.base_len ∧ b2.data = b.data := by
  induction records with
  | nil =>
    intro b _ _
    exact ⟨b, rfl, by simp, by simp, rfl, rfl, rfl⟩
  | cons r rs ih =>
    intro b hbase hroom
    simp only [List.map_cons, List.sum_cons] at hroom
    obtain ⟨b1, h1, hbytes1, hlen1, hb1, hbl1, hd1⟩ :=
      fastd_handshake_add_spec b r.1 r.2 hbase (by omega)
    obtain ⟨b2, h2, hbytes2, hlen2, hb2, hbl2, hd2⟩ := ih b1 (by omega)
      (by rw [hd1, hlen1, hb1, hbl1]; omega)
    refine ⟨b2, ?_, ?_, ?_, by omega, by omega, by omega⟩
    · simp only [handshake_add_all, h1, h2]
    · rw [hbytes2, hbytes1]
      simp
    · rw [hlen2, hlen1]
      simp only [List.map_cons, List.sum_cons]
      omega

theorem record_bytes_fields (t : Nat) (v : List Nat) :
    (t < 65536 → nonce_value ((record_bytes t v).take 2) = t) ∧
      (v.length ≤ 65535 → nonce_value (((record_bytes t v).drop 2).take 2) = v.length) ∧
      (record_bytes t v).drop 4 = v ∧
      (record_bytes t v).length = 4 + v.length := by
  unfold record_bytes
  refine ⟨fun ht => ?_, fun hv => ?_, rfl, ?_⟩
  · simp only [List.cons_append, List.take_succ_cons, List.take_zero, nonce_value,
      Nat.shiftRight_eq_div_pow]
    omega
  · simp only [List.cons_append, List.drop_succ_cons, List.drop_zero, List.take_succ_cons,
      List.take_zero, nonce_value, Nat.shiftRight_eq_div_pow]
    omega
  · simp only [List.length_append, List.length_cons, List.length_nil]

/-- C11: TLV record encoding.  For every buffer (data pointer not below the base) with enough
room, every record type `t` and every value `v` of length `n`, `fastd_handshake_add` returns and
appends exactly `4 + n` bytes to the buffer: `t` and `n` as 16-bit little-endian numbers (exact
for `t < 65536` and `n ≤ 65535`), then the `n` value bytes unchanged; the bytes already in the
buffer are unchanged, `len` grows by exactly `4 + n` and the other fields stay; and a sequence
of adds with enough room for all records yields the concatenation of the records in call
order. -/
theorem handshake_record_encoding (b : _fastd_buffer) (hbase : b.base ≤ b.data) :
    (∀ (t : Nat) (v : List Nat), b.data + b.len + 4 + v.length ≤ b.base + b.base_len →
        ∃ b1 : _fastd_buffer, fastd_handshake_add b t v.length v = some b1 ∧
          b1.bytes = b.bytes ++ record_bytes t v ∧
          (record_bytes t v).length = 4 + v.length ∧
          (t < 65536 → nonce_value ((record_bytes t v).take 2) = t) ∧
          (v.length ≤ 65535 →
            nonce_value (((record_bytes t v).drop 2).take 2) = v.length) ∧
          (record_bytes t v).drop 4 = v ∧
          b1.len = b.len + (4 + v.length) ∧
          b1.base = b.base ∧ b1.base_len = b.base_len ∧ b1.data = b.data) ∧
      ∀ records : List (Nat × List Nat),
        b.data + b.len + (records.map (fun r => 4 + r.2.length)).sum ≤ b.base + b.base_len →
        ∃ b2 : _fastd_buffer, handshake_add_all b records = some b2 ∧
          b2.bytes = b.bytes ++ (records.map (fun r => record_bytes r.1 r.2)).flatten ∧
          b2.len = b.len + (records.map (fun r => 4 + r.2.length)).sum := by
  constructor
  · intro t v hroom
    obtain ⟨b1, h1, hbytes, hlen, hb, hbl, hd⟩ := fastd_handshake_add_spec b t v hbase hroom
    obtain ⟨f1, f2, f3, f4⟩ := record_bytes_fields t v
    exact ⟨b1, h1, hbytes, f4, f1, f2, f3, hlen, hb, hbl, hd⟩
  · intro records hroom
    obtain ⟨b2, h2, hbytes, hlen, _⟩ := handshake_add_all_spec records b hbase hroom
    exact ⟨b2, h2, hbytes, hlen⟩

/-- An instance of `handshake_record_encoding`: a mode record and an MTU record added to a
buffer that holds the packet type byte. -/
theorem handshake_record_encoding_witness :
    (∃ b1 : _fastd_buffer,
        fastd_handshake_add (fastd_buffer_alloc_raw 1000 1 3 20) 11 2 [220, 5] = some b1 ∧
        b1.bytes = [0, 11, 0, 2, 0, 220, 5] ∧ b1.len = 7) ∧
      ∃ b2 : _fastd_buffer,
        handshake_add_all (fastd_buffer_alloc_raw 1000 1 3 20) [(4, [1]), (11, [220, 5])]
          = some b2 ∧
        b2.bytes = [0, 4, 0, 1, 0, 1, 11, 0, 2, 0, 220, 5] ∧ b2.len = 12 :=
  have h := handshake_record_encoding (fastd_buffer_alloc_raw 1000 1 3 20) (by decide)
  ⟨(h.1 11 [220, 5] (by decide)).imp (fun _ hb => ⟨hb.1, hb.2.1, hb.2.2.2.2.2.2.1⟩),
    (h.2 [(4, [1]), (11, [220, 5])] (by decide)).imp (fun _ hb => ⟨hb.1, hb.2.1, hb.2.2⟩)⟩

/-- C13, evaluated on the code: for 4 data bytes and 16 bytes of tail space
`fastd_buffer_alloc` requests 4 bytes from `malloc` and records a `base_len` of 20, so the tail
space lies outside the block; a record added to a fresh buffer without data is stored behind a
block of 0 bytes. -/
theorem alloc_request_short :
    fastd_buffer_alloc_request 4 0 16 = 4 ∧
      (fastd_buffer_alloc_raw 1000 4 0 16).base_len = 20 ∧
      (fastd_buffer_alloc_raw 1000 4 0 16).mem.length = 4 ∧
      ¬ ((fastd_buffer_alloc_raw 1000 4 0 16).base_len ≤ fastd_buffer_alloc_request 4 0 16) ∧
      (fastd_buffer_alloc_raw 1000 0 0 8).mem.length = 0 ∧
      (fastd_handshake_add (fastd_buffer_alloc_raw 1000 0 0 8) 4 1 [1]).map
        (fun b => (b.len, b.mem)) = some (5, [4, 0, 1, 0, 1]) := by
  decide

/-! ## The configuration -/

/-- C14: configuration defaults.  After `default_config` the configuration has `mtu = 1500`,
mode TAP, `key_valid = 3600`, `key_valid_old = 60`, `key_refresh = 3300`,
`key_refresh_splay = 300`, `keepalive_timeout = 15`, `peer_stale_time = 90`,
`eth_addr_stale_time = 300`, `min_handshake_interval = 15`, `min_resolve_interval = 15`,
`reorder_time = 10`, `maintenance_interval = 10`, `secure_handshakes = true` and a root peer
group with `max_connections = -1`; in particular `key_refresh + key_refresh_splay ≤ key_valid`. -/
theorem default_config_values :
    default_config.mtu = 1500 ∧
      default_config.mode = fastd_mode.MODE_TAP ∧
      default_config.key_valid = 3600 ∧
      default_config.key_valid_old = 60 ∧
      default_config.key_refresh = 3300 ∧
      default_config.key_refresh_splay = 300 ∧
      default_config.keepalive_timeout = 15 ∧
      default_config.peer_stale_time = 90 ∧
      default_config.eth_addr_stale_time = 300 ∧
      default_config.min_handshake_interval = 15 ∧
      default_config.min_resolve_interval = 15 ∧
      default_config.reorder_time = 10 ∧
      default_config.maintenance_interval = 10 ∧
      default_config.secure_handshakes = true ∧
      default_config.peer_group.max_connections = -1 ∧
      default_config.peer_group.children = [] ∧
      default_config.peer_group.peer_dirs = [] ∧
      default_config.peers = [] ∧
      default_config.method_list = [] ∧
      default_config.key_refresh + default_config.key_refresh_splay
        ≤ default_config.key_valid := by
  refine ⟨rfl, rfl, rfl, rfl, rfl, rfl, rfl, rfl, rfl, rfl, rfl, rfl, rfl, rfl, rfl, rfl, rfl,
    rfl, rfl, ?_⟩
  decide

/-- C17, evaluated on the code: in TUN mode with no peer configured, `fastd_config_check` reads
`conf.peers->next` through the NULL pointer in `config_check_base` before it reaches its test
for an empty peer list; with two peers it ends with the config error, and with one peer (no
child groups, no peer directories) it gets past the TUN checks. -/
theorem tun_check_empty_peers :
    ({ default_config with mode := fastd_mode.MODE_TUN } : fastd_config).peers = [] ∧
      fastd_config_check { default_config with mode := fastd_mode.MODE_TUN }
        = config_result.null_dereference ∧
      fastd_config_check
          { default_config with
            mode := fastd_mode.MODE_TUN
            peers := [⟨some "a", "k1", false, none⟩, ⟨some "b", "k2", false, none⟩] }
        = config_result.exit_error
            "config error: in TUN mode exactly one peer must be configured" ∧
      fastd_config_check
          { default_config with
            mode := fastd_mode.MODE_TUN
            method_list := ["null"]
            peers := [⟨some "a", "k1", false, none⟩] }
        = config_result.ok
            { default_config with
              mode := fastd_mode.MODE_TUN
              method_list := ["null"]
              peers := [⟨some "a", "k1", false, none⟩] } :=
  ⟨rfl, rfl, rfl, rfl⟩

theorem mem_first_occurrences (names : List String) (x : String) :
    x ∈ first_occurrences names ↔ x ∈ names := by
  induction names with
  | nil => simp [first_occurrences]
  | cons n ns ih =>
    simp only [first_occurrences, List.mem_cons, List.mem_filter, ih, decide_eq_true_eq]
    constructor
    · rintro (h | ⟨h, _⟩)
      · exact Or.inl h
      · exact Or.inr h
    · rintro (h | h)
      · exact Or.inl h
      · by_cases hx : x = n
        · exact Or.inl hx
        · exact Or.inr ⟨h, hx⟩

theorem nodup_first_occurrences (names : List String) : (first_occurrences names).Nodup := by
  induction names with
  | nil => simp [first_occurrences]
  | cons n ns ih =>
    simp only [first_occurrences, List.nodup_cons, List.mem_filter, decide_eq_true_eq]
    exact ⟨fun h => h.2 rfl, ih.filter _⟩

/-- The method list after a run of `fastd_config_method` calls: the names that were there, then
the new names in order of first occurrence. -/
theorem config_method_run_list (names : List String) :
    ∀ conf : fastd_config,
      (config_method_run conf names).method_list
        = conf.method_list
          ++ (first_occurrences names).filter (fun n => decide (n ∉ conf.method_list)) := by
  induction names with
  | nil => intro conf; simp [config_method_run, first_occurrences]
  | cons x xs ih =>
    intro conf
    have hrun : config_method_run conf (x :: xs)
        = config_method_run (fastd_config_method conf x) xs := rfl
    rw [hrun, ih]
    by_cases hx : x ∈ conf.method_list
    · have hc : fastd_config_method conf x = conf := by simp [fastd_config_method, hx]
      rw [hc]
      congr 1
      simp only [first_occurrences, List.filter_cons, hx, not_true_eq_false, decide_False,
        Bool.false_eq_true, if_false, List.filter_filter]
      apply List.filter_congr
      intro n _
      by_cases hn : n ∈ conf.method_list
      · simp [hn]
      · have : n ≠ x := fun he => hn (he ▸ hx)
        simp [hn, this]
    · have hc : (fastd_config_method conf x).method_list = conf.method_list ++ [x] := by
        simp [fastd_config_method, hx]
      rw [hc]
      simp only [first_occurrences, List.filter_cons, hx, not_false_eq_true, decide_True,
        if_true, List.filter_filter, List.append_assoc, List.singleton_append]
      congr 2
      apply List.filter_congr
      intro n _
      by_cases hn : n ∈ conf.method_list
      · simp [hn]
      · by_cases hnx : n = x
        · simp [hnx]
        · simp [hn, hnx]

/-- C18: ordered, duplicate-free method list.  For every sequence of `fastd_config_method`
calls starting from an empty list, `conf.method_list` contains each distinct name exactly once,
in order of first occurrence; a call with a name already in the list leaves the configuration
unchanged, and a call with a new name appends it at the end. -/
theorem method_list_ordered (conf : fastd_config) (names : List String)
    (hempty : conf.method_list = []) :
    (config_method_run conf names).method_list = first_occurrences names ∧
      (config_method_run conf names).method_list.Nodup ∧
      (∀ x, x ∈ (config_method_run conf names).method_list ↔ x ∈ names) ∧
      (∀ (c : fastd_config) (name : String), name ∈ c.method_list →
        fastd_config_method c name = c) ∧
      (∀ (c : fastd_config) (name : String), name ∉ c.method_list →
        (fastd_config_method c name).method_list = c.method_list ++ [name]) := by
  have h := config_method_run_list names conf
  rw [hempty] at h
  simp only [List.nil_append, List.not_mem_nil, not_false_eq_true, decide_True,
    List.filter_true] at h
  refine ⟨h, ?_, ?_, ?_, ?_⟩
  · rw [h]
    exact nodup_first_occurrences names
  · intro x
    rw [h]
    exact mem_first_occurrences names x
  · intro c name hn
    simp [fastd_config_method, hn]
  · intro c name hn
    simp [fastd_config_method, hn]

/-- An instance of `method_list_ordered`: five calls with three distinct names. -/
theorem method_list_ordered_witness :
    (config_method_run default_config
        ["salsa2012+gmac", "null", "salsa2012+gmac", "xsalsa20-poly1305", "null"]).method_list
      = ["salsa2012+gmac", "null", "xsalsa20-poly1305"] :=
  (method_list_ordered default_config
    ["salsa2012+gmac", "null", "salsa2012+gmac", "xsalsa20-poly1305", "null"] rfl).1.trans
    (by decide)

/-! ## Results of encrypt and decrypt -/

/-- When the three primitive calls of `method_encrypt` succeed, the function returns true. -/
theorem method_encrypt_succeeds (s : fastd_method_session_state) (inb : fastd_buffer)
    (b0 enc tag : List Nat)
    (hb0 : s.gmac_cipher.crypt s.gmac_cipher_state ZERO_BLOCK
      (fastd_method_expand_nonce s.common.send_nonce s.method.gmac_cipher_info.iv_length)
        = some b0)
    (henc : s.cipher.crypt s.cipher_state (bytes_fit (alignto inb.len BLOCK) inb.data)
      (fastd_method_expand_nonce s.common.send_nonce s.method.cipher_info.iv_length) = some enc)
    (htag : s.ghash.digest s.ghash_state
      ((bytes_fit (alignto inb.len BLOCK) enc).take inb.len
        ++ List.replicate (alignto inb.len BLOCK - inb.len) 0 ++ put_size inb.len) = some tag) :
    (method_encrypt s inb).ret = true := by
  have hb := block_count_bounds inb.len
  have hA : alignto inb.len BLOCK = block_count inb.len BLOCK * BLOCK := rfl
  have hC : ((bytes_fit (alignto inb.len BLOCK) enc).take inb.len).length = inb.len :=
    take_bytes_fit_length _ _ _ (by rw [hA]; exact hb.1)
  have hread : mem_read
      (bytes_fit BLOCK b0 ++ List.take inb.len (bytes_fit (alignto inb.len BLOCK) enc) ++
        List.replicate (alignto inb.len BLOCK - inb.len) 0 ++ put_size inb.len)
      BLOCK ((block_count inb.len BLOCK + 1) * BLOCK)
      = List.take inb.len (bytes_fit (alignto inb.len BLOCK) enc) ++
        List.replicate (alignto inb.len BLOCK - inb.len) 0 ++ put_size inb.len := by
    rw [List.append_assoc, List.append_assoc]
    rw [← List.append_assoc (List.take _ _)]
    apply mem_read_rest
    · rw [bytes_fit_length]
    · simp only [List.length_append, hC, List.length_replicate, put_size_length]
      rw [hA]
      simp only [BLOCK] at hb ⊢
      omega
  unfold method_encrypt
  simp only [encrypt_inmem_buffer, encrypt_outmem, hb0, henc, hread, htag]

/-- C20: no mutation on failure of encrypt.  For every session and plaintext, if
`method_encrypt` returns false, the session (send nonce included) is unchanged and no output
packet is produced, and it returns false only when the authentication cipher, the encryption
cipher or GHASH failed; on every call that returns true the send nonce advances exactly once
(by 2, within 48 bits), the rest of the session stays, and an output packet is produced. -/
theorem encrypt_failure_keeps_state (s : fastd_method_session_state) (inb : fastd_buffer) :
    ((method_encrypt s inb).ret = false →
        (method_encrypt s inb).session = s ∧
        (method_encrypt s inb).session.common.send_nonce = s.common.send_nonce ∧
        (method_encrypt s inb).out = none ∧
        ¬ ∃ b0 enc tag : List Nat,
          s.gmac_cipher.crypt s.gmac_cipher_state ZERO_BLOCK
              (fastd_method_expand_nonce s.common.send_nonce
                s.method.gmac_cipher_info.iv_length) = some b0 ∧
          s.cipher.crypt s.cipher_state (bytes_fit (alignto inb.len BLOCK) inb.data)
              (fastd_method_expand_nonce s.common.send_nonce s.method.cipher_info.iv_length)
            = some enc ∧
          s.ghash.digest s.ghash_state
              ((bytes_fit (alignto inb.len BLOCK) enc).take inb.len
                ++ List.replicate (alignto inb.len BLOCK - inb.len) 0 ++ put_size inb.len)
            = some tag) ∧
      ((method_encrypt s inb).ret = true →
        (method_encrypt s inb).session
          = { s with common :=
              { s.common with send_nonce := (s.common.send_nonce + 2) % 2 ^ 48 } } ∧
        (method_encrypt s inb).session.common.send_nonce
          = (s.common.send_nonce + 2) % 2 ^ 48 ∧
        (method_encrypt s inb).out.isSome = true) := by
  constructor
  · intro hf
    obtain ⟨h1, h2⟩ := method_encrypt_fail s inb hf
    refine ⟨h1, by rw [h1], h2, ?_⟩
    rintro ⟨b0, enc, tag, hb0, henc, htag⟩
    rw [method_encrypt_succeeds s inb b0 enc tag hb0 henc htag] at hf
    exact Bool.noConfusion hf
  · intro ht
    obtain ⟨_, _, _, _, _, _, hsess, hout⟩ := method_encrypt_spec s inb ht
    refine ⟨hsess, by rw [hsess]; rfl, by rw [hout]; rfl⟩

/-- An instance of `encrypt_failure_keeps_state`: with a failing encryption cipher the example
session keeps its send nonce 1; with the working cipher the nonce advances to 3. -/
theorem encrypt_failure_keeps_state_witness :
    ((method_encrypt { demo_session ⟨1, 0, 0⟩ with cipher := failing_cipher }
          demo_frame).session.common.send_nonce = 1 ∧
        (method_encrypt { demo_session ⟨1, 0, 0⟩ with cipher := failing_cipher }
          demo_frame).out = none) ∧
      (method_encrypt (demo_session ⟨1, 0, 0⟩) demo_frame).session.common.send_nonce = 3 :=
  have h := (encrypt_failure_keeps_state
    { demo_session ⟨1, 0, 0⟩ with cipher := failing_cipher } demo_frame).1 (by decide)
  ⟨⟨h.2.1, h.2.2.1⟩,
    ((encrypt_failure_keeps_state (demo_session ⟨1, 0, 0⟩) demo_frame).2 (by decide)).2.1⟩

/-! ## Reloading the peer directories -/

theorem strequal_iff (a b : Option String) : strequal a b = true ↔ a = b := by
  unfold strequal
  exact beq_iff_eq

theorem find_new_peer_none (p : fastd_peer_config) (new : List fastd_peer_config)
    (h : find_new_peer p new = none) :
    ∀ q ∈ new, ¬ (p.config_source_dir = q.config_source_dir ∧ strequal p.name q.name = true) := by
  induction new with
  | nil => intro q hq; simp at hq
  | cons a new ih =>
    intro q hq
    unfold find_new_peer at h
    split at h
    · exact Option.noConfusion h
    · rename_i hna
      cases hf : find_new_peer p new with
      | none =>
        rcases List.mem_cons.1 hq with hq | hq
        · rw [hq]; exact hna
        · exact ih hf q hq
      | some r =>
        rw [hf] at h
        exact Option.noConfusion h

theorem find_new_peer_some (p q : fastd_peer_config) (new others : List fastd_peer_config)
    (h : find_new_peer p new = some (q, others)) :
    ∃ l1 l2 : List fastd_peer_config, new = l1 ++ q :: l2 ∧ others = l1 ++ l2 ∧
      (p.config_source_dir = q.config_source_dir ∧ strequal p.name q.name = true) ∧
      ∀ a ∈ l1, ¬ (p.config_source_dir = a.config_source_dir ∧ strequal p.name a.name = true) := by
  induction new generalizing others with
  | nil => simp [find_new_peer] at h
  | cons a new ih =>
    unfold find_new_peer at h
    split at h
    · rename_i hk
      simp only [Option.some.injEq, Prod.mk.injEq] at h
      obtain ⟨h1, h2⟩ := h
      subst h1
      subst h2
      exact ⟨[], new, rfl, rfl, hk, by simp⟩
    · rename_i hna
      cases hf : find_new_peer p new with
      | none =>
        rw [hf] at h
        exact Option.noConfusion h
      | some r =>
        obtain ⟨r1, r2⟩ := r
        rw [hf] at h
        simp only [Option.some.injEq, Prod.mk.injEq] at h
        obtain ⟨h1, h2⟩ := h
        subst h1
        subst h2
        obtain ⟨l1, l2, e1, e2, hk, hl⟩ := ih r2 hf
        refine ⟨a :: l1, l2, by rw [e1]; rfl, by rw [e2]; rfl, hk, ?_⟩
        intro b hb
        rcases List.mem_cons.1 hb with hb | hb
        · rw [hb]; exact hna
        · exact hl b hb

theorem any_key_false (equal : fastd_peer_config → fastd_peer_config → Bool)
    (p : fastd_peer_config) (l : List fastd_peer_config)
    (h : ∀ q ∈ l,
      ¬ (p.config_source_dir = q.config_source_dir ∧ strequal p.name q.name = true)) :
    l.any (fun q => decide (p.config_source_dir = q.config_source_dir)
      && strequal p.name q.name && equal p q) = false := by
  rw [List.any_eq_false]
  intro q hq
  have := h q hq
  by_cases h1 : p.config_source_dir = q.config_source_dir
  · have h2 : strequal p.name q.name ≠ true := fun h2 => this ⟨h1, h2⟩
    simp [h2]
  · simp [h1]

theorem discarded_cons (equal : fastd_peer_config → fastd_peer_config → Bool)
    (p : fastd_peer_config) (old : List fastd_peer_config) (q : fastd_peer_config) :
    new_peer_discarded equal (p :: old) q
      = ((decide (p.config_source_dir ≠ none) && decide (p.config_source_dir = q.config_source_dir)
          && strequal p.name q.name && equal p q)
        || new_peer_discarded equal old q) := by
  simp [new_peer_discarded]

theorem discarded_cons_of_no_key (equal : fastd_peer_config → fastd_peer_config → Bool)
    (p : fastd_peer_config) (old : List fastd_peer_config) (q : fastd_peer_config)
    (h : ¬ (p.config_source_dir = q.config_source_dir ∧ strequal p.name q.name = true)) :
    new_peer_discarded equal (p :: old) q = new_peer_discarded equal old q := by
  rw [discarded_cons]
  by_cases h1 : p.config_source_dir = q.config_source_dir
  · have h2 : strequal p.name q.name ≠ true := fun h2 => h ⟨h1, h2⟩
    simp [h2]
  · simp [h1]

/-- In a list with unique directory peers, the peers behind a peer with the key of a directory
peer `p` do not have that key. -/
theorem unique_behind (p q : fastd_peer_config) (l1 l2 : List fastd_peer_config)
    (hu : dir_peers_unique (l1 ++ q :: l2)) (hp : p.config_source_dir ≠ none)
    (hk : p.config_source_dir = q.config_source_dir ∧ strequal p.name q.name = true) :
    ∀ a ∈ l2,
      ¬ (p.config_source_dir = a.config_source_dir ∧ strequal p.name a.name = true) := by
  intro a ha hka
  have hq := (List.pairwise_append.1 hu).2.1
  have hqa := (List.pairwise_cons.1 hq).1 a ha
  apply hqa
  refine ⟨by rw [← hk.1]; exact hp, by rw [← hk.1, hka.1], ?_⟩
  rw [strequal_iff] at *
  rw [← hk.2, hka.2]

/-- With unique directory peers in both lists, `peer_dirs_handle_old_peers` keeps exactly the
old peers that the removal rule lets stay and the new peers that are not discarded. -/
theorem peer_dirs_handle_old_peers_spec (equal : fastd_peer_config → fastd_peer_config → Bool)
    (old : List fastd_peer_config) :
    ∀ new : List fastd_peer_config, dir_peers_unique old → dir_peers_unique new →
      (peer_dirs_handle_old_peers equal old new).1 = old.filter (old_peer_stays equal new) ∧
      (peer_dirs_handle_old_peers equal old new).2
        = new.filter (fun q => !new_peer_discarded equal old q) := by
  induction old with
  | nil =>
    intro new _ _
    simp [peer_dirs_handle_old_peers, new_peer_discarded]
  | cons p old ih =>
    intro new hold hnew
    have hold2 : dir_peers_unique old := (List.pairwise_cons.1 hold).2
    have hp : ∀ p2 ∈ old, ¬ peers_clash p p2 := (List.pairwise_cons.1 hold).1
    rw [peer_dirs_handle_old_peers]
    by_cases hs : p.config_source_dir = none
    · rw [if_pos hs]
      obtain ⟨ih1, ih2⟩ := ih new hold2 hnew
      have hstay : old_peer_stays equal new p = true := by simp [old_peer_stays, hs]
      constructor
      · simp only [ih1, List.filter_cons, hstay, if_true]
      · simp only [ih2]
        apply List.filter_congr
        intro q _
        rw [discarded_cons]
        simp [hs]
    · rw [if_neg hs]
      cases hf : find_new_peer p new with
      | none =>
        have hno := find_new_peer_none p new hf
        obtain ⟨ih1, ih2⟩ := ih new hold2 hnew
        have hstay : old_peer_stays equal new p = false := by
          simp only [old_peer_stays, hs, decide_False, Bool.false_or]
          exact any_key_false equal p new hno
        constructor
        · simp only [ih1, List.filter_cons, hstay, Bool.false_eq_true, if_false]
        · simp only [ih2]
          apply List.filter_congr
          intro q hq
          rw [discarded_cons_of_no_key equal p old q (hno q hq)]
      | some r =>
        obtain ⟨q, others⟩ := r
        obtain ⟨l1, l2, e1, e2, hk, hl1⟩ := find_new_peer_some p q new others hf
        subst e1
        subst e2
        have hl2 := unique_behind p q l1 l2 hnew hs hk
        simp only []
        by_cases he : equal p q = true
        · rw [if_pos he]
          have hothers : dir_peers_unique (l1 ++ l2) :=
            List.Pairwise.sublist
              (List.Sublist.append (List.Sublist.refl l1) (List.sublist_cons_self q l2)) hnew
          obtain ⟨ih1, ih2⟩ := ih (l1 ++ l2) hold2 hothers
          have hstay : old_peer_stays equal (l1 ++ q :: l2) p = true := by
            simp only [old_peer_stays, hs, decide_False, Bool.false_or, List.any_append,
              List.any_cons, hk.1, decide_True, hk.2, he, Bool.and_self, Bool.true_or,
              Bool.or_true]
          constructor
          · simp only [ih1, List.filter_cons, hstay, if_true, List.cons.injEq, true_and]
            apply List.filter_congr
            intro p2 hp2
            have hnk : ¬ (p2.config_source_dir = q.config_source_dir
                ∧ strequal p2.name q.name = true) := by
              intro hk2
              apply hp p2 hp2
              refine ⟨hs, by rw [hk.1, hk2.1], ?_⟩
              rw [strequal_iff] at *
              rw [hk.2, hk2.2]
            have hq : (decide (p2.config_source_dir = q.config_source_dir)
                && strequal p2.name q.name && equal p2 q) = false := by
              by_cases h1 : p2.config_source_dir = q.config_source_dir
              · have h2 : strequal p2.name q.name ≠ true := fun h2 => hnk ⟨h1, h2⟩
                simp [h2]
              · simp [h1]
            simp only [old_peer_stays, List.any_append, List.any_cons, hq, Bool.false_or]
          · simp only [ih2, List.filter_append, List.filter_cons]
            have hdq : new_peer_discarded equal (p :: old) q = true := by
              rw [discarded_cons]
              have h1 : decide (p.config_source_dir ≠ none) = true := decide_eq_true hs
              have h2 : decide (p.config_source_dir = q.config_source_dir) = true :=
                decide_eq_true hk.1
              rw [h1, h2, hk.2, he]
              rfl
            simp only [hdq, Bool.not_true, Bool.false_eq_true, if_false]
            congr 1
            · apply List.filter_congr
              intro a ha
              rw [discarded_cons_of_no_key equal p old a (hl1 a ha)]
            · apply List.filter_congr
              intro a ha
              rw [discarded_cons_of_no_key equal p old a (hl2 a ha)]
        · rw [if_neg he]
          obtain ⟨ih1, ih2⟩ := ih (l1 ++ q :: l2) hold2 hnew
          have he2 : equal p q = false := by simpa using he
          have hstay : old_peer_stays equal (l1 ++ q :: l2) p = false := by
            simp only [old_peer_stays, hs, decide_False, Bool.false_or, List.any_append,
              List.any_cons, he2, Bool.and_false, Bool.false_or,
              any_key_false equal p l1 hl1, any_key_false equal p l2 hl2]
          constructor
          · simp only [ih1, List.filter_cons, hstay, Bool.false_eq_true, if_false]
          · simp only [ih2]
            apply List.filter_congr
            intro a ha
            rw [discarded_cons]
            rcases List.mem_append.1 ha with ha | ha
            · rw [← discarded_cons, discarded_cons_of_no_key equal p old a (hl1 a ha)]
            · rcases List.mem_cons.1 ha with ha | ha
              · rw [ha]
                simp [he2]
              · rw [← discarded_cons, discarded_cons_of_no_key equal p old a (hl2 a ha)]

theorem peer_dirs_handle_old_peers_sublist
    (equal : fastd_peer_config → fastd_peer_config → Bool) (old : List fastd_peer_config) :
    ∀ new : List fastd_peer_config,
      (peer_dirs_handle_old_peers equal old new).1.Sublist old ∧
      (peer_dirs_handle_old_peers equal old new).2.Sublist new := by
  induction old with
  | nil =>
    intro new
    exact ⟨List.Sublist.refl _, List.Sublist.refl _⟩
  | cons p old ih =>
    intro new
    rw [peer_dirs_handle_old_peers]
    by_cases hs : p.config_source_dir = none
    · rw [if_pos hs]
      exact ⟨List.Sublist.cons₂ p (ih new).1, (ih new).2⟩
    · rw [if_neg hs]
      cases hf : find_new_peer p new with
      | none => exact ⟨List.Sublist.cons p (ih new).1, (ih new).2⟩
      | some r =>
        obtain ⟨q, others⟩ := r
        obtain ⟨l1, l2, e1, e2, _, _⟩ := find_new_peer_some p q new others hf
        subst e1
        subst e2
        simp only []
        by_cases he : equal p q = true
        · rw [if_pos he]
          refine ⟨List.Sublist.cons₂ p (ih (l1 ++ l2)).1, ?_⟩
          exact List.Sublist.trans (ih (l1 ++ l2)).2
            (List.Sublist.append (List.Sublist.refl l1) (List.sublist_cons_self q l2))
        · rw [if_neg he]
          exact ⟨List.Sublist.cons p (ih _).1, (ih _).2⟩

/-- Statically configured peers all stay, and every directory peer that stays has used up one new
peer. -/
theorem peer_dirs_handle_old_peers_count
    (equal : fastd_peer_config → fastd_peer_config → Bool) (old : List fastd_peer_config) :
    ∀ new : List fastd_peer_config,
      (peer_dirs_handle_old_peers equal old new).1.filter
          (fun p => decide (p.config_source_dir = none))
        = old.filter (fun p => decide (p.config_source_dir = none)) ∧
      (peer_dirs_handle_old_peers equal old new).2.length
          + ((peer_dirs_handle_old_peers equal old new).1.filter
              (fun p => decide (p.config_source_dir ≠ none))).length
        = new.length := by
  induction old with
  | nil =>
    intro new
    simp [peer_dirs_handle_old_peers]
  | cons p old ih =>
    intro new
    rw [peer_dirs_handle_old_peers]
    by_cases hs : p.config_source_dir = none
    · rw [if_pos hs]
      obtain ⟨ih1, ih2⟩ := ih new
      simp only [List.filter_cons, hs, decide_True, if_true, ih1, ne_eq, not_true_eq_false,
        decide_False, Bool.false_eq_true, if_false]
      exact ⟨trivial, ih2⟩
    · rw [if_neg hs]
      cases hf : find_new_peer p new with
      | none =>
        obtain ⟨ih1, ih2⟩ := ih new
        simp only [List.filter_cons, hs, decide_False, Bool.false_eq_true, if_false, ih1]
        exact ⟨trivial, ih2⟩
      | some r =>
        obtain ⟨q, others⟩ := r
        obtain ⟨l1, l2, e1, e2, _, _⟩ := find_new_peer_some p q new others hf
        subst e1
        subst e2
        simp only []
        by_cases he : equal p q = true
        · rw [if_pos he]
          obtain ⟨ih1, ih2⟩ := ih (l1 ++ l2)
          simp only [List.filter_cons, hs, decide_False, Bool.false_eq_true, if_false, ih1,
            ne_eq, not_false_eq_true, decide_True, if_true, List.length_cons,
            List.length_append, true_and]
          simp only [List.length_append, ne_eq] at ih2
          omega
        · rw [if_neg he]
          obtain ⟨ih1, ih2⟩ := ih (l1 ++ q :: l2)
          simp only [List.filter_cons, hs, decide_False, Bool.false_eq_true, if_false, ih1]
          exact ⟨trivial, ih2⟩

/-- Claim C15, counterexample: the old directory peer `a` with key `k1` is removed although the
new list holds a peer with the same source directory and name and an equal configuration; the
search stops at the first new peer with that directory and name, which has another key. -/
theorem reload_removal_counterexample :
    (peer_dirs_handle_old_peers demo_equal [demo_dir_peer 1 "a" "k1"]
        [demo_dir_peer 1 "a" "k2", demo_dir_peer 1 "a" "k1"]).1 = [] ∧
    (demo_dir_peer 1 "a" "k1").config_source_dir ≠ none ∧
    ∃ q ∈ [demo_dir_peer 1 "a" "k2", demo_dir_peer 1 "a" "k1"],
      (demo_dir_peer 1 "a" "k1").config_source_dir = q.config_source_dir ∧
      (demo_dir_peer 1 "a" "k1").name = q.name ∧
      demo_equal (demo_dir_peer 1 "a" "k1") q = true := by
  decide

/-- Claim C15, amended: for all lists `peer_dirs_handle_old_peers` keeps the old peers that stay
in their order and keeps every statically configured peer; when source directory and name are
unique among the directory peers of the old list and of the new list, an old peer is removed if
and only if it is a directory peer and no new peer has its source directory and name with an
equal configuration. -/
theorem reload_removal_rule (equal : fastd_peer_config → fastd_peer_config → Bool)
    (old new : List fastd_peer_config) :
    (peer_dirs_handle_old_peers equal old new).1.Sublist old ∧
    (peer_dirs_handle_old_peers equal old new).1.filter
        (fun p => decide (p.config_source_dir = none))
      = old.filter (fun p => decide (p.config_source_dir = none)) ∧
    (dir_peers_unique old → dir_peers_unique new →
      (peer_dirs_handle_old_peers equal old new).1 = old.filter (old_peer_stays equal new) ∧
      ∀ p ∈ old, (p ∉ (peer_dirs_handle_old_peers equal old new).1 ↔
        (p.config_source_dir ≠ none ∧
          ¬ ∃ q ∈ new, p.config_source_dir = q.config_source_dir ∧ p.name = q.name
            ∧ equal p q = true))) := by
  refine ⟨(peer_dirs_handle_old_peers_sublist equal old new).1,
    (peer_dirs_handle_old_peers_count equal old new).1, ?_⟩
  intro hold hnew
  have hspec := (peer_dirs_handle_old_peers_spec equal old new hold hnew).1
  refine ⟨hspec, ?_⟩
  intro p hp
  rw [hspec, List.mem_filter]
  simp only [hp, true_and, old_peer_stays, Bool.or_eq_true, decide_eq_true_eq, List.any_eq_true,
    Bool.and_eq_true, strequal_iff, not_or, ne_eq, and_assoc]

/-- Claim C15, instance: the example lists have unique directory peers, and of the old peers
exactly the static peer and the unchanged directory peer `b` stay. -/
theorem reload_removal_rule_witness :
    dir_peers_unique demo_old_peers ∧ dir_peers_unique demo_read_peers ∧
    (peer_dirs_handle_old_peers demo_equal demo_old_peers demo_read_peers).1
      = demo_old_peers.filter (old_peer_stays demo_equal demo_read_peers) ∧
    (peer_dirs_handle_old_peers demo_equal demo_old_peers demo_read_peers).1
      = [demo_static_peer "gate" "k0", demo_dir_peer 1 "b" "k2"] :=
  ⟨by decide, by decide,
    ((reload_removal_rule demo_equal demo_old_peers demo_read_peers).2.2
      (by decide) (by decide)).1,
    by decide⟩

theorem put_size_be_value (len : Nat) :
    be_value (((put_size len).drop 3).take 5) = (8 * len) % 2 ^ 40 := by
  simp only [put_size, be_value, List.drop_succ_cons, List.drop_zero, List.take_succ_cons,
    List.take_zero, List.foldl_cons, List.foldl_nil, Nat.shiftRight_eq_div_pow,
    Nat.shiftLeft_eq]
  omega

/-- C21: the length block.  For every `len`, `put_size` writes a 16-byte block whose bytes 0..2
and 8..15 are zero and whose bytes 3..7, read as a 40-bit big-endian integer, equal
`(8 * len) mod 2^40`; for every `len < 2^37` the block holds exactly the length in bits, and
`put_size` is injective on such lengths. -/
theorem put_size_block (len : Nat) :
    (put_size len).length = 16 ∧
      (put_size len).take 3 = [0, 0, 0] ∧
      (put_size len).drop 8 = [0, 0, 0, 0, 0, 0, 0, 0] ∧
      (∀ b ∈ put_size len, b < 256) ∧
      be_value (((put_size len).drop 3).take 5) = (8 * len) % 2 ^ 40 ∧
      (len < 2 ^ 37 → be_value (((put_size len).drop 3).take 5) = 8 * len) ∧
      ∀ len2 : Nat, len < 2 ^ 37 → len2 < 2 ^ 37 → put_size len = put_size len2 →
        len = len2 := by
  refine ⟨rfl, rfl, rfl, ?_, put_size_be_value len, ?_, ?_⟩
  · intro b hb
    simp only [put_size, List.mem_cons, List.mem_singleton, List.not_mem_nil, or_false] at hb
    omega
  · intro h
    rw [put_size_be_value]
    omega
  · intro len2 h1 h2 he
    have e1 := put_size_be_value len
    have e2 := put_size_be_value len2
    rw [he, e2] at e1
    omega

/-- An instance of `put_size_block`: the length block for 14 bytes holds 112 bits, and another
length below `2^37` with the same block is 14. -/
theorem put_size_block_witness :
    put_size 14 = [0, 0, 0, 0, 0, 0, 0, 112, 0, 0, 0, 0, 0, 0, 0, 0] ∧
      be_value (((put_size 14).drop 3).take 5) = 8 * 14 ∧
      (put_size 14 = put_size (7 + 7) → 14 = 7 + 7) :=
  ⟨by decide, (put_size_block 14).2.2.2.2.2.1 (by decide),
    (put_size_block 14).2.2.2.2.2.2 (7 + 7) (by decide) (by decide)⟩

/-! ## The fixed-width record encoders -/

/-- Two stores of one byte at neighbouring addresses are one store of two bytes. -/
theorem mem_store_pair (mem : List Nat) (off a b : Nat) :
    mem_store (mem_store mem off [a]) (off + 1) [b] = mem_store mem off [a, b] := by
  unfold mem_store
  have h2 : bytes_fit (off + 1) (bytes_fit off mem ++ [a] ++ List.drop (off + [a].length) mem)
      = bytes_fit off mem ++ [a] := by
    apply bytes_fit_prefix
    simp [bytes_fit_length]
  rw [h2]
  simp only [List.length_singleton, List.length_cons, List.length_nil, List.append_assoc,
    List.singleton_append, List.cons_append, List.nil_append]
  congr 2
  rw [List.drop_append_eq_append_drop, bytes_fit_length]
  have h3 : List.drop (off + 1 + 1) (bytes_fit off mem) = [] := by
    apply List.drop_eq_nil_of_le
    rw [bytes_fit_length]
    omega
  rw [h3, List.nil_append]
  have h4 : off + 1 + 1 - off = 2 := by omega
  rw [h4]
  simp only [List.drop_succ_cons, List.drop_drop]

/-- C25: the fixed-width record encoders agree with the generic one.  For every buffer, record
type `t`, 8-bit value `v` and 16-bit value `w`, `fastd_handshake_add_uint8(t, v)` gives the
result of `fastd_handshake_add(t, 1, [v])` and `fastd_handshake_add_uint16(t, w)` gives the
result of `fastd_handshake_add(t, 2, [w mod 256, w div 256])`: the same buffer when they return,
and the same end in `exit_bug` when the space does not suffice. -/
theorem fixed_width_encoders (b : _fastd_buffer) (t v w : Nat) :
    fastd_handshake_add_uint8 b t v = fastd_handshake_add b t 1 [v % 256] ∧
      fastd_handshake_add_uint16 b t w
        = fastd_handshake_add b t 2 [w % 256, (w >>> 8) % 256] ∧
      (v < 256 → fastd_handshake_add_uint8 b t v = fastd_handshake_add b t 1 [v]) ∧
      (w < 65536 →
        fastd_handshake_add_uint16 b t w = fastd_handshake_add b t 2 [w % 256, w / 256]) := by
  have h8 : fastd_handshake_add_uint8 b t v = fastd_handshake_add b t 1 [v % 256] := by
    unfold fastd_handshake_add_uint8 fastd_handshake_add
    rfl
  have h16 : fastd_handshake_add_uint16 b t w
      = fastd_handshake_add b t 2 [w % 256, (w >>> 8) % 256] := by
    unfold fastd_handshake_add_uint16 fastd_handshake_add
    by_cases hc : b.data + b.len + 6 > b.base + b.base_len
    · have hc2 : b.data + b.len + 4 + 2 > b.base + b.base_len := hc
      rw [if_pos hc, if_pos hc2]
    · have hc2 : ¬ b.data + b.len + 4 + 2 > b.base + b.base_len := hc
      rw [if_neg hc, if_neg hc2]
      simp only [Option.some.injEq]
      have hp : mem_store
          (mem_store (mem_store (mem_store (mem_store (mem_store b.mem
            (b.data + b.len - b.base) [t % 256])
            (b.data + b.len - b.base + 1) [(t >>> 8) % 256])
            (b.data + b.len - b.base + 2) [2]) (b.data + b.len - b.base + 3) [0])
            (b.data + b.len - b.base + 4) [w % 256])
          (b.data + b.len - b.base + 5) [(w >>> 8) % 256]
          = mem_store (mem_store (mem_store (mem_store (mem_store b.mem
            (b.data + b.len - b.base) [t % 256])
            (b.data + b.len - b.base + 1) [(t >>> 8) % 256])
            (b.data + b.len - b.base + 2) [2]) (b.data + b.len - b.base + 3) [0])
            (b.data + b.len - b.base + 4) [w % 256, (w >>> 8) % 256] :=
        mem_store_pair _ (b.data + b.len - b.base + 4) (w % 256) ((w >>> 8) % 256)
      rw [hp]
      rfl
  refine ⟨h8, h16, ?_, ?_⟩
  · intro hv
    rw [h8, Nat.mod_eq_of_lt hv]
  · intro hw
    rw [h16]
    have e : (w >>> 8) % 256 = w / 256 := by
      rw [Nat.shiftRight_eq_div_pow]
      omega
    rw [e]

/-- An instance of `fixed_width_encoders`: the mode record with value 1 and the MTU record with
value 1500, added to a buffer that holds the packet type byte. -/
theorem fixed_width_encoders_witness :
    fastd_handshake_add_uint8 (fastd_buffer_alloc_raw 1000 1 3 20) 4 1
        = fastd_handshake_add (fastd_buffer_alloc_raw 1000 1 3 20) 4 1 [1] ∧
      fastd_handshake_add_uint16 (fastd_buffer_alloc_raw 1000 1 3 20) 11 1500
        = fastd_handshake_add (fastd_buffer_alloc_raw 1000 1 3 20) 11 2 [220, 5] ∧
      (fastd_handshake_add_uint16 (fastd_buffer_alloc_raw 1000 1 3 20) 11 1500).map
          (fun b => b.bytes) = some [0, 11, 0, 2, 0, 220, 5] :=
  ⟨(fixed_width_encoders (fastd_buffer_alloc_raw 1000 1 3 20) 4 1 1500).2.2.1 (by decide),
    (fixed_width_encoders (fastd_buffer_alloc_raw 1000 1 3 20) 11 1 1500).2.2.2 (by decide),
    by decide⟩

/-! ## The aggregated method parameters -/

theorem foldl_max_size_t (l : List Nat) :
    ∀ a : Nat, a ≤ l.foldl max_size_t a ∧ (∀ y ∈ l, y ≤ l.foldl max_size_t a) ∧
      (l.foldl max_size_t a = a ∨ l.foldl max_size_t a ∈ l) := by
  induction l with
  | nil => intro a; simp
  | cons b l ih =>
    intro a
    obtain ⟨h1, h2, h3⟩ := ih (max_size_t a b)
    have hm : a ≤ max_size_t a b ∧ b ≤ max_size_t a b ∧
        (max_size_t a b = a ∨ max_size_t a b = b) := by
      unfold max_size_t
      split <;> omega
    simp only [List.foldl_cons, List.mem_cons, forall_eq_or_imp]
    refine ⟨by omega, ⟨by omega, h2⟩, ?_⟩
    rcases h3 with h3 | h3
    · rcases hm.2.2 with h4 | h4
      · left; rw [h3, h4]
      · right; left; rw [h3, h4]
    · right; right; exact h3

theorem list_max_is_max (l : List Nat) : is_max_of (list_max l) l := by
  obtain ⟨_, h2, h3⟩ := foldl_max_size_t l 0
  refine ⟨h2, ?_, ?_⟩
  · intro h
    rw [h]
    rfl
  · intro hne
    rcases h3 with h3 | h3
    · cases l with
      | nil => exact absurd rfl hne
      | cons b l =>
        have hb := h2 b (List.mem_cons_self b l)
        unfold list_max
        rw [h3] at hb ⊢
        have : b = 0 := by omega
        rw [← this]
        exact List.mem_cons_self b l
    · exact h3

/-- The fields after the loop of `configure_method_parameters`. -/
theorem configure_method_parameters_loop (l : List fastd_method_info) :
    ∀ c : fastd_config,
      (l.foldl configure_method_parameters_step c).max_overhead
        = (l.map (fun m => m.provider.max_overhead)).foldl max_size_t c.max_overhead ∧
      (l.foldl configure_method_parameters_step c).min_encrypt_head_space
        = (l.map (fun m => m.provider.min_encrypt_head_space)).foldl max_size_t
            c.min_encrypt_head_space ∧
      (l.foldl configure_method_parameters_step c).min_decrypt_head_space
        = (l.map (fun m => m.provider.min_decrypt_head_space)).foldl max_size_t
            c.min_decrypt_head_space ∧
      (l.foldl configure_method_parameters_step c).min_encrypt_tail_space
        = (l.map (fun m => m.provider.min_encrypt_tail_space)).foldl max_size_t
            c.min_encrypt_tail_space ∧
      (l.foldl configure_method_parameters_step c).min_decrypt_tail_space
        = (l.map (fun m => m.provider.min_decrypt_tail_space)).foldl max_size_t
            c.min_decrypt_tail_space ∧
      (l.foldl configure_method_parameters_step c).methods = c.methods ∧
      (l.foldl configure_method_parameters_step c).peers = c.peers ∧
      (l.foldl configure_method_parameters_step c).method_list = c.method_list := by
  induction l with
  | nil => intro c; simp
  | cons m l ih =>
    intro c
    simp only [List.foldl_cons, List.map_cons]
    exact ih (configure_method_parameters_step c m)

theorem alignto_16 (n : Nat) :
    alignto n 16 % 16 = 0 ∧ n ≤ alignto n 16 ∧ alignto n 16 < n + 16 := by
  unfold alignto block_count
  omega

/-- C23: aggregated method parameters.  For every array of configured methods,
`configure_method_parameters` sets `conf.max_overhead` and the two tail-space minima to the
maximum of the corresponding provider fields (0 for an empty array); it sets
`conf.min_encrypt_head_space` to a multiple of 16 that is at least every provider's
`min_encrypt_head_space` and less than 16 above their maximum; and it sets
`conf.min_decrypt_head_space` to a value congruent to 8 modulo 16 that is at least every
provider's `min_decrypt_head_space` (the maximum rounded up to a multiple of 16, plus 8), so that
`min_decrypt_head_space + 24` is a multiple of 16.  The method array, the method list and the
peers stay. -/
theorem aggregated_method_parameters (conf : fastd_config) :
    is_max_of (configure_method_parameters conf).max_overhead
        (conf.methods.map (fun m => m.provider.max_overhead)) ∧
      is_max_of (configure_method_parameters conf).min_encrypt_tail_space
        (conf.methods.map (fun m => m.provider.min_encrypt_tail_space)) ∧
      is_max_of (configure_method_parameters conf).min_decrypt_tail_space
        (conf.methods.map (fun m => m.provider.min_decrypt_tail_space)) ∧
      (conf.methods = [] →
        (configure_method_parameters conf).max_overhead = 0 ∧
        (configure_method_parameters conf).min_encrypt_tail_space = 0 ∧
        (configure_method_parameters conf).min_decrypt_tail_space = 0) ∧
      (configure_method_parameters conf).min_encrypt_head_space % 16 = 0 ∧
      (∀ m ∈ conf.methods, m.provider.min_encrypt_head_space
        ≤ (configure_method_parameters conf).min_encrypt_head_space) ∧
      is_max_of (list_max (conf.methods.map (fun m => m.provider.min_encrypt_head_space)))
        (conf.methods.map (fun m => m.provider.min_encrypt_head_space)) ∧
      (configure_method_parameters conf).min_encrypt_head_space
        < list_max (conf.methods.map (fun m => m.provider.min_encrypt_head_space)) + 16 ∧
      (configure_method_parameters conf).min_decrypt_head_space % 16 = 8 ∧
      (∀ m ∈ conf.methods, m.provider.min_decrypt_head_space
        ≤ (configure_method_parameters conf).min_decrypt_head_space) ∧
      is_max_of (list_max (conf.methods.map (fun m => m.provider.min_decrypt_head_space)))
        (conf.methods.map (fun m => m.provider.min_decrypt_head_space)) ∧
      (configure_method_parameters conf).min_decrypt_head_space
        = alignto (list_max (conf.methods.map (fun m => m.provider.min_decrypt_head_space))) 16
          + 8 ∧
      ((configure_method_parameters conf).min_decrypt_head_space + 24) % 16 = 0 ∧
      (configure_method_parameters conf).methods = conf.methods ∧
      (configure_method_parameters conf).method_list = conf.method_list ∧
      (configure_method_parameters conf).peers = conf.peers := by
  obtain ⟨l1, l2, l3, l4, l5, l6, l7, l8⟩ := configure_method_parameters_loop conf.methods
    { conf with
      max_overhead := 0
      min_encrypt_head_space := 0
      min_decrypt_head_space := 0
      min_encrypt_tail_space := 0
      min_decrypt_tail_space := 0 }
  have e1 : (configure_method_parameters conf).max_overhead
      = list_max (conf.methods.map (fun m => m.provider.max_overhead)) := l1
  have e2 : (configure_method_parameters conf).min_encrypt_head_space
      = alignto (list_max (conf.methods.map (fun m => m.provider.min_encrypt_head_space))) 16 :=
    congrArg (fun x => alignto x 16) l2
  have e3 : (configure_method_parameters conf).min_decrypt_head_space
      = alignto (list_max (conf.methods.map (fun m => m.provider.min_decrypt_head_space))) 16
        + 8 :=
    congrArg (fun x => alignto x 16 + 8) l3
  have e4 : (configure_method_parameters conf).min_encrypt_tail_space
      = list_max (conf.methods.map (fun m => m.provider.min_encrypt_tail_space)) := l4
  have e5 : (configure_method_parameters conf).min_decrypt_tail_space
      = list_max (conf.methods.map (fun m => m.provider.min_decrypt_tail_space)) := l5
  have me := list_max_is_max (conf.methods.map (fun m => m.provider.min_encrypt_head_space))
  have md := list_max_is_max (conf.methods.map (fun m => m.provider.min_decrypt_head_space))
  have ae := alignto_16 (list_max (conf.methods.map (fun m => m.provider.min_encrypt_head_space)))
  have ad := alignto_16 (list_max (conf.methods.map (fun m => m.provider.min_decrypt_head_space)))
  refine ⟨?_, ?_, ?_, ?_, ?_, ?_, me, ?_, ?_, ?_, md, e3, ?_, l6, l8, l7⟩
  · rw [e1]; exact list_max_is_max _
  · rw [e4]; exact list_max_is_max _
  · rw [e5]; exact list_max_is_max _
  · intro h
    rw [e1, e4, e5, h]
    exact ⟨rfl, rfl, rfl⟩
  · rw [e2]; exact ae.1
  · intro m hm
    rw [e2]
    have := me.1 (m.provider.min_encrypt_head_space)
      (List.mem_map.2 ⟨m, hm, rfl⟩)
    omega
  · rw [e2]; exact ae.2.2
  · rw [e3]; omega
  · intro m hm
    rw [e3]
    have := md.1 (m.provider.min_decrypt_head_space)
      (List.mem_map.2 ⟨m, hm, rfl⟩)
    omega
  · rw [e3]; omega

/-- An instance of `aggregated_method_parameters`: with the composed-gmac provider and the
example provider the overhead is 24, the tail spaces are 15 and 31, and the head spaces are 32
and 24. -/
theorem aggregated_method_parameters_witness :
    (configure_method_parameters demo_methods_config).max_overhead = 24 ∧
      (configure_method_parameters demo_methods_config).min_encrypt_tail_space = 15 ∧
      (configure_method_parameters demo_methods_config).min_decrypt_tail_space = 31 ∧
      (configure_method_parameters demo_methods_config).min_encrypt_head_space = 32 ∧
      (configure_method_parameters demo_methods_config).min_decrypt_head_space = 24 ∧
      fastd_method_composed_gmac.min_decrypt_head_space
        ≤ (configure_method_parameters demo_methods_config).min_decrypt_head_space ∧
      (configure_method_parameters { default_config with methods := [] }).max_overhead = 0 :=
  ⟨by decide, by decide, by decide, by decide, by decide,
    (aggregated_method_parameters demo_methods_config).2.2.2.2.2.2.2.2.2.1
      ⟨"null+salsa2012+gmac", fastd_method_composed_gmac⟩ (by decide),
    ((aggregated_method_parameters { default_config with methods := [] }).2.2.2.1 rfl).1⟩

/-! ## The scratch array of `method_create_by_name` -/

theorem strlen_le_length (a : List Char) : strlen a ≤ a.length := by
  unfold strlen cstr
  induction a with
  | nil => simp
  | cons c a ih =>
    rw [List.takeWhile_cons]
    split
    · simp only [List.length_cons]
      omega
    · simp

theorem arr_write_length {α : Type} (a src : List α) (off : Nat)
    (h : off + src.length ≤ a.length) : (arr_write a off src).length = a.length := by
  unfold arr_write
  simp only [List.length_append, List.length_take, List.length_drop]
  omega

theorem mem_arr_write {α : Type} (a src : List α) (off : Nat) (x : α) (h : x ∈ src) :
    x ∈ arr_write a off src := by
  unfold arr_write
  simp [h]

/-- The scratch array keeps its `len` elements and holds a NUL once it is filled. -/
theorem cipher_name_scratch_length (name a : List Char)
    (h : cipher_name_scratch name = some a) : a.length = strlen name ∧ NUL ∈ a := by
  have hl := strlen_le_length name
  unfold cipher_name_scratch at h
  simp only [] at h
  split at h
  · rename_i hc
    have e := (Option.some.inj h).symm
    subst e
    have h1 : (arr_write (List.replicate (strlen name) (Char.ofNat 63)) 0
        (name.take (strlen name - 4))).length = strlen name := by
      rw [arr_write_length]
      · simp
      · simp only [List.length_take, List.length_replicate]
        omega
    constructor
    · rw [arr_write_length, h1]
      rw [h1]
      simp only [List.length_cons, List.length_nil]
      omega
    · apply mem_arr_write
      simp
  · split at h
    · rename_i hc
      split at h
      · exact Option.noConfusion h
      · have e := (Option.some.inj h).symm
        subst e
        have h1 : (arr_write (List.replicate (strlen name) (Char.ofNat 63)) 0
            (name.take (strlen name - 5))).length = strlen name := by
          rw [arr_write_length]
          · simp
          · simp only [List.length_take, List.length_replicate]
            omega
        constructor
        · rw [arr_write_length, h1]
          rw [h1]
          simp only [List.length_cons, List.length_nil]
          omega
        · apply mem_arr_write
          simp
    · exact Option.noConfusion h

theorem cipher_name_stores_bound (name : List Char) :
    ∀ st ∈ cipher_name_stores name, st.off + st.size ≤ strlen name := by
  intro st hst
  unfold cipher_name_stores at hst
  simp only [] at hst
  split at hst
  · rename_i hc
    simp only [List.mem_cons, List.mem_singleton, List.not_mem_nil, or_false] at hst
    rcases hst with hst | hst <;> subst hst <;> simp only [] <;> omega
  · split at hst
    · rename_i hc
      split at hst
      · simp at hst
      · simp only [List.mem_cons, List.mem_singleton, List.not_mem_nil, or_false] at hst
        rcases hst with hst | hst <;> subst hst <;> simp only [] <;> omega
    · simp at hst

theorem strchr_lt_strlen (a : List Char) (c : Char) (i : Nat) (h : strchr a c = some i) :
    i < strlen a := by
  unfold strchr at h
  split at h
  · rename_i hc
    have e := (Option.some.inj h).symm
    subst e
    unfold strlen
    exact List.indexOf_lt_length.2 hc
  · exact Option.noConfusion h

theorem nul_mem_strlen_lt (a : List Char) (h : NUL ∈ a) : strlen a < a.length := by
  unfold strlen cstr
  induction a with
  | nil => simp at h
  | cons c a ih =>
    rw [List.takeWhile_cons]
    split
    · rename_i hc
      have hc2 : c ≠ NUL := by simpa using hc
      have h2 : NUL ∈ a := by
        rcases List.mem_cons.1 h with h | h
        · exact absurd h.symm hc2
        · exact h
      have := ih h2
      simp only [List.length_cons]
      omega
    · simp

/-- C26: bounds of the name scratch array.  For every method name of length `len`, every store
of `method_create_by_name` into its `len`-byte scratch array `cipher_name` (the copied part and
the four bytes of `strncpy` for a name ending in `-gmac`, the copied part and the terminator for
a name ending in `+gmac`, and the later store at the `+` found) lies in `[0, len)`; once filled,
the array still has `len` elements and holds a NUL before it is searched for `+`, so that the
search ends inside the array; and for a name shorter than 5 characters there is no store and the
function returns false. -/
theorem scratch_array_bounds (reg : fastd_registry) (name : List Char) :
    (∀ st ∈ cipher_name_stores name, st.off + st.size ≤ strlen name) ∧
      (∀ st ∈ method_create_by_name_stores reg name, st.off + st.size ≤ strlen name) ∧
      (∀ a : List Char, cipher_name_scratch name = some a →
        a.length = strlen name ∧ NUL ∈ a ∧ strlen a < strlen name ∧
        ∀ i : Nat, strchr a '+' = some i → i < strlen a) ∧
      (strlen name < 5 →
        cipher_name_stores name = [] ∧ method_create_by_name_stores reg name = [] ∧
        cipher_name_scratch name = none ∧ method_create_by_name reg name = none) := by
  have hscr : ∀ a : List Char, cipher_name_scratch name = some a →
      a.length = strlen name ∧ NUL ∈ a ∧ strlen a < strlen name ∧
      ∀ i : Nat, strchr a '+' = some i → i < strlen a := by
    intro a ha
    obtain ⟨h1, h2⟩ := cipher_name_scratch_length name a ha
    have h3 := nul_mem_strlen_lt a h2
    rw [h1] at h3
    exact ⟨h1, h2, h3, fun i hi => strchr_lt_strlen a '+' i hi⟩
  have hshort : strlen name < 5 → cipher_name_stores name = [] ∧
      cipher_name_scratch name = none := by
    intro h
    have n1 : ¬ (5 ≤ strlen name
        ∧ streq (name.drop (strlen name - 5)) ['-', 'g', 'm', 'a', 'c'] = true) := by
      intro hc; omega
    have n2 : ¬ (5 ≤ strlen name
        ∧ streq (name.drop (strlen name - 5)) ['+', 'g', 'm', 'a', 'c'] = true) := by
      intro hc; omega
    constructor
    · unfold cipher_name_stores
      simp only []
      rw [if_neg n1, if_neg n2]
    · unfold cipher_name_scratch
      simp only []
      rw [if_neg n1, if_neg n2]
  refine ⟨cipher_name_stores_bound name, ?_, hscr, ?_⟩
  · intro st hst
    unfold method_create_by_name_stores at hst
    split at hst
    · simp at hst
    · rcases List.mem_append.1 hst with hst | hst
      · exact cipher_name_stores_bound name st hst
      · split at hst
        · simp at hst
        · rename_i a ha
          obtain ⟨_, _, h3, h4⟩ := hscr a ha
          split at hst
          · simp at hst
          · rename_i i hi
            have := h4 i hi
            simp only [List.mem_singleton] at hst
            subst hst
            simp only []
            omega
  · intro h
    obtain ⟨s1, s2⟩ := hshort h
    refine ⟨s1, ?_, s2, method_create_by_name_no_scratch reg name s2⟩
    unfold method_create_by_name_stores
    rw [s1, s2]
    split <;> rfl

/-- An instance of `scratch_array_bounds`: for the name `null+aes128-gmac` of 16 characters the
stores cover the offsets 0..11, 12..15 and 4, and the name `gmac` leads to no store. -/
theorem scratch_array_bounds_witness :
    strlen demo_name = 16 ∧
      method_create_by_name_stores demo_registry demo_name = [⟨0, 12⟩, ⟨12, 4⟩, ⟨4, 1⟩] ∧
      (12 : Nat) + 4 ≤ strlen demo_name ∧
      method_create_by_name_stores demo_registry ['g', 'm', 'a', 'c', NUL] = [] :=
  ⟨by decide, by decide,
    (scratch_array_bounds demo_registry demo_name).2.1 ⟨12, 4⟩ (by decide),
    ((scratch_array_bounds demo_registry ['g', 'm', 'a', 'c', NUL]).2.2.2 (by decide)).2.1⟩

/-! ## Tail space and block accesses -/

/-- C22: the declared tail space suffices.  For every input length `n`, the stores of
`method_encrypt` into the input buffer start at or behind the end of the data and end at most
`min_encrypt_tail_space = 15` bytes behind it (the zero padding up to the next multiple of 16);
for every stripped input length `L ≥ 16`, the stores of `method_decrypt` into the input buffer
(the zero padding and the 16-byte length block at block index `block_count(L, 16)`) start at or
behind the end of the data and end at most `min_decrypt_tail_space = 31` bytes behind it. -/
theorem tail_space_suffices (n L : Nat) :
    fastd_method_composed_gmac.min_encrypt_tail_space = 15 ∧
      fastd_method_composed_gmac.min_decrypt_tail_space = 31 ∧
      (∀ st ∈ method_encrypt_in_stores n,
        n ≤ st.off ∧
        st.off + st.size ≤ n + fastd_method_composed_gmac.min_encrypt_tail_space) ∧
      ((method_encrypt_in_stores n).map (fun st => st.size)).sum
        ≤ fastd_method_composed_gmac.min_encrypt_tail_space ∧
      (16 ≤ L →
        (∀ st ∈ method_decrypt_in_stores L,
          L ≤ st.off ∧
          st.off + st.size ≤ L + fastd_method_composed_gmac.min_decrypt_tail_space) ∧
        ((method_decrypt_in_stores L).map (fun st => st.size)).sum
          ≤ fastd_method_composed_gmac.min_decrypt_tail_space ∧
        (⟨block_count L 16 * 16, 16⟩ : store_range) ∈ method_decrypt_in_stores L) := by
  have hn := block_count_bounds n
  have hL := block_count_bounds L
  have e15 : fastd_method_composed_gmac.min_encrypt_tail_space = 15 := rfl
  have e31 : fastd_method_composed_gmac.min_decrypt_tail_space = 31 := rfl
  rw [e15, e31]
  refine ⟨rfl, rfl, ?_, ?_, ?_⟩
  · intro st hst
    unfold method_encrypt_in_stores alignto at hst
    simp only [] at hst
    split at hst
    · simp only [List.mem_singleton] at hst
      subst hst
      simp only []
      omega
    · simp at hst
  · unfold method_encrypt_in_stores alignto
    simp only []
    split
    · simp only [List.map_cons, List.map_nil, List.sum_cons, List.sum_nil]
      omega
    · simp
  · intro _
    refine ⟨?_, ?_, ?_⟩
    · intro st hst
      unfold method_decrypt_in_stores alignto at hst
      simp only [List.mem_append, List.mem_singleton] at hst
      rcases hst with hst | hst
      · split at hst
        · simp only [List.mem_singleton] at hst
          subst hst
          simp only []
          omega
        · simp at hst
      · subst hst
        simp only [BLOCK] at hL ⊢
        omega
    · unfold method_decrypt_in_stores alignto
      simp only []
      split
      · simp only [List.cons_append, List.nil_append, List.map_cons, List.map_nil,
          List.sum_cons, List.sum_nil, BLOCK] at hL ⊢
        omega
      · simp only [List.nil_append, List.map_cons, List.map_nil, List.sum_cons, List.sum_nil,
          BLOCK]
        omega
    · unfold method_decrypt_in_stores
      simp [BLOCK]

/-- An instance of `tail_space_suffices`: for 17 bytes `method_encrypt` pads with 15 bytes and
`method_decrypt` writes 31 bytes behind the data, so both minima are reached. -/
theorem tail_space_suffices_witness :
    method_encrypt_in_stores 17 = [⟨17, 15⟩] ∧
      method_decrypt_in_stores 17 = [⟨17, 15⟩, ⟨32, 16⟩] ∧
      (32 : Nat) + 16 ≤ 17 + fastd_method_composed_gmac.min_decrypt_tail_space ∧
      ((method_decrypt_in_stores 17).map (fun st => st.size)).sum = 31 :=
  ⟨by decide, by decide,
    (((tail_space_suffices 17 17).2.2.2.2 (by decide)).1 ⟨32, 16⟩ (by decide)).2,
    by decide⟩

end Fastd
